/-
  Verification of the propositional-logic solver collection (logictools).

  The repository implements six decision procedures for CNF satisfiability:
  truth-table search (proplog_searchtable.js), naive resolution
  (proplog_naiveres.js), optimized resolution (proplog_res.js), naive DPLL
  (proplog_naivedpll.js), classical DPLL (proplog_olddpll.js) and
  watched-literal DPLL (proplog_dpll.js).

  This file gives a shallow embedding of those engines and settles the
  specification claims against it.  Conventions of the embedding:

  * A JavaScript `Int32Array` is modelled by `I32`: a fixed-length list of
    integers.  Reads out of range yield `none` (JS `undefined`); writes out
    of range are dropped (typed arrays ignore them).  JS comparisons such as
    `varvals[v]===0` are translated to `get? v = some 0`, which is faithful
    also when the read is out of range (`undefined === 0` is false).
  * Loops whose termination is not structural (propagation to fixpoint,
    given-clause saturation, recursive splitting) take a fuel parameter and
    return `none` when the fuel is exhausted.  All theorems hold for every
    fuel value; concrete evaluations use a sufficiently large fuel.
  * Scratch typed arrays (`tmp_array`, `derived`) that the source writes
    sequentially from index 0 and never overflows at its call sites are
    modelled as functionally grown lists.
  * The trace machinery (trace_list, print_trace, showvar) only builds
    human-readable strings and never influences verdicts or assignments;
    the embedding drops it.  Models are kept as lists of signed integers
    (`showvar` of a literal is the literal itself when no name table is
    given).
-/
import Mathlib

/-- Variable (index) of a signed literal: JS computes `0-lit` for negative
    literals and uses the result as an array index. -/
def lvar (l : Int) : Nat := l.natAbs

/-- Polarity of a literal as stored in the assignment arrays: the source
    sets `polarity=1` and flips it to `-1` when the literal is negative. -/
def lsign (l : Int) : Int := if l < 0 then -1 else 1

/-- Model of a JavaScript `Int32Array` of fixed length. -/
structure I32 where
  data : List Int
deriving DecidableEq, Repr

/-- `new Int32Array(n)`: `n` zero entries. -/
def I32.mk0 (n : Nat) : I32 := ⟨List.replicate n 0⟩

/-- Read `a[i]`: `none` models the JS `undefined` of an out-of-range read. -/
def I32.get? (a : I32) (i : Nat) : Option Int := a.data.get? i

/-- Write `a[i]=v`: out-of-range writes on typed arrays are dropped, which
    is exactly the behaviour of `List.set`. -/
def I32.set (a : I32) (i : Nat) (v : Int) : I32 := ⟨a.data.set i v⟩

/-- Zero out the listed variable indices (the restore loops of the DPLL
    engines). -/
def I32.zeroVars (ds : List Nat) (a : I32) : I32 :=
  ds.foldl (fun w v => w.set v 0) a

/-- Verdict of an engine run.  JS returns `false` for UNSAT, the literal
    `true` as a bare SAT marker, or a (possibly empty) list of signed
    literals as a model; all of the latter are truthy. -/
inductive Verdict
  | unsat
  | satMarker
  | model (m : List Int)
deriving DecidableEq, Repr

/-- JS truthiness of a verdict (an empty model list is a truthy JS array). -/
def Verdict.isSat : Verdict → Bool
  | unsat => false
  | satMarker => true
  | model _ => true

/-- Maximum variable of a clause set, as computed by the engines when the
    `maxvarnr` argument is absent or `0` (both are falsy in JS). -/
def maxvar_of (clauses : List (List Int)) : Nat :=
  clauses.foldl (fun m c => c.foldl (fun m l => max m (lvar l)) m) 0

/-- Effective maximum variable: the hint if it is a truthy number, else the
    computed maximum (`if (!maxvarnr)` recomputes also for a hint of `0`). -/
def effective_maxvar (clauses : List (List Int)) : Option Nat → Nat
  | some n => if n = 0 then maxvar_of clauses else n
  | none => maxvar_of clauses

namespace ST

/-- Scan of one clause inside `clauses_truth_value_at`
    (src/proplog_searchtable.js, lines 201-212): returns the pair
    `(clauseval = 1, allvarsfound)`.  The loop breaks at the first literal
    whose variable is assigned its polarity; an unassigned variable clears
    `allvarsfound`; any other value (including an out-of-range read) is
    skipped. -/
def clause_scan (varvals : I32) : List Int → Bool × Bool
  | [] => (false, true)
  | l :: rest =>
    if varvals.get? (lvar l) = some (lsign l) then (true, true)
    else if varvals.get? (lvar l) = some 0 then
      ((clause_scan varvals rest).1, false)
    else clause_scan varvals rest

/-- Loop of `clauses_truth_value_at` over the clause list, threading the
    `allclausesfound` flag (src/proplog_searchtable.js, lines 196-224). -/
def ctv_go (varvals : I32) : List (List Int) → Bool → Int
  | [], allclausesfound => if allclausesfound then 1 else 0
  | c :: rest, allclausesfound =>
    let s := clause_scan varvals c
    if s.1 = false ∧ s.2 = true then -1
    else ctv_go varvals rest (allclausesfound && s.2)

/-- `clauses_truth_value_at clauses varvals` of the truth-table engine:
    1 = clause set true, -1 = false, 0 = undetermined. -/
def clauses_truth_value_at (clauses : List (List Int)) (varvals : I32) : Int :=
  ctv_go varvals clauses true

/-- `store_model`: the assigned entries of `varvals` as signed literals
    `i*varvals[i]`, for `i` from 1 (src/proplog_searchtable.js, 165-172). -/
def store_model (varvals : I32) : List Int :=
  ((List.range varvals.data.length).drop 1).filterMap (fun i =>
    match varvals.get? i with
    | some v => if v ≠ 0 then some ((i : Int) * v) else none
    | none => none)

/-- `satisfiable_by_table_at` (src/proplog_searchtable.js, lines 133-159).
    Returns `(result, model-if-stored, varvals-after-return)`.  The
    unreachable error branch of the source returns JS `undefined`, which is
    falsy and does not restore `varvals`; it is modelled as a `false`
    result. -/
def satisfiable_by_table_at (clauses : List (List Int)) (checkNodes : Bool) :
    Nat → I32 → Nat → Int → Option (Bool × Option (List Int) × I32)
  | 0, _, _, _ => none
  | fuel + 1, varvals, varnr, val =>
    let w1 := varvals.set varnr val
    let len := w1.data.length
    let tmp := clauses_truth_value_at clauses w1
    if (checkNodes ∨ varnr = len - 1) ∧ tmp = 1 then
      some (true, some (store_model w1), w1.set varnr 0)
    else if (checkNodes ∨ varnr = len - 1) ∧ tmp = -1 then
      some (false, none, w1.set varnr 0)
    else if varnr < len - 1 then
      match satisfiable_by_table_at clauses checkNodes fuel w1 (varnr + 1) 1 with
      | none => none
      | some (true, m, w2) => some (true, m, w2.set varnr 0)
      | some (false, _, w2) =>
        match satisfiable_by_table_at clauses checkNodes fuel w2 (varnr + 1) (-1) with
        | none => none
        | some (true, m, w3) => some (true, m, w3.set varnr 0)
        | some (false, _, w3) => some (false, none, w3.set varnr 0)
    else
      some (false, none, w1)

/-- `exports.searchtable` (src/proplog_searchtable.js, lines 77-115):
    computes the maximum variable when the hint is falsy, runs the search
    from variable 1 with value 1 and then value -1, and returns the model
    (SAT) or `false` (UNSAT). -/
def searchtable (clauses : List (List Int)) (maxvarnr : Option Nat)
    (checkNodes : Bool) (fuel : Nat) : Option Verdict :=
  let mv := effective_maxvar clauses maxvarnr
  let varvals := I32.mk0 (mv + 1)
  match satisfiable_by_table_at clauses checkNodes fuel varvals 1 1 with
  | none => none
  | some (true, m, _) => some (.model (m.getD []))
  | some (false, _, w2) =>
    match satisfiable_by_table_at clauses checkNodes fuel w2 1 (-1) with
    | none => none
    | some (true, m, _) => some (.model (m.getD []))
    | some (false, _, _) => some .unsat

end ST

/-- Literal `l` is true under the assignment: the engines read a literal as
    true when `varvals[|l|]` equals the literal's polarity. -/
def litTrue (varvals : I32) (l : Int) : Prop :=
  varvals.get? (lvar l) = some (lsign l)

/-- Literal `l` is false: its variable is assigned the opposite polarity. -/
def litFalse (varvals : I32) (l : Int) : Prop :=
  varvals.get? (lvar l) = some (-(lsign l))

/-- Clause satisfied under a (partial) assignment: it contains a literal
    whose polarity equals the assignment's value for its variable. -/
def clauseSat (varvals : I32) (c : List Int) : Prop :=
  ∃ l ∈ c, litTrue varvals l

/-- Clause falsified: every literal is assigned the opposite polarity. -/
def clauseFalsified (varvals : I32) (c : List Int) : Prop :=
  ∀ l ∈ c, litFalse varvals l

/-- Left-to-right satisfaction as the truth-table evaluator actually
    detects it: a true literal is reached with only false literals before
    it (an unassigned literal ahead of the first true one prevents the
    detection). -/
def clauseCleanSat (varvals : I32) : List Int → Prop
  | [] => False
  | l :: rest => litTrue varvals l ∨ (litFalse varvals l ∧ clauseCleanSat varvals rest)

instance litTrue.instDecidable (varvals : I32) (l : Int) :
    Decidable (litTrue varvals l) := by
  unfold litTrue; infer_instance

instance litFalse.instDecidable (varvals : I32) (l : Int) :
    Decidable (litFalse varvals l) := by
  unfold litFalse; infer_instance

instance clauseCleanSat.instDecidable (varvals : I32) :
    (c : List Int) → Decidable (clauseCleanSat varvals c)
  | [] => isFalse (fun h => h)
  | l :: rest =>
    have hd : Decidable (clauseCleanSat varvals rest) :=
      clauseCleanSat.instDecidable varvals rest
    show Decidable (litTrue varvals l ∨ (litFalse varvals l ∧ clauseCleanSat varvals rest)) from
      @instDecidableOr _ _ _ (@instDecidableAnd _ _ _ hd)

/-- Assignment arrays of the engines hold only -1, 0 and 1. -/
def goodVals (varvals : I32) : Prop :=
  ∀ v ∈ varvals.data, v = -1 ∨ v = 0 ∨ v = 1

/-- All variables of the clause are inside the assignment array. -/
def inRange (varvals : I32) (c : List Int) : Prop :=
  ∀ l ∈ c, lvar l < varvals.data.length

/-- Result of a resolvent construction: the source overloads `false`
    (empty clause), `true` (tautology or unit-subsumed) and an array. -/
inductive MergeRes
  | empty
  | taut
  | clause (c : List Int)
deriving DecidableEq, Repr

namespace NRES

/-- `naive_subsumed c1 c2` (src/proplog_naiveres.js, lines 210-224):
    c1 subsumes c2 iff c1 is no longer than c2 and every literal of c1
    occurs in c2. -/
def naive_subsumed (c1 c2 : List Int) : Bool :=
  if c1.length > c2.length then false
  else c1.all (fun lit => c2.any (fun x => x = lit))

/-- Scan of the merged-literal scratch inside `naive_merge_rest`: at each
    position the source first tests equality (duplicate, break) and then
    the negation (tautology, return).  `some true` = duplicate found,
    `some false` = tautology, `none` = neither. -/
def tmp_find (l : Int) : List Int → Option Bool
  | [] => none
  | x :: rest =>
    if x = l then some true
    else if x = -l then some false
    else tmp_find l rest

/-- Literal-collecting loop of `naive_merge_rest` over one clause `c`,
    skipping position `pos` (the cut literal), appending fresh literals to
    the scratch `tmp`; `none` = tautology detected. -/
def nm_collect (pos : Nat) : List Int → Nat → List Int → Option (List Int)
  | [], _, tmp => some tmp
  | l :: rest, i, tmp =>
    if i = pos then nm_collect pos rest (i + 1) tmp
    else
      match tmp_find l tmp with
      | some true => nm_collect pos rest (i + 1) tmp
      | some false => none
      | none => nm_collect pos rest (i + 1) (tmp ++ [l])

/-- `naive_merge_rest c1 c2 i1 i2` (src/proplog_naiveres.js, lines
    178-204): merge the two clauses dropping the cut positions, detecting
    tautologies and duplicates; an empty result is the empty clause.  The
    source collects into a scratch `Int32Array` sized by the caller's
    `maxvarnr`; their calls never overflow it when the hint is correct and
    the scratch is modelled as a grown list. -/
def naive_merge_rest (c1 c2 : List Int) (i1 i2 : Nat) : MergeRes :=
  match nm_collect i1 c1 0 [] with
  | none => .taut
  | some tmp1 =>
    match nm_collect i2 c2 0 tmp1 with
    | none => .taut
    | some tmp2 => if tmp2.length = 0 then .empty else .clause tmp2

/-- Innermost loop of the naive resolution engine (src/proplog_naiveres.js,
    lines 120-130): try every literal of the processed clause as the mate
    of `sl`; derived clauses are appended to usable; an empty-clause
    derivation breaks this loop with the result flag false. -/
def res_inner (selected processed : List Int) (sl : Int) (i : Nat) :
    List Int → Nat → List (List Int) → Bool × List (List Int)
  | [], _, usable => (true, usable)
  | pl :: restP, j, usable =>
    if 0 - sl = pl then
      match naive_merge_rest selected processed i j with
      | .empty => (false, usable)
      | .taut => res_inner selected processed sl i restP (j + 1) usable
      | .clause d => res_inner selected processed sl i restP (j + 1) (usable ++ [d])
    else res_inner selected processed sl i restP (j + 1) usable

/-- Middle loop over the literals of the selected clause (lines 117-131).
    Note the source's contradiction `break` leaves only the innermost loop:
    the remaining pivots of `selected` are still tried and may push further
    resolvents before the result flag is examined. -/
def res_outer (selected processed : List Int) :
    List Int → Nat → List (List Int) → Bool → Bool × List (List Int)
  | [], _, usable, result => (result, usable)
  | sl :: restS, i, usable, result =>
    let r := res_inner selected processed sl i processed 0 usable
    res_outer selected processed restS (i + 1) r.2 (result && r.1)

/-- Outer loop over the processed clauses (lines 113-133), stopped by
    `if (!result) break` after each processed clause. -/
def res_with_processed (selected : List Int) :
    List (List Int) → List (List Int) → Bool × List (List Int)
  | [], usable => (true, usable)
  | p :: restP, usable =>
    let r := res_outer selected p selected 0 usable true
    if r.1 then res_with_processed selected restP r.2
    else (false, r.2)

/-- Main given-clause loop of `exports.naiveres` (lines 98-137).  The
    usable queue is the caller's clause array itself; the pair returned is
    (result flag, usable queue as left on return). -/
def naiveres_loop : Nat → List (List Int) → List (List Int) →
    Option (Bool × List (List Int))
  | 0, _, _ => none
  | fuel + 1, usable, processed =>
    match usable with
    | [] => some (true, [])
    | selected :: rest =>
      if processed.any (fun p => naive_subsumed p selected) then
        naiveres_loop fuel rest processed
      else
        let r := res_with_processed selected processed rest
        if r.1 then naiveres_loop fuel r.2 (processed ++ [selected])
        else some (false, r.2)

/-- `exports.naiveres` (src/proplog_naiveres.js, lines 77-155).  The
    `maxvarnr` hint only sizes the merge scratch array in the source and is
    not otherwise read, so the embedding carries it unused.  Returns the
    verdict (a bare `true` marker on SAT) together with the final state of
    the caller's clause array. -/
def naiveres (clauses : List (List Int)) (maxvarnr : Option Nat) (fuel : Nat) :
    Option (Verdict × List (List Int)) :=
  match naiveres_loop fuel clauses [] with
  | none => none
  | some (true, u) => some (.satMarker, u)
  | some (false, u) => some (.unsat, u)

end NRES

namespace RES

/-- `store_to_varvals lit varvals` (src/proplog_res.js, lines 234-237):
    record a unit literal in the assignment. -/
def store_to_varvals (w : I32) (lit : Int) : I32 :=
  w.set (lvar lit) (lsign lit)

/-- `store_to_usable` (lines 243-246): usable clauses are kept in 100
    length buckets; bucket 99 also holds every longer clause. -/
def store_to_usable (clause : List Int) (u : List (List (List Int))) :
    List (List (List Int)) :=
  let idx := if clause.length < 100 then clause.length else 99
  u.set idx (((u.get? idx).getD []) ++ [clause])

/-- `pick_selected` (lines 260-267): shift the first clause out of the
    shortest nonempty bucket (indices 1 to 99). -/
def pick_selected (u : List (List (List Int))) :
    Option (List Int × List (List (List Int))) :=
  match ((List.range 100).drop 1).find? (fun i => !((u.get? i).getD []).isEmpty) with
  | none => none
  | some i =>
    match (u.get? i).getD [] with
    | [] => none
    | c :: rest => some (c, u.set i rest)

/-- Prefix scan of `tautology` (lines 273-283). -/
def tautology_go : List Int → List Int → Bool
  | _, [] => false
  | pre, l :: rest =>
    if pre.any (fun x => x = -l) then true
    else tautology_go (pre ++ [l]) rest

/-- `tautology c`: some variable occurs in both polarities. -/
def tautology (c : List Int) : Bool :=
  match c with
  | [] => false
  | x :: rest => tautology_go [x] rest

/-- `quick_sort_in_place` (lines 520-571) sorts a literal array ascending
    (for spans of at most 25 it runs plain insertion sort, which is the
    case for every clause handled in the proofs and evaluations below; a
    sorted permutation of a list is unique, so any correct ascending sort
    computes the same array). -/
def quick_sort_in_place (c : List Int) : List Int :=
  c.insertionSort (· ≤ ·)

/-- Literal-filtering front of `pre_preprocess_clause` and
    `preprocess_clause` (lines 320-340 and 368-387): drop adjacent
    duplicates, cut literals whose variable is assigned opposite, subsume
    on an agreeing assignment (except unit clauses, which are kept), keep
    unassigned literals.  `none` models the `return true` (subsumed). -/
def ppc_scan (varvals : I32) (clen : Nat) :
    List Int → Int → List Int → Option (List Int)
  | [], _, tmp => some tmp
  | lit :: rest, lastlit, tmp =>
    if lit = lastlit then ppc_scan varvals clen rest lastlit tmp
    else if varvals.get? (lvar lit) = some 0 then
      ppc_scan varvals clen rest lit (tmp ++ [lit])
    else if varvals.get? (lvar lit) = some (lsign lit) then
      if clen > 1 then none
      else ppc_scan varvals clen rest lit (tmp ++ [lit])
    else ppc_scan varvals clen rest lit tmp

/-- Two-pointer ordered subset scan shared by the subsumption checks
    (e.g. lines 296-304): do all literals of the first list occur, in
    order, in the second? -/
def ord_subset_go : List Int → List Int → Bool
  | [], _ => true
  | _ :: _, [] => false
  | lit :: restP, t :: restT =>
    if t ≤ lit then
      if t = lit then ord_subset_go restP restT
      else ord_subset_go (lit :: restP) restT
    else false

/-- The inlined subsumption scan of the preprocess functions (lines
    344-360): when the candidate list is empty the stale `found` flag of
    the source is undefined and falsy, so nothing is subsumed. -/
def ord_subsumed_by (processed tmp : List Int) : Bool :=
  match processed with
  | [] => false
  | _ :: _ => ord_subset_go processed tmp

/-- `ordered_subsumed c1 c2` (lines 291-305): c1 subsumes c2, both sorted.
    An empty `c1` reaches the terminal `return true`. -/
def ordered_subsumed (c1 c2 : List Int) : Bool :=
  if c1.length > c2.length then false
  else ord_subset_go c1 c2

/-- Outcome of the clause-preprocessing functions: the source overloads
    `false` (contradiction), `true` (subsumed) and a clause array. -/
inductive PrepRes
  | contradiction
  | subsumed
  | kept (c : List Int)
deriving DecidableEq, Repr

/-- `pre_preprocess_clause` (lines 320-366); its `processed_clauses`
    argument is the plain list scanned linearly. -/
def pre_preprocess_clause (clause : List Int) (varvals : I32)
    (processed_clauses : List (List Int)) : PrepRes :=
  match ppc_scan varvals clause.length clause 0 [] with
  | none => .subsumed
  | some tmp =>
    if tmp.length = 0 then .contradiction
    else if processed_clauses.any (fun p =>
        decide (p.length ≤ tmp.length) && ord_subsumed_by p tmp) then .subsumed
    else if tmp.length = clause.length then .kept clause
    else .kept tmp

/-- Buckets of processed clauses keyed by their first literal; `none`
    models the constant `true` that replaces a backward-subsumed clause
    (the source's `processed.length <= j` test is falsy on `true`). -/
abbrev PBuckets := List (List (Option (List Int)))

/-- `preprocess_clause` (lines 368-438): same literal filtering, then
    forward subsumption through the pos/neg first-literal buckets of the
    processed clauses. -/
def preprocess_clause (clause : List Int) (varvals : I32)
    (posb negb : PBuckets) : PrepRes :=
  match ppc_scan varvals clause.length clause 0 [] with
  | none => .subsumed
  | some tmp =>
    if tmp.length = 0 then .contradiction
    else if tmp.any (fun lit =>
        (((if lit < 0 then negb.get? (lvar lit) else posb.get? (lvar lit)).getD
            []).any (fun pc =>
          match pc with
          | none => false
          | some p => decide (p.length ≤ tmp.length) && ord_subsumed_by p tmp)))
      then .subsumed
    else if tmp.length = clause.length then .kept clause
    else .kept tmp

/-- Scan of `c1` inside `merge_rest` (lines 487-492), skipping the cut
    index: equality is tested before negation at each position;
    `some true` = duplicate, `some false` = tautology. -/
def c1_find (i1 : Nat) (l : Int) : List Int → Nat → Option Bool
  | [], _ => none
  | x :: rest, j =>
    if j = i1 then c1_find i1 l rest (j + 1)
    else if x = l then some true
    else if x = -l then some false
    else c1_find i1 l rest (j + 1)

/-- Collection loop of `merge_rest` over `c2` (lines 474-494): skip the
    cut index, unit-subsume or unit-cut through `varvals`, drop duplicates
    of `c1` literals, detect tautologies. -/
def mr_collect (c1 : List Int) (i1 : Nat) (varvals : I32) :
    List Int → Nat → Nat → List Int → Option (List Int)
  | [], _, _, tmp => some tmp
  | l :: rest, i, i2, tmp =>
    if i = i2 then mr_collect c1 i1 varvals rest (i + 1) i2 tmp
    else if varvals.get? (lvar l) ≠ some 0 then
      if varvals.get? (lvar l) = some (lsign l) then none
      else mr_collect c1 i1 varvals rest (i + 1) i2 tmp
    else
      match c1_find i1 l c1 0 with
      | some true => mr_collect c1 i1 varvals rest (i + 1) i2 tmp
      | some false => none
      | none => mr_collect c1 i1 varvals rest (i + 1) i2 (tmp ++ [l])

/-- Copy the remainder of `c1` skipping the cut index (lines 508-510). -/
def drop_idx (i1 : Nat) : List Int → Nat → List Int
  | [], _ => []
  | x :: rest, i =>
    if i = i1 then drop_idx i1 rest (i + 1)
    else x :: drop_idx i1 rest (i + 1)

/-- Order-preserving merge of the kept `c1` literals with the collected
    `c2` literals (lines 503-511). -/
def mr_merge (i1 : Nat) : List Int → Nat → List Int → List Int
  | cs, i, [] => drop_idx i1 cs i
  | [], _, tmp => tmp
  | x :: restC, i, t :: restT =>
    if i = i1 then mr_merge i1 restC (i + 1) (t :: restT)
    else if x ≤ t then x :: mr_merge i1 restC (i + 1) (t :: restT)
    else t :: mr_merge i1 (x :: restC) i restT

/-- `merge_rest c1 c2 i1 i2` (lines 465-513). -/
def merge_rest (c1 c2 : List Int) (i1 i2 : Nat) (varvals : I32) : MergeRes :=
  match mr_collect c1 i1 varvals c2 0 i2 [] with
  | none => .taut
  | some tmp =>
    if tmp.length = 0 ∧ c1.length < 2 then .empty
    else .clause (mr_merge i1 c1 0 tmp)

/-- Append an entry to bucket `i`. -/
def bpush (b : PBuckets) (i : Nat) (x : Option (List Int)) : PBuckets :=
  b.set i (((b.get? i).getD []) ++ [x])

/-- `store_to_processed` (lines 248-254): index the clause by its first
    literal and append it to the processed list. -/
def store_to_processed (clause : List Int) (processed : List (List Int))
    (posb negb : PBuckets) : List (List Int) × PBuckets × PBuckets :=
  match clause with
  | [] => (processed ++ [clause], posb, negb)
  | lit :: _ =>
    if lit < 0 then
      (processed ++ [clause], posb, bpush negb (lvar lit) (some clause))
    else
      (processed ++ [clause], bpush posb (lvar lit) (some clause), negb)

/-- Result of the per-bucket resolution loop. -/
structure BLoopRes where
  bucket : List (Option (List Int))
  varvals : I32
  usable : List (List (List Int))
  log : List (List Int × List Int)
  ok : Bool
deriving DecidableEq, Repr

/-- Resolution of the selected clause against every live clause of the
    opposite first-literal bucket (src/proplog_res.js, lines 184-201).
    Every performed `merge_rest` call is recorded in the log as the pair
    (selected clause, processed clause).  A derived unit updates the
    assignment at once; if the resolvent subsumes the processed clause the
    bucket slot is overwritten with the `true` marker (`none`). -/
def res_bucket_loop (selected : List Int) :
    List (Option (List Int)) → I32 → List (List (List Int)) →
    List (List Int × List Int) → BLoopRes
  | [], w, u, log => ⟨[], w, u, log, true⟩
  | none :: rest, w, u, log =>
    let r := res_bucket_loop selected rest w u log
    ⟨none :: r.bucket, r.varvals, r.usable, r.log, r.ok⟩
  | some p :: rest, w, u, log =>
    let log1 := log ++ [(selected, p)]
    match merge_rest selected p 0 0 w with
    | .empty => ⟨some p :: rest, w, u, log1, false⟩
    | .taut =>
      let r := res_bucket_loop selected rest w u log1
      ⟨some p :: r.bucket, r.varvals, r.usable, r.log, r.ok⟩
    | .clause d =>
      let w1 := if d.length = 1 then store_to_varvals w d.headI else w
      let u1 := store_to_usable d u
      let e1 : Option (List Int) := if ordered_subsumed d p then none else some p
      let r := res_bucket_loop selected rest w1 u1 log1
      ⟨e1 :: r.bucket, r.varvals, r.usable, r.log, r.ok⟩

/-- State of the main given-clause loop. -/
structure RState where
  varvals : I32
  usable : List (List (List Int))
  processed : List (List Int)
  posb : PBuckets
  negb : PBuckets
  log : List (List Int × List Int)
deriving DecidableEq, Repr

/-- Resolution of one selected clause (with first literal `sl`) against
    the opposite processed bucket, and construction of the successor
    state (src/proplog_res.js, lines 176-205): the flag is the `result`
    of the bucket walk — `true` continues the loop on the second
    component, `false` reports the contradiction. -/
def after_pick (st1 : RState) (sel : List Int) (sl : Int) : Bool × RState :=
  let nr := lvar sl
  let bucket := if sl < 0 then (st1.posb.get? nr).getD []
                else (st1.negb.get? nr).getD []
  let r := res_bucket_loop sel bucket st1.varvals st1.usable st1.log
  let posb2 := if sl < 0 then st1.posb.set nr r.bucket else st1.posb
  let negb2 := if sl < 0 then st1.negb else st1.negb.set nr r.bucket
  if r.ok then
    let w2 := if sel.length = 1 then store_to_varvals r.varvals sel.headI
              else r.varvals
    let pr2 := store_to_processed sel st1.processed posb2 negb2
    (true,
      { varvals := w2, usable := r.usable, processed := pr2.1,
        posb := pr2.2.1, negb := pr2.2.2, log := r.log })
  else
    (false,
      { varvals := r.varvals, usable := r.usable,
        processed := st1.processed, posb := posb2, negb := negb2,
        log := r.log })

/-- Main loop of `exports.resolution` (lines 168-206): pick the front of
    the shortest usable bucket, re-preprocess it, resolve it on its first
    literal against the opposite bucket of processed clauses, then move it
    to the processed set. -/
def res_loop : Nat → RState → Option (Bool × RState)
  | 0, _ => none
  | fuel + 1, st =>
    match pick_selected st.usable with
    | none => some (true, st)
    | some (selected, u1) =>
      let st1 : RState := { st with usable := u1 }
      match preprocess_clause selected st1.varvals st1.posb st1.negb with
      | .contradiction => some (false, st1)
      | .subsumed => res_loop fuel st1
      | .kept sel =>
        match sel with
        | [] => some (false, st1)
        | sl :: _ =>
          let a := after_pick st1 sel sl
          if a.1 then res_loop fuel a.2 else some (false, a.2)

/-- First preprocessing pass (lines 110-124): store unit clauses into the
    assignment and the length-1 bucket; `none` = immediate contradiction. -/
def first_pass : List (List Int) → I32 → List (List (List Int)) →
    Option (I32 × List (List (List Int)))
  | [], w, u => some (w, u)
  | c :: rest, w, u =>
    if c.length ≠ 1 then first_pass rest w u
    else
      match c with
      | lit :: _ =>
        if w.get? (lvar lit) ≠ some 0 then
          if w.get? (lvar lit) = some (lsign lit) then first_pass rest w u
          else none
        else first_pass rest (store_to_varvals w lit) (store_to_usable c u)
      | [] => first_pass rest w u

/-- Second preprocessing pass (lines 129-151): sort, pre-preprocess and
    store the non-unit clauses; `none` = contradiction.  The horn flag the
    source computes here is only printed to the trace and never read by
    the search, so the embedding does not carry it. -/
def second_pass : List (List Int) → I32 → List (List (List Int)) →
    Option (List (List (List Int)))
  | [], _, u => some u
  | c :: rest, w, u =>
    if c.length < 2 then second_pass rest w u
    else if tautology c then second_pass rest w u
    else
      match pre_preprocess_clause (quick_sort_in_place c) w [] with
      | .contradiction => none
      | .subsumed => second_pass rest w u
      | .kept c2 => second_pass rest w (store_to_usable c2 u)

/-- Partial model returned on SAT (lines 216-221): all assigned entries as
    signed literals; the empty list is replaced by the bare `true`
    marker. -/
def result_model (varvals : I32) : List Int :=
  (List.range varvals.data.length).filterMap (fun i =>
    match varvals.get? i with
    | some v => if v ≠ 0 then some ((i : Int) * v) else none
    | none => none)

/-- `exports.resolution` (src/proplog_res.js, lines 80-228).  With the
    hint absent the source computes `NaN` sizes: `Int32Array(NaN)` is a
    zero-length array (modelled by a zero-length `I32`), while
    `new Array(NaN)` for the processed buckets throws a RangeError — runs
    that survive preprocessing without a hint are therefore modelled as
    `none`.  Returns the verdict together with the log of performed
    resolution steps. -/
def resolution (clauses : List (List Int)) (maxvarnr : Option Nat)
    (fuel : Nat) : Option (Verdict × List (List Int × List Int)) :=
  let wlen : Nat := match maxvarnr with | some n => n + 1 | none => 0
  let varvals := I32.mk0 wlen
  let usable0 : List (List (List Int)) := List.replicate 100 []
  match first_pass clauses varvals usable0 with
  | none => some (.unsat, [])
  | some (w1, u1) =>
    match second_pass clauses w1 u1 with
    | none => some (.unsat, [])
    | some u2 =>
      match maxvarnr with
      | none => none
      | some n =>
        let st0 : RState :=
          { varvals := w1, usable := u2, processed := [],
            posb := List.replicate (n + 1) [],
            negb := List.replicate (n + 1) [], log := [] }
        match res_loop fuel st0 with
        | none => none
        | some (true, stF) =>
          let m := result_model stF.varvals
          some ((if m.isEmpty then Verdict.satMarker else Verdict.model m),
            stF.log)
        | some (false, stF) => some (.unsat, stF.log)

end RES

namespace NDPLL

/-- Per-clause scan inside the naive DPLL `unit_propagate`
    (src/proplog_naivedpll.js, lines 201-213): returns
    (clauseval = 1, unassigned count, last unassigned literal seen),
    breaking at the first true literal. -/
def clause_scan (varvals : I32) : List Int → Nat → Int → Bool × Nat × Int
  | [], cnt, ulit => (false, cnt, ulit)
  | l :: rest, cnt, ulit =>
    if varvals.get? (lvar l) = some (lsign l) then (true, cnt, ulit)
    else if varvals.get? (lvar l) = some 0 then
      clause_scan varvals rest (cnt + 1) l
    else clause_scan varvals rest cnt ulit

/-- One pass of `unit_propagate` over all clauses (lines 195-226):
    `none` = a conflict clause was found (all literals false), otherwise
    the queue of unit literals derived in this pass together with the
    `allclausesfound` flag. -/
def pass (varvals : I32) : List (List Int) → Option (List Int × Bool)
  | [] => some ([], true)
  | c :: rest =>
    let s := clause_scan varvals c 0 0
    if s.1 then pass varvals rest
    else if s.2.1 = 0 then none
    else
      match pass varvals rest with
      | none => none
      | some (q, _) =>
        some ((if s.2.1 = 1 then s.2.2 :: q else q), false)

/-- Result of `unit_propagate`: 1 (satisfiable), -1 (conflict, restored),
    or the list of variables assigned by this propagation. -/
inductive PropRes
  | sat
  | conflict
  | undet (vars : List Nat)
deriving DecidableEq, Repr

/-- Apply a derived-unit queue to the assignment, recording the variables
    (lines 240-248). -/
def apply_queue : List Int → I32 → List Nat → I32 × List Nat
  | [], w, d => (w, d)
  | l :: rest, w, d =>
    apply_queue rest (w.set (lvar l) (lsign l)) (d ++ [lvar l])

/-- `unit_propagate` of the naive DPLL engine (lines 181-256), iterated to
    fixpoint; on a conflict all variables recorded in `derived_vars` are
    reset before returning. -/
def unit_propagate (clauses : List (List Int)) :
    Nat → I32 → List Nat → Option (PropRes × I32)
  | 0, _, _ => none
  | fuel + 1, varvals, derived_vars =>
    match pass varvals clauses with
    | none => some (.conflict, I32.zeroVars derived_vars varvals)
    | some (q, acf) =>
      if acf then some (.sat, varvals)
      else if q.isEmpty then some (.undet derived_vars, varvals)
      else
        let a := apply_queue q varvals derived_vars
        unit_propagate clauses fuel a.1 a.2

/-- First unassigned variable (the split choice of lines 137-140). -/
def next_unassigned (varvals : I32) : Nat :=
  match ((List.range varvals.data.length).drop 1).find?
      (fun i => varvals.get? i = some 0) with
  | some i => i
  | none => 0

/-- `satisfiable_at` of the naive DPLL engine (src/proplog_naivedpll.js,
    lines 120-157).  Returns (result, model-if-stored, varvals after
    return).  On the conflict path the frame resets its own decision
    variable (line 135); on the failed-split path it resets only the split
    variable and the derived units (lines 148-149), leaving its own
    decision variable assigned.  The unreachable error branch (no
    unassigned variable after an undetermined propagation) returns the
    falsy JS `undefined` without restoring. -/
def satisfiable_at (clauses : List (List Int)) :
    Nat → I32 → Nat → Int → Option (Bool × Option (List Int) × I32)
  | 0, _, _, _ => none
  | fuel + 1, varvals, varnr, val =>
    let w1 := if varnr ≠ 0 then varvals.set varnr val else varvals
    match unit_propagate clauses (fuel + 1) w1 [] with
    | none => none
    | some (.sat, w2) =>
      some (true, some (ST.store_model w2), w2.set varnr 0)
    | some (.conflict, w2) => some (false, none, w2.set varnr 0)
    | some (.undet ds, w2) =>
      let nextvar := next_unassigned w2
      if nextvar ≠ 0 then
        match satisfiable_at clauses fuel w2 nextvar 1 with
        | none => none
        | some (true, m, w3) => some (true, m, w3)
        | some (false, _, w3) =>
          match satisfiable_at clauses fuel w3 nextvar (-1) with
          | none => none
          | some (true, m, w4) => some (true, m, w4)
          | some (false, _, w4) =>
            some (false, none, I32.zeroVars ds (w4.set nextvar 0))
      else
        some (false, none, w2)

/-- `exports.naivedpll` (src/proplog_naivedpll.js, lines 78-117). -/
def naivedpll (clauses : List (List Int)) (maxvarnr : Option Nat)
    (fuel : Nat) : Option Verdict :=
  let mv := effective_maxvar clauses maxvarnr
  let varvals := I32.mk0 (mv + 1)
  match satisfiable_at clauses fuel varvals 0 0 with
  | none => none
  | some (true, m, _) => some (.model (m.getD []))
  | some (false, _, _) => some .unsat

end NDPLL

namespace ODPLL

/-- Occurrence buckets of the classical DPLL engine: for each variable the
    list of clauses in which it occurs with the given polarity. -/
abbrev Buckets := List (List (List Int))

/-- Append a clause to bucket `i`. -/
def bpush (b : Buckets) (i : Nat) (c : List Int) : Buckets :=
  b.set i (((b.get? i).getD []) ++ [c])

/-- Literal loop of `preprocess` (src/proplog_olddpll.js, lines 154-168).
    The source pushes the clause into a bucket AND into `clauses2` once per
    literal whose negation does not occur earlier in the clause, so a
    clause is recorded in `clauses2` once per such literal; a tautology is
    only skipped from the literal at which it is detected onwards. -/
def pp_lits (c : List Int) : List Int → List Int → Buckets → Buckets →
    List (List Int) → Buckets × Buckets × List (List Int)
  | [], _, posb, negb, cl2 => (posb, negb, cl2)
  | lit :: rest, pre, posb, negb, cl2 =>
    if pre.any (fun x => x = -lit) then
      pp_lits c rest (pre ++ [lit]) posb negb cl2
    else
      let pb := if lit < 0 then posb else bpush posb (lvar lit) c
      let nb := if lit < 0 then bpush negb (lvar lit) c else negb
      pp_lits c rest (pre ++ [lit]) pb nb (cl2 ++ [c])

/-- `preprocess` (lines 149-171): distribute clauses to occurrence
    buckets. -/
def preprocess : List (List Int) → Buckets → Buckets → List (List Int) →
    Buckets × Buckets × List (List Int)
  | [], posb, negb, cl2 => (posb, negb, cl2)
  | c :: rest, posb, negb, cl2 =>
    let r := pp_lits c c [] posb negb cl2
    preprocess rest r.1 r.2.1 r.2.2

/-- Per-clause scan of the classical `unit_propagate` (lines 300-313):
    (useclause, unassigned count, unassigned literal); the loop breaks when
    a second unassigned literal or a true literal is met. -/
def clause_scan (varvals : I32) : List Int → Nat → Int → Bool × Nat × Int
  | [], cnt, ulit => (true, cnt, ulit)
  | l :: rest, cnt, ulit =>
    if varvals.get? (lvar l) = some 0 then
      if cnt > 0 then (false, cnt, ulit)
      else clause_scan varvals rest 1 l
    else if varvals.get? (lvar l) = some (lsign l) then (false, cnt, ulit)
    else clause_scan varvals rest cnt ulit

/-- Walk of one occurrence bucket (lines 294-337): classify each clause;
    a conflict restores every variable of the derived list and fails; a
    unit is assigned at once and appended to queue and derived list. -/
def walk_bucket : List (List Int) → I32 → List Int → List Int →
    Bool × I32 × List Int × List Int
  | [], w, np, allD => (true, w, np, allD)
  | c :: rest, w, np, allD =>
    let s := clause_scan w c 0 0
    if s.1 = false then walk_bucket rest w np allD
    else if s.2.1 = 0 then
      (false, I32.zeroVars (allD.map lvar) w, np, allD)
    else
      let l := s.2.2
      walk_bucket rest (w.set (lvar l) (lsign l)) (np ++ [l]) (allD ++ [l])

/-- Result of the classical `unit_propagate`: `false` (conflict, restored),
    a single derived literal, or the array of derived literals. -/
inductive OPropRes
  | conflict
  | one (l : Int)
  | many (ls : List Int)
deriving DecidableEq, Repr

/-- Queue loop of `unit_propagate` (lines 288-339): process the derived
    queue front to back, walking the buckets of the opposite polarity. -/
def up_go (posb negb : Buckets) : Nat → List Int → List Int → I32 →
    Option (OPropRes × I32)
  | 0, _, _, _ => none
  | fuel + 1, pending, allD, w =>
    match pending with
    | [] =>
      match allD with
      | [l] => some (.one l, w)
      | ls => some (.many ls, w)
    | dlit :: restPending =>
      let bucket := if dlit < 0 then (posb.get? (lvar dlit)).getD []
                    else (negb.get? (lvar dlit)).getD []
      let r := walk_bucket bucket w restPending allD
      if r.1 then up_go posb negb fuel r.2.2.1 r.2.2.2 r.2.1
      else some (.conflict, r.2.1)

/-- `unit_propagate` (lines 272-351): assign the initial derived literals
    immediately, then iterate the queue. -/
def unit_propagate (ini : List Int) (fuel : Nat) (w : I32)
    (posb negb : Buckets) : Option (OPropRes × I32) :=
  let w1 := ini.foldl (fun w l => w.set (lvar l) (lsign l)) w
  up_go posb negb fuel ini ini w1

/-- Clause classification pass of `next_vars` (lines 388-399): was the
    clause satisfied, and its remaining length after cutting false
    literals. -/
def cv_blen (varvals : I32) : List Int → Int → Bool × Int
  | [], blen => (false, blen)
  | l :: rest, blen =>
    if varvals.get? (lvar l) = some (lsign l) then (true, blen)
    else if varvals.get? (lvar l) = some (-(lsign l)) then
      cv_blen varvals rest (blen - 1)
    else cv_blen varvals rest blen

/-- Occurrence/bonus update of `next_vars` for one non-subsumed clause
    (lines 402-421): 0 = no occurrence, plus-or-minus 1 = one polarity,
    2 and above = both polarities with length bonuses. -/
def occ_upd (varvals : I32) (blen : Int) : I32 → List Int → I32
  | occ, [] => occ
  | occ, l :: rest =>
    let occ2 :=
      if varvals.get? (lvar l) = some 0 then
        match occ.get? (lvar l) with
        | some oval =>
          if oval = 0 then occ.set (lvar l) (lsign l)
          else if oval = -(lsign l) then occ.set (lvar l) 2
          else if oval ≥ 2 then
            occ.set (lvar l)
              (oval + (if blen < 3 then 20 else if blen < 4 then 15
                else if 10 - blen < 0 then 1 else 10 - blen))
          else occ
        | none => occ
      else occ
    occ_upd varvals blen occ2 rest

/-- Selection loop of `next_vars` (lines 425-433): collect pure literals
    into a queue and track the strict-maximum bonus variable. -/
def sel_fold (varvals occ : I32) :
    List Nat → List Int → Int → Int → List Int × Int × Int
  | [], q, bonus, nr => (q, bonus, nr)
  | i :: rest, q, bonus, nr =>
    match occ.get? i with
    | none => sel_fold varvals occ rest q bonus nr
    | some oval =>
      if oval = 0 then sel_fold varvals occ rest q bonus nr
      else
        let q2 := if oval < 2 ∧ varvals.get? i = some 0 then q ++ [oval * (i : Int)]
                  else q
        if oval > bonus ∧ varvals.get? i = some 0 then
          sel_fold varvals occ rest q2 oval (i : Int)
        else sel_fold varvals occ rest q2 bonus nr

/-- Result of `next_vars`: a queue of pure literals or a variable to
    split (0 = all assigned). -/
inductive NextVars
  | pure (q : List Int)
  | var (n : Nat)
deriving DecidableEq, Repr

/-- Final choice of `next_vars` (lines 435-441) from the selection
    triple: the pure queue if nonempty, else the bonus variable, else the
    first unassigned variable. -/
def nv_choice (varvals : I32) (sel : List Int × Int × Int) : NextVars :=
  if ¬ sel.1.isEmpty then .pure sel.1
  else if sel.2.2 < 0 then .var (lvar sel.2.2)
  else if sel.2.2 > 0 then .var sel.2.2.toNat
  else
    match ((List.range varvals.data.length).drop 1).find?
        (fun i => varvals.get? i = some 0) with
    | some i => .var i
    | none => .var 0

/-- `next_vars` (src/proplog_olddpll.js, lines 373-442). -/
def next_vars (clauses : List (List Int)) (varvals : I32) (occlen : Nat) :
    NextVars :=
  let occ0 := I32.mk0 occlen
  let occ := clauses.foldl (fun occ c =>
    let cb := cv_blen varvals c (c.length : Int)
    if cb.1 = false ∧ cb.2 > 0 then occ_upd varvals cb.2 occ c else occ) occ0
  nv_choice varvals
    (sel_fold varvals occ ((List.range occ.data.length).drop 1) [] 0 0)

/-- Backtracking restore of `satisfiable_at` (lines 235-246): a numeric
    propagation result restores a single variable (the number 0 marks "no
    propagation done" and restores nothing); an array restores every
    listed literal's variable. -/
def old_restore (pr : OPropRes) (w : I32) : I32 :=
  match pr with
  | .conflict => w
  | .one l => if l < 0 then w.set (lvar l) 0
              else if l ≠ 0 then w.set (lvar l) 0 else w
  | .many ls => ls.foldl (fun w l => w.set (lvar l) 0) w

/-- `satisfiable_at` of the classical DPLL engine (src/proplog_olddpll.js,
    lines 174-248).  The frame's decision literal enters the propagation
    as `derived[0]`, so the propagation result always contains it and the
    restore block resets it together with the derived units. -/
def satisfiable_at (clauses : List (List Int)) (posb negb : Buckets) :
    Nat → I32 → Nat → Int → Option (Bool × Option (List Int) × I32)
  | 0, _, _, _ => none
  | fuel + 1, varvals, varnr, val =>
    let pres :=
      if varnr ≠ 0 then
        unit_propagate [(varnr : Int) * val] (fuel + 1) varvals posb negb
      else some (.one 0, varvals)
    match pres with
    | none => none
    | some (.conflict, w2) => some (false, none, w2)
    | some (pr, w2) =>
      match next_vars clauses w2 w2.data.length with
      | .pure q =>
        let nextlit := q.headI
        let sgn : Int := if nextlit < 0 then -1 else 1
        match satisfiable_at clauses posb negb fuel w2 (lvar nextlit) sgn with
        | none => none
        | some (true, m, w3) => some (true, m, w3)
        | some (false, _, w3) => some (false, none, old_restore pr w3)
      | .var 0 => some (true, some (ST.store_model w2), w2)
      | .var (n + 1) =>
        match satisfiable_at clauses posb negb fuel w2 (n + 1) 1 with
        | none => none
        | some (true, m, w3) => some (true, m, w3)
        | some (false, _, w3) =>
          match satisfiable_at clauses posb negb fuel w3 (n + 1) (-1) with
          | none => none
          | some (true, m, w4) => some (true, m, w4)
          | some (false, _, w4) => some (false, none, old_restore pr w4)

/-- `exports.olddpll` (src/proplog_olddpll.js, lines 90-146). -/
def olddpll (clauses : List (List Int)) (maxvarnr : Option Nat)
    (fuel : Nat) : Option Verdict :=
  let mv := effective_maxvar clauses maxvarnr
  let varvals := I32.mk0 (mv + 1)
  let pp := preprocess clauses (List.replicate (mv + 1) [])
    (List.replicate (mv + 1) []) []
  match satisfiable_at pp.2.2 pp.1 pp.2.1 fuel varvals 0 0 with
  | none => none
  | some (true, m, _) => some (.model (m.getD []))
  | some (false, _, _) => some .unsat

end ODPLL

namespace DPLL

/-- A watched-literal bucket (src/README.md watched engine, `makebuckets`):
    a dense prefixed array whose element 0 is the used length, followed by
    clause references and `0` placeholders.  The embedding separates the
    used count from the entry list (`none` = the `0` placeholder), so JS
    index `i` of the source corresponds to entry index `i - 1`. -/
structure Bucket where
  used : Nat
  entries : List (Option Nat)
deriving DecidableEq, Repr

/-- Search state of the watched-literal engine: the clause store (clauses
    with their two meta slots at positions 0 and 1, addressed by position
    in the store so that watch-slot mutation and bucket membership are
    observable), the watch buckets, the assignment, the activity table and
    the propagation counter. -/
structure DState where
  store : List (List Int)
  posb : List Bucket
  negb : List Bucket
  varvals : I32
  acts : List Int
  upcount : Nat
deriving DecidableEq, Repr

/-- `maxvar_and_meta` (watched engine, lines 461-481): prepend two zero
    meta slots to every clause and compute the largest variable. -/
def maxvar_and_meta (clauses : List (List Int)) : Nat × List (List Int) :=
  (maxvar_of clauses, clauses.map (fun c => 0 :: 0 :: c))

/-- Duplicate/tautology scan of `simplify_clause_list` over the already
    processed (and possibly zeroed) prefix of the clause body: `remove` on
    the negated literal, otherwise the number of equal occurrences before
    the first negated one (each bumps `dups` in the source). -/
def dup_taut_go (lit : Int) : List Int → Bool × Nat
  | [] => (false, 0)
  | x :: rest =>
    if x = -lit then (true, 0)
    else
      let r := dup_taut_go lit rest
      (r.1, (if x = lit then 1 else 0) + r.2)

/-- Literal loop of `simplify_clause_list` over one clause (lines
    503-515), mutating cut and duplicate positions to 0 in place;
    `none` = the clause is removed (subsumed or tautology). -/
def simp_scan (varvals : I32) : Nat → List Int → Nat → Nat → Nat →
    Option (List Int × Nat × Nat)
  | 0, c, _, cuts, dups => some (c, cuts, dups)
  | fuelj + 1, c, j, cuts, dups =>
    match c.get? j with
    | none => some (c, cuts, dups)
    | some lit =>
      if varvals.get? (lvar lit) = some (lsign lit) then none
      else if varvals.get? (lvar lit) = some (-(lsign lit)) then
        simp_scan varvals fuelj (c.set j 0) (j + 1) (cuts + 1) dups
      else
        let dt := dup_taut_go lit ((c.drop 2).take (j - 2))
        if dt.1 then none
        else if dt.2 > 0 then
          simp_scan varvals fuelj (c.set j 0) (j + 1) cuts (dups + dt.2)
        else simp_scan varvals fuelj c (j + 1) cuts dups

/-- Sequential overwrite from index 0 — the clause-rebuilding loop of
    `simplify_clause_list` (lines 543-548) starts its write index at 0,
    so the kept body literals overwrite the two meta slots and the last
    two positions of the rebuilt clause remain 0. -/
def write_from : Nat → List Int → List Int → List Int
  | _, [], nc => nc
  | k, x :: rest, nc => write_from (k + 1) rest (nc.set k x)

/-- Processing of one clause inside `simplify_clause_list` (lines
    497-551): `none` = contradiction (remaining length 0, i.e. nlen = 2
    with the meta slots); `some (none, w)` = clause dropped (removed, or a
    unit that was moved into the assignment); `some (some c2, w)` = kept
    clause. -/
def simp_step (varvals : I32) (c : List Int) :
    Option (Option (List Int) × I32) :=
  match simp_scan varvals c.length c 2 0 0 with
  | none => some (none, varvals)
  | some (c1, cuts, dups) =>
    let nlen : Int := (c.length : Int) - ((cuts : Int) + (dups : Int))
    if nlen = 2 then none
    else if nlen = 3 then
      let lit := (((c1.drop 2).find? (fun x => x ≠ 0)).getD 0)
      some (none, varvals.set (lvar lit) (lsign lit))
    else if nlen ≠ (c.length : Int) then
      let kept := (c1.drop 2).filter (fun x => x ≠ 0)
      let nc0 := ((List.replicate nlen.toNat 0).set 0 ((c1.get? 0).getD 0)).set 1
        ((c1.get? 1).getD 0)
      some (some (write_from 0 kept nc0), varvals)
    else some (some c1, varvals)

/-- Clause loop of `simplify_clause_list` (lines 497-552). -/
def simplify_go : List (List Int) → I32 → List (List Int) →
    Option (List (List Int) × I32)
  | [], w, acc => some (acc, w)
  | c :: rest, w, acc =>
    match simp_step w c with
    | none => none
    | some (none, w2) => simplify_go rest w2 acc
    | some (some c2, w2) => simplify_go rest w2 (acc ++ [c2])

/-- `simplify_clause_list` (lines 490-562): sort the meta clauses by
    length ascending (the JS comparator `a.length-b.length` under the
    required-stable Array#sort; insertion sort computes that stable
    order), then simplify each clause in turn against the accumulating
    unit assignment. -/
def simplify_clause_list (clauses : List (List Int)) (varvals : I32) :
    Option (List (List Int) × I32) :=
  simplify_go (clauses.insertionSort (fun a b => a.length ≤ b.length)) varvals []

/-- Occurrence counting of `count_occurrences` for one clause body (lines
    578-601); `clen` is the full meta-clause length. -/
def occ_upd2 (varvals : I32) (clen : Int) : I32 → List Int → I32
  | occ, [] => occ
  | occ, l :: rest =>
    let occ2 :=
      if varvals.get? (lvar l) = some 0 then
        match occ.get? (lvar l) with
        | some oval =>
          if oval = 0 then occ.set (lvar l) (lsign l)
          else if oval = -(lsign l) then occ.set (lvar l) 2
          else if oval ≥ 2 then
            occ.set (lvar l)
              (oval + (if clen < 5 then 20 else if clen < 6 then 15
                else if 10 - (clen - 2) < 0 then 1 else 10 - (clen - 2)))
          else occ
        | none => occ
      else occ
    occ_upd2 varvals clen occ2 rest

/-- Pure-variable detection and initial activities (lines 604-621): a
    variable whose occurrence entry stays below 2 — including every
    already-assigned or absent variable, which is never counted — is
    treated as pure: it is (re)assigned by the sign of its entry, its
    activity is zeroed and it is recorded for clause removal. -/
def co_assign (occ : I32) : List Nat → I32 → List Int → List Nat →
    I32 × List Int × List Nat
  | [], w, acts, pures => (w, acts, pures)
  | i :: rest, w, acts, pures =>
    match occ.get? i with
    | none => co_assign occ rest w acts pures
    | some oval =>
      if oval < 2 then
        co_assign occ rest (w.set i (if oval < 0 then -1 else 1))
          (acts.set i 0) (pures ++ [i])
      else
        if w.get? i ≠ some 0 then co_assign occ rest w (acts.set i 0) pures
        else co_assign occ rest w (acts.set i oval) pures

/-- `count_occurrences` (lines 572-663): build activities, assign pure
    variables, and remove every clause containing a variable whose
    activity was zeroed (note this removes clauses containing assigned
    variables without checking the literal's polarity). -/
def count_occurrences (clauses : List (List Int)) (varvals : I32)
    (acts : List Int) : List (List Int) × I32 × List Int :=
  let occ := clauses.foldl (fun occ c =>
    occ_upd2 varvals (c.length : Int) occ (c.drop 2))
    (I32.mk0 varvals.data.length)
  let r := co_assign occ ((List.range occ.data.length).drop 1) varvals acts []
  let clauses2 :=
    if r.2.2.isEmpty then clauses
    else clauses.filter (fun c =>
      ¬ (c.drop 2).any (fun lit => (r.2.1.get? (lvar lit)).getD 1 = 0))
  (clauses2, r.1, r.2.1)

/-- Intermediate state of `makebuckets`: the store plus the raw entry
    lists before the used counts are prefixed. -/
structure MBState where
  store : List (List Int)
  pose : List (List (Option Nat))
  nege : List (List (Option Nat))
deriving DecidableEq, Repr

/-- Prepend an entry to raw bucket `i` (JS `unshift`). -/
def eprepend (b : List (List (Option Nat))) (i : Nat) (x : Option Nat) :
    List (List (Option Nat)) :=
  b.set i (x :: ((b.get? i).getD []))

/-- Append an entry to raw bucket `i` (JS `push`). -/
def eappend (b : List (List (Option Nat))) (i : Nat) (x : Option Nat) :
    List (List (Option Nat)) :=
  b.set i (((b.get? i).getD []) ++ [x])

/-- Body loop of `makebuckets` for one clause (lines 678-695): the first
    two literals become the watched literals (stored into the meta slots)
    and the clause is unshifted into their buckets; every further literal
    only appends a `0` placeholder to its bucket. -/
def mb_clause (cid : Nat) : List Int → Nat → MBState → MBState
  | [], _, st => st
  | lit :: rest, k, st =>
    let idx := lvar lit
    if k < 2 then
      let store2 := st.store.set cid (((st.store.get? cid).getD []).set k lit)
      if lit < 0 then
        mb_clause cid rest (k + 1)
          ⟨store2, st.pose, eprepend st.nege idx (some cid)⟩
      else
        mb_clause cid rest (k + 1)
          ⟨store2, eprepend st.pose idx (some cid), st.nege⟩
    else
      if lit < 0 then
        mb_clause cid rest k ⟨st.store, st.pose, eappend st.nege idx none⟩
      else
        mb_clause cid rest k ⟨st.store, eappend st.pose idx none, st.nege⟩

/-- Clause loop of `makebuckets`. -/
def mb_all : Nat → Nat → MBState → MBState
  | _, 0, st => st
  | cid, n + 1, st =>
    let body := ((st.store.get? cid).getD []).drop 2
    mb_all (cid + 1) n (mb_clause cid body 0 st)

/-- Prefix a raw bucket with its used count (lines 697-710): the count is
    the index of the first `0` placeholder.  The source only counts the
    buckets of variables from 1; the bucket of variable 0 keeps no count
    and every access through it degenerates to an empty walk, modelled by
    a used count of 0. -/
def mk_bucket (entries : List (Option Nat)) : Bucket :=
  ⟨entries.findIdx (fun e => e.isNone), entries⟩

/-- `makebuckets` (lines 675-712). -/
def makebuckets (clauses : List (List Int)) (nvars : Nat) :
    List (List Int) × List Bucket × List Bucket :=
  let stF := mb_all 0 clauses.length
    ⟨clauses, List.replicate nvars [], List.replicate nvars []⟩
  let fin := fun (e : List (List (Option Nat))) =>
    (List.range e.length).map (fun i =>
      if i = 0 then (⟨0, (e.get? i).getD []⟩ : Bucket)
      else mk_bucket ((e.get? i).getD []))
  (stF.store, fin stF.pose, fin stF.nege)

/-- Scan of one watched clause body during propagation (lines 325-362):
    satisfied, a second unassigned literal found (watch must move), unit,
    or conflict. -/
inductive ScanRes
  | satisfied
  | move2 (first second : Int)
  | unitc (l : Int)
  | conflictc
deriving DecidableEq, Repr

/-- The body scan itself; an entry that is a placeholder or out of range
    behaves like a zero-length body, which falls into the conflict branch
    exactly as the JS `0.length` comparison does. -/
def wscan (varvals : I32) : List Int → Nat → Int → ScanRes
  | [], cnt, ulit => if cnt = 0 then .conflictc else .unitc ulit
  | l :: rest, cnt, ulit =>
    if varvals.get? (lvar l) = some 0 then
      if cnt > 0 then .move2 ulit l
      else wscan varvals rest 1 l
    else if varvals.get? (lvar l) = some (lsign l) then .satisfied
    else wscan varvals rest cnt ulit

/-- Bucket accessor: positive or negative bucket of a variable. -/
def getB (st : DState) (isPos : Bool) (v : Nat) : Bucket :=
  (if isPos then st.posb.get? v else st.negb.get? v).getD ⟨0, []⟩

/-- Bucket update. -/
def setB (st : DState) (isPos : Bool) (v : Nat) (b : Bucket) : DState :=
  if isPos then { st with posb := st.posb.set v b }
  else { st with negb := st.negb.set v b }

/-- Clause of a bucket entry; a placeholder or missing entry yields the
    empty pseudo-clause. -/
def entry_clause (st : DState) (e : Option (Option Nat)) : List Int :=
  match e with
  | some (some cid) => (st.store.get? cid).getD []
  | _ => []

/-- JS sparse-array write used when a clause is inserted into a bucket
    past its current length. -/
def pad_set (l : List (Option Nat)) (i : Nat) (x : Option Nat) :
    List (Option Nat) :=
  if i < l.length then l.set i x
  else l ++ List.replicate (i - l.length) none ++ [x]

/-- Add `amount` to the activity of every body literal's variable (the
    conflict bump of lines 374-380). -/
def bump_acts (acts : List Int) (body : List Int) (amount : Int) : List Int :=
  body.foldl (fun a l => a.set (lvar l) (((a.get? (lvar l)).getD 0) + amount)) acts

/-- The watch-move transition of `unit_propagate` (lines 340-360) for a
    real clause entry `cid` whose scan returned a second unassigned
    literal: write the new watched literal into the stale meta slot, push
    the clause into the new literal's bucket, and remove the entry from
    the current bucket by swapping in the last used entry. -/
def move_watch (st : DState) (negdlit : Int) (isPos : Bool) (bvar : Nat)
    (i : Nat) (cid : Nat) (first second : Int) : DState :=
  let c := (st.store.get? cid).getD []
  let w0 := (c.get? 0).getD 0
  let newlit := if w0 = negdlit then
      (if second = (c.get? 1).getD 0 then first else second)
    else
      (if second = w0 then first else second)
  let slot := if w0 = negdlit then 0 else 1
  let st2 := { st with store := st.store.set cid (c.set slot newlit) }
  let tPos := ¬ (newlit < 0)
  let tb := getB st2 tPos (lvar newlit)
  let st3 := setB st2 tPos (lvar newlit)
    ⟨tb.used + 1, pad_set tb.entries tb.used (some cid)⟩
  let bcur := getB st3 isPos bvar
  let lastE := (bcur.entries.get? (bcur.used - 1)).getD none
  setB st3 isPos bvar ⟨bcur.used - 1, bcur.entries.set (i - 1) lastE⟩

/-- Walk of the bucket of the falsified watched literal `negdlit`
    (lines 317-393).  `bump` abstracts the activity increment
    `2*Math.pow(unit_propagations_count, 1.5)` of the source — a floating
    point number whose exact value never influences a verdict except
    through activity comparisons; every theorem below holds for all bump
    functions, and concrete evaluations only exercise `bump 1`, where the
    source value is exactly 2. -/
def ub_iter (bump : Nat → Int) (negdlit : Int) (isPos : Bool) (bvar : Nat) :
    Nat → Nat → DState → List Int → List Int →
    Option (Bool × DState × List Int × List Int)
  | 0, _, _, _, _ => none
  | fuel + 1, i, st, pending, allD =>
    let b := getB st isPos bvar
    if i > b.used then some (true, st, pending, allD)
    else
      let e := b.entries.get? (i - 1)
      let c := entry_clause st e
      match wscan st.varvals (c.drop 2) 0 0 with
      | .satisfied => ub_iter bump negdlit isPos bvar fuel (i + 1) st pending allD
      | .conflictc =>
        let w2 := I32.zeroVars (allD.map lvar) st.varvals
        let acts2 := bump_acts st.acts (c.drop 2) (bump st.upcount)
        some (false, { st with varvals := w2, acts := acts2 }, pending, allD)
      | .unitc l =>
        let st2 := { st with varvals := st.varvals.set (lvar l) (lsign l) }
        ub_iter bump negdlit isPos bvar fuel (i + 1) st2 (pending ++ [l])
          (allD ++ [l])
      | .move2 first second =>
        match e with
        | some (some cid) =>
          ub_iter bump negdlit isPos bvar fuel i
            (move_watch st negdlit isPos bvar i cid first second) pending allD
        | _ => ub_iter bump negdlit isPos bvar fuel (i + 1) st pending allD

/-- Queue loop of the watched `unit_propagate` (lines 314-394). -/
def up_go (bump : Nat → Int) : Nat → List Int → List Int → DState →
    Option (ODPLL.OPropRes × DState)
  | 0, _, _, _ => none
  | fuel + 1, pending, allD, st =>
    match pending with
    | [] =>
      match allD with
      | [l] => some (.one l, st)
      | ls => some (.many ls, st)
    | dlit :: restPending =>
      match ub_iter bump (0 - dlit) (dlit < 0) (lvar dlit) (fuel + 1) 1 st
          restPending allD with
      | none => none
      | some (true, st2, pending2, allD2) => up_go bump fuel pending2 allD2 st2
      | some (false, st2, _, _) => some (.conflict, st2)

/-- Watched `unit_propagate` (lines 298-406): bump the propagation
    counter, assign the initial derived literals, then iterate the
    queue. -/
def unit_propagate (bump : Nat → Int) (ini : List Int) (fuel : Nat)
    (st : DState) : Option (ODPLL.OPropRes × DState) :=
  let w1 := ini.foldl (fun w l => w.set (lvar l) (lsign l)) st.varvals
  let st1 := { st with upcount := st.upcount + 1, varvals := w1 }
  up_go bump fuel ini ini st1

/-- Loop body of `next_var` (lines 421-428): skip assigned variables, and
    take variable `i` as the new best when `activity >= maxactivity` (a
    missing activity entry is JS `undefined`, whose comparison is
    false). -/
def nv_step (varvals : I32) (acts : List Int) (p : Int × Nat) (i : Nat) :
    Int × Nat :=
  if varvals.get? i = some 0 then
    match acts.get? i with
    | some a => if p.1 ≤ a then (a, i) else p
    | none => p
  else p

/-- `next_var` (lines 414-430): the unassigned variable whose activity is
    maximal under the non-strict comparison `activity >= maxactivity`
    starting from -1000, which makes later equal-activity variables win. -/
def next_var (varvals : I32) (acts : List Int) : Nat :=
  (((List.range varvals.data.length).drop 1).foldl (nv_step varvals acts)
    (-1000, 0)).2

/-- `satisfiable_at` of the watched-literal engine (lines 221-272); the
    decision literal travels inside the initial derived list, so the
    restore block resets it together with every unit propagated in the
    frame. -/
def satisfiable_at (bump : Nat → Int) :
    Nat → List Int → DState → Option (Bool × Option (List Int) × DState)
  | 0, _, _ => none
  | fuel + 1, initLits, st =>
    let pres :=
      if initLits ≠ [] then unit_propagate bump initLits (fuel + 1) st
      else some (.one 0, st)
    match pres with
    | none => none
    | some (.conflict, st2) => some (false, none, st2)
    | some (pr, st2) =>
      let nextvar := next_var st2.varvals st2.acts
      if nextvar = 0 then some (true, some (ST.store_model st2.varvals), st2)
      else
        match satisfiable_at bump fuel [(nextvar : Int)] st2 with
        | none => none
        | some (true, m, st3) => some (true, m, st3)
        | some (false, _, st3) =>
          match satisfiable_at bump fuel [-(nextvar : Int)] st3 with
          | none => none
          | some (true, m, st4) => some (true, m, st4)
          | some (false, _, st4) =>
            some (false, none,
              { st4 with varvals := ODPLL.old_restore pr st4.varvals })

/-- `exports.dpll` (src/README.md watched engine, lines 138-218).  The
    `maxvarnr` hint is always overwritten by the recomputed maximum; the
    preprocessing can settle the verdict before any search. -/
def dpll (bump : Nat → Int) (clauses : List (List Int))
    (maxvarnr : Option Nat) (fuel : Nat) : Option Verdict :=
  let mm := maxvar_and_meta clauses
  let mv := match maxvarnr with | _ => mm.1
  let varvals := I32.mk0 (mv + 1)
  let acts0 : List Int := List.replicate (mv + 1) 1
  match simplify_clause_list mm.2 varvals with
  | none => some .unsat
  | some (cl2, w1) =>
    if cl2.isEmpty then some (.model (ST.store_model w1))
    else
      let co := count_occurrences cl2 w1 acts0
      if co.1.isEmpty then some (.model (ST.store_model co.2.1))
      else
        let mb := makebuckets co.1 (mv + 1)
        let st0 : DState := { store := mb.1, posb := mb.2.1, negb := mb.2.2,
                              varvals := co.2.1, acts := co.2.2, upcount := 0 }
        match satisfiable_at bump fuel [] st0 with
        | none => none
        | some (true, m, _) => some (.model (m.getD []))
        | some (false, _, _) => some .unsat

end DPLL

instance clauseSat.instDecidable (varvals : I32) (c : List Int) :
    Decidable (clauseSat varvals c) := by
  unfold clauseSat litTrue; infer_instance

instance clauseFalsified.instDecidable (varvals : I32) (c : List Int) :
    Decidable (clauseFalsified varvals c) := by
  unfold clauseFalsified litFalse; infer_instance

instance goodVals.instDecidable (varvals : I32) : Decidable (goodVals varvals) := by
  unfold goodVals; infer_instance

instance inRange.instDecidable (varvals : I32) (c : List Int) :
    Decidable (inRange varvals c) := by
  unfold inRange; infer_instance

/-- The returned model (a list of signed literals) assigns variable `v`. -/
def model_assigns (m : List Int) (v : Nat) : Prop :=
  (v : Int) ∈ m ∨ -(v : Int) ∈ m

/-- The model assigns every variable 1..V (a total model). -/
def model_total (m : List Int) (V : Nat) : Prop :=
  ∀ v ∈ (List.range (V + 1)).drop 1, model_assigns m v

/-- The model satisfies the clause: some literal of the clause is among
    the model's literals (its polarity equals the model's value for its
    variable). -/
def model_sats_clause (m : List Int) (c : List Int) : Prop :=
  ∃ l ∈ c, l ∈ m

instance model_assigns.instDecidable (m : List Int) (v : Nat) :
    Decidable (model_assigns m v) := by
  unfold model_assigns; infer_instance

instance model_total.instDecidable (m : List Int) (V : Nat) :
    Decidable (model_total m V) := by
  unfold model_total; infer_instance

instance model_sats_clause.instDecidable (m c : List Int) :
    Decidable (model_sats_clause m c) := by
  unfold model_sats_clause; infer_instance

/-- `w` extends `w0` by assigning exactly the variables listed in `vs`:
    the arrays have the same length, every listed variable was Unassigned
    in `w0`, and `w` agrees with `w0` everywhere outside `vs`.  This is
    the shape of an assignment array mid-propagation relative to the
    state at frame entry. -/
def VExt (w0 : I32) (vs : List Nat) (w : I32) : Prop :=
  w.data.length = w0.data.length ∧
  (∀ v ∈ vs, w0.get? v = some 0) ∧
  (∀ v, v ∉ vs → w.get? v = w0.get? v)

/-- Literal-list form of `VExt`, used by the engines whose derived lists
    hold signed literals: all derived literals are nonzero and their
    variables extend `w0` to `w`. -/
def LExt (w0 : I32) (ds : List Int) (w : I32) : Prop :=
  (∀ l ∈ ds, l ≠ 0) ∧ VExt w0 (ds.map lvar) w

/-- Every clause body (past the two meta slots) in a watched-engine
    clause store consists of nonzero literals. -/
def storeNZ (store : List (List Int)) : Prop :=
  ∀ c ∈ store, ∀ l ∈ c.drop 2, l ≠ 0

/-- Every defined occurrence entry is at least -1 (the occurrence values
    produced by the classical engine's `next_vars` counting loop are
    0, plus-or-minus 1, or at least 2). -/
def occGood (occ : I32) : Prop :=
  ∀ j v, occ.get? j = some v → -1 ≤ v

/-- Invariant of the split-variable accumulator of the classical
    `next_vars` selection loop: 0, or a positive variable index that is
    Unassigned. -/
def selInv (varvals : I32) (nr : Int) : Prop :=
  nr = 0 ∨ ∃ i : Nat, 1 ≤ i ∧ nr = (i : Int) ∧ varvals.get? i = some 0

instance storeNZ.instDecidable (store : List (List Int)) :
    Decidable (storeNZ store) := by
  unfold storeNZ; infer_instance

/-- Shape of every clause handled by the optimized resolution search on a
    horn input: nonempty, sorted ascending, at most one positive literal,
    no zero literals. -/
def hornClause (c : List Int) : Prop :=
  c ≠ [] ∧ c.Sorted (· ≤ ·) ∧ c.countP (fun l => 0 < l) ≤ 1 ∧
    ∀ l ∈ c, l ≠ 0

/-- Every clause of every usable length bucket is a horn clause. -/
def hornUsable (u : List (List (List Int))) : Prop :=
  ∀ b ∈ u, ∀ c ∈ b, hornClause c

/-- Every live entry of the processed first-literal buckets is a horn
    clause whose head carries the bucket's polarity. -/
def hornBuckets (posb negb : RES.PBuckets) : Prop :=
  (∀ b ∈ posb, ∀ e ∈ b, ∀ c, e = some c → hornClause c ∧ 0 < c.headI) ∧
  (∀ b ∈ negb, ∀ e ∈ b, ∀ c, e = some c → hornClause c ∧ c.headI < 0)

/-! ### Watched-literal engine: steady-state invariant predicates -/

/-- The literal is True under the assignment array. -/
def wTrue (w : I32) (l : Int) : Prop := w.get? (lvar l) = some (lsign l)

/-- The literal is False under the assignment array: its variable holds
    the opposite polarity. -/
def wFalse (w : I32) (l : Int) : Prop := w.get? (lvar l) = some (-(lsign l))

/-- Watched literal held in meta slot `k` (0 or 1) of a stored clause. -/
def wWatch (c : List Int) (k : Nat) : Int := (c.get? k).getD 0

/-- Clause of the store at position `cid`. -/
def wClause (store : List (List Int)) (cid : Nat) : List Int :=
  (store.get? cid).getD []

/-- The clause is satisfied: some body literal is True. -/
def wSat (w : I32) (c : List Int) : Prop := ∃ l, l ∈ c.drop 2 ∧ wTrue w l

/-- The watched-literal invariant over a store and an assignment: every
    clause not satisfied by the assignment has both watched literals
    non-False. -/
def wInvOn (w : I32) (store : List (List Int)) : Prop :=
  ∀ cid, cid < store.length → ¬ wSat w (wClause store cid) →
    ¬ wFalse w (wWatch (wClause store cid) 0) ∧
    ¬ wFalse w (wWatch (wClause store cid) 1)

/-- The watched-literal invariant of a watched-engine search state. -/
def wInv (st : DPLL.DState) : Prop := wInvOn st.varvals st.store

/-- Bucket list of one polarity of a watched-engine state. -/
def wBkts (st : DPLL.DState) (isPos : Bool) : List DPLL.Bucket :=
  if isPos then st.posb else st.negb

/-- The literal watched through bucket `v` of the given polarity. -/
def wBLit (isPos : Bool) (v : Nat) : Int :=
  if isPos then (v : Int) else -(v : Int)

/-- Bucket holding the clauses that watch literal `l`. -/
def wBucket (st : DPLL.DState) (l : Int) : DPLL.Bucket :=
  DPLL.getB st (decide (0 < l)) (lvar l)

/-- Clause `cid` occurs in the used prefix of the bucket of literal `l`. -/
def wInB (st : DPLL.DState) (l : Int) (cid : Nat) : Prop :=
  ∃ j, j < (wBucket st l).used ∧
    (wBucket st l).entries.get? j = some (some cid)

/-- Used counts of one polarity's buckets stay inside the entry lists. -/
def wBucketLen (st : DPLL.DState) (isPos : Bool) : Prop :=
  ∀ v, v < (wBkts st isPos).length →
    (DPLL.getB st isPos v).used ≤ (DPLL.getB st isPos v).entries.length

/-- Every used entry of one polarity's buckets references a stored clause
    that watches the bucket's literal. -/
def wBucketVal (st : DPLL.DState) (isPos : Bool) : Prop :=
  ∀ v, v < (wBkts st isPos).length →
    ∀ j, j < (DPLL.getB st isPos v).used →
      ∃ cid, cid < st.store.length ∧
        (DPLL.getB st isPos v).entries.get? j = some (some cid) ∧
        (wWatch (wClause st.store cid) 0 = wBLit isPos v ∨
         wWatch (wClause st.store cid) 1 = wBLit isPos v)

/-- No clause is referenced twice in the used prefix of one bucket. -/
def wBucketUniq (st : DPLL.DState) (isPos : Bool) : Prop :=
  ∀ v, v < (wBkts st isPos).length →
    ∀ j1, j1 < (DPLL.getB st isPos v).used →
      ∀ j2, j2 < (DPLL.getB st isPos v).used →
        (DPLL.getB st isPos v).entries.get? j1 =
          (DPLL.getB st isPos v).entries.get? j2 → j1 = j2

/-- Well-formed buckets of one polarity. -/
def wBucketOk (st : DPLL.DState) (isPos : Bool) : Prop :=
  wBucketLen st isPos ∧ wBucketVal st isPos ∧ wBucketUniq st isPos

/-- Every nonzero watched literal of a stored clause is linked into that
    literal's bucket. -/
def wLinked (st : DPLL.DState) : Prop :=
  ∀ cid, cid < st.store.length → ∀ k, k < 2 →
    wWatch (wClause st.store cid) k ≠ 0 →
    wInB st (wWatch (wClause st.store cid) k) cid

/-- The two watched literals of a stored clause coincide only when both
    are zero. -/
def wDistinct (st : DPLL.DState) : Prop :=
  ∀ cid, cid < st.store.length →
    wWatch (wClause st.store cid) 0 = wWatch (wClause st.store cid) 1 →
    wWatch (wClause st.store cid) 0 = 0

/-- Store well-formedness: every clause body consists of pairwise distinct
    nonzero literals whose variables lie inside the assignment array. -/
def wStoreOk (st : DPLL.DState) : Prop :=
  ∀ cid, cid < st.store.length →
    ((wClause st.store cid).drop 2).Nodup ∧
    ∀ l, l ∈ (wClause st.store cid).drop 2 →
      l ≠ 0 ∧ lvar l < st.varvals.data.length

/-- Structural well-formedness of a watched-literal search state. -/
def wWF (st : DPLL.DState) : Prop :=
  st.posb.length = st.varvals.data.length ∧
  st.negb.length = st.varvals.data.length ∧
  wStoreOk st ∧ wDistinct st ∧ wBucketOk st true ∧ wBucketOk st false ∧
  wLinked st

/-- Preconditions on an initial derived-literal list handed to the watched
    unit propagation: pairwise distinct variables, all nonzero, Unassigned
    and inside the assignment array. -/
def wIniOK (ini : List Int) (st : DPLL.DState) : Prop :=
  (ini.map lvar).Nodup ∧
  ∀ l, l ∈ ini → l ≠ 0 ∧ lvar l < st.varvals.data.length ∧
    st.varvals.get? (lvar l) = some 0

/-- Every queued literal of the propagation queue is nonzero and True. -/
def wPend (w : I32) (pending : List Int) : Prop :=
  ∀ p, p ∈ pending → p ≠ 0 ∧ wTrue w p

/-- Queue-level cover of the watched unit propagation: every False
    watched literal of a non-satisfied clause is the negation of a queued
    literal that is still waiting to be processed. -/
def wQCover (st : DPLL.DState) (pending : List Int) : Prop :=
  ∀ cid, cid < st.store.length →
    ¬ wSat st.varvals (wClause st.store cid) →
    ∀ k, k < 2 → wFalse st.varvals (wWatch (wClause st.store cid) k) →
      ∃ p, p ∈ pending ∧ wWatch (wClause st.store cid) k = -p

/-- Bucket-walk cover: every False watched literal of a non-satisfied
    clause is the negation of a waiting queued literal, or is the bucket
    literal currently being processed with the clause sitting in the
    not-yet-visited part of the walked bucket (JS positions `i..used`,
    entry indices `i-1..used-1`). -/
def wBCover (st : DPLL.DState) (isPos : Bool) (bvar : Nat) (negdlit : Int)
    (i : Nat) (pending : List Int) : Prop :=
  ∀ cid, cid < st.store.length →
    ¬ wSat st.varvals (wClause st.store cid) →
    ∀ k, k < 2 → wFalse st.varvals (wWatch (wClause st.store cid) k) →
      (∃ p, p ∈ pending ∧ wWatch (wClause st.store cid) k = -p) ∨
      (wWatch (wClause st.store cid) k = negdlit ∧
        ∃ j, i - 1 ≤ j ∧ j < (DPLL.getB st isPos bvar).used ∧
          (DPLL.getB st isPos bvar).entries.get? j = some (some cid))

/-- Store evolution relative to a base assignment: clause bodies are
    unchanged and every meta slot holds either its original literal or a
    literal whose variable is Unassigned in the base assignment (watch
    moves only ever install literals that are Unassigned at move time). -/
def wSEvo (w0 : I32) (s0 s1 : List (List Int)) : Prop :=
  s0.length = s1.length ∧
  ∀ cid, cid < s1.length →
    (wClause s1 cid).drop 2 = (wClause s0 cid).drop 2 ∧
    ∀ k, k < 2 →
      (wWatch (wClause s1 cid) k = wWatch (wClause s0 cid) k ∨
       w0.get? (lvar (wWatch (wClause s1 cid) k)) = some 0)

instance wSat.instDecidable (w : I32) (c : List Int) :
    Decidable (wSat w c) := by
  unfold wSat wTrue; infer_instance

instance wInvOn.instDecidable (w : I32) (store : List (List Int)) :
    Decidable (wInvOn w store) := by
  unfold wInvOn wFalse; infer_instance

instance wInv.instDecidable (st : DPLL.DState) : Decidable (wInv st) := by
  unfold wInv; infer_instance

instance wInB.instDecidable (st : DPLL.DState) (l : Int) (cid : Nat) :
    Decidable (wInB st l cid) := by
  unfold wInB; infer_instance

instance wBucketLen.instDecidable (st : DPLL.DState) (isPos : Bool) :
    Decidable (wBucketLen st isPos) := by
  unfold wBucketLen; infer_instance

instance wBucketVal.instDecidable (st : DPLL.DState) (isPos : Bool) :
    Decidable (wBucketVal st isPos) := by
  unfold wBucketVal; infer_instance

instance wBucketUniq.instDecidable (st : DPLL.DState) (isPos : Bool) :
    Decidable (wBucketUniq st isPos) := by
  unfold wBucketUniq; infer_instance

instance wBucketOk.instDecidable (st : DPLL.DState) (isPos : Bool) :
    Decidable (wBucketOk st isPos) := by
  unfold wBucketOk; infer_instance

instance wLinked.instDecidable (st : DPLL.DState) :
    Decidable (wLinked st) := by
  unfold wLinked; infer_instance

instance wDistinct.instDecidable (st : DPLL.DState) :
    Decidable (wDistinct st) := by
  unfold wDistinct; infer_instance

instance wStoreOk.instDecidable (st : DPLL.DState) :
    Decidable (wStoreOk st) := by
  unfold wStoreOk; infer_instance

instance wWF.instDecidable (st : DPLL.DState) : Decidable (wWF st) := by
  unfold wWF; infer_instance

instance wIniOK.instDecidable (ini : List Int) (st : DPLL.DState) :
    Decidable (wIniOK ini st) := by
  unfold wIniOK; infer_instance

/-! ## Theorems and supporting lemmas -/

theorem lsign_cases (l : Int) : lsign l = -1 ∨ lsign l = 1 := by
  unfold lsign; split
  · exact Or.inl rfl
  · exact Or.inr rfl

theorem lsign_ne_zero (l : Int) : lsign l ≠ 0 := by
  rcases lsign_cases l with h | h <;> rw [h] <;> decide

theorem not_litTrue_and_litFalse (varvals : I32) (l : Int) :
    ¬ (litTrue varvals l ∧ litFalse varvals l) := by
  rintro ⟨h1, h2⟩
  rw [litTrue] at h1
  rw [litFalse, h1] at h2
  have h3 := Option.some.inj h2
  have h4 := lsign_ne_zero l
  omega

theorem clause_scan_nil (varvals : I32) :
    ST.clause_scan varvals [] = (false, true) := rfl

theorem clause_scan_cons (varvals : I32) (l : Int) (rest : List Int) :
    ST.clause_scan varvals (l :: rest) =
      if varvals.get? (lvar l) = some (lsign l) then (true, true)
      else if varvals.get? (lvar l) = some 0 then
        ((ST.clause_scan varvals rest).1, false)
      else ST.clause_scan varvals rest := rfl

theorem ctv_go_nil (varvals : I32) (acc : Bool) :
    ST.ctv_go varvals [] acc = if acc then 1 else 0 := rfl

theorem ctv_go_cons (varvals : I32) (c : List Int) (rest : List (List Int))
    (acc : Bool) :
    ST.ctv_go varvals (c :: rest) acc =
      if (ST.clause_scan varvals c).1 = false ∧ (ST.clause_scan varvals c).2 = true
      then -1
      else ST.ctv_go varvals rest (acc && (ST.clause_scan varvals c).2) := rfl

theorem clauseFalsified_not_cleanSat (varvals : I32) :
    ∀ c, clauseFalsified varvals c → ¬ clauseCleanSat varvals c
  | [], _, h => h
  | x :: xs, hf, hclean => by
      rcases hclean with h | ⟨_, h⟩
      · exact not_litTrue_and_litFalse varvals x
          ⟨h, hf x (List.mem_cons_self _ _)⟩
      · exact clauseFalsified_not_cleanSat varvals xs
          (fun y hy => hf y (List.mem_cons_of_mem _ hy)) h

theorem clause_scan_spec (varvals : I32) (hg : goodVals varvals) :
    ∀ c : List Int, inRange varvals c →
      ((ST.clause_scan varvals c = (true, true) ↔ clauseCleanSat varvals c) ∧
       (((ST.clause_scan varvals c).1 = false ∧ (ST.clause_scan varvals c).2 = true)
          ↔ clauseFalsified varvals c))
  | [], _ => by
      constructor
      · rw [clause_scan_nil]
        simp [clauseCleanSat]
      · rw [clause_scan_nil]
        simp [clauseFalsified]
  | l :: rest, hr => by
      have hrest := clause_scan_spec varvals hg rest
        (fun x hx => hr x (List.mem_cons_of_mem _ hx))
      have hl : lvar l < varvals.data.length := hr l (List.mem_cons_self _ _)
      have hv : varvals.get? (lvar l) = some (varvals.data.get ⟨lvar l, hl⟩) :=
        List.get?_eq_get hl
      set v := varvals.data.get ⟨lvar l, hl⟩ with hvdef
      have hvmem : v ∈ varvals.data := List.get_mem _ _ _
      have hvgood := hg v hvmem
      have hTrue : litTrue varvals l ↔ v = lsign l := by
        rw [litTrue, hv]
        constructor
        · intro h; exact Option.some.inj h
        · intro h; rw [h]
      have hFalse : litFalse varvals l ↔ v = -(lsign l) := by
        rw [litFalse, hv]
        constructor
        · intro h; exact Option.some.inj h
        · intro h; rw [h]
      by_cases h1 : v = lsign l
      · have hs : ST.clause_scan varvals (l :: rest) = (true, true) := by
          rw [clause_scan_cons, hv, h1, if_pos rfl]
        constructor
        · rw [hs]
          simp only [clauseCleanSat, true_iff]
          exact Or.inl (hTrue.mpr h1)
        · rw [hs]
          simp only [Bool.true_eq_false, false_and, false_iff]
          intro hf
          exact not_litTrue_and_litFalse varvals l
            ⟨hTrue.mpr h1, hf l (List.mem_cons_self _ _)⟩
      · by_cases h0 : v = 0
        · have hs : ST.clause_scan varvals (l :: rest)
              = ((ST.clause_scan varvals rest).1, false) := by
            rw [clause_scan_cons, hv]
            rw [if_neg (by intro h; exact h1 (Option.some.inj h))]
            rw [if_pos (by rw [h0])]
          have hnT : ¬ litTrue varvals l := fun h => h1 (hTrue.mp h)
          have hnF : ¬ litFalse varvals l := by
            intro h
            have h2 := hFalse.mp h
            have h3 := lsign_ne_zero l
            omega
          constructor
          · rw [hs]
            constructor
            · intro h
              have := congrArg Prod.snd h
              simp at this
            · intro h
              rcases h with h | ⟨h, _⟩
              · exact absurd h hnT
              · exact absurd h hnF
          · rw [hs]
            simp only [Bool.false_eq_true, and_false, false_iff]
            intro hf
            exact hnF (hf l (List.mem_cons_self _ _))
        · -- remaining case: v = -(lsign l), the literal is false
          have h2 : v = -(lsign l) := by
            rcases lsign_cases l with hsg | hsg <;> rw [hsg] <;> omega
          have hs : ST.clause_scan varvals (l :: rest)
              = ST.clause_scan varvals rest := by
            rw [clause_scan_cons, hv]
            rw [if_neg (by intro h; exact h1 (Option.some.inj h))]
            rw [if_neg (by intro h; exact h0 (Option.some.inj h))]
          have hlF : litFalse varvals l := hFalse.mpr h2
          have hnT : ¬ litTrue varvals l := fun h => h1 (hTrue.mp h)
          constructor
          · rw [hs, hrest.1]
            simp only [clauseCleanSat]
            constructor
            · intro h; exact Or.inr ⟨hlF, h⟩
            · rintro (h | ⟨_, h⟩)
              · exact absurd h hnT
              · exact h
          · rw [hs, hrest.2]
            constructor
            · intro h x hx
              rcases List.mem_cons.mp hx with rfl | hx
              · exact hlF
              · exact h x hx
            · intro h x hx
              exact h x (List.mem_cons_of_mem _ hx)

theorem ctv_go_values (varvals : I32) :
    ∀ (cs : List (List Int)) (acc : Bool),
      ST.ctv_go varvals cs acc = 1 ∨ ST.ctv_go varvals cs acc = -1 ∨
      ST.ctv_go varvals cs acc = 0
  | [], acc => by
      rw [ctv_go_nil]
      split
      · exact Or.inl rfl
      · exact Or.inr (Or.inr rfl)
  | c :: rest, acc => by
      rw [ctv_go_cons]
      split
      · exact Or.inr (Or.inl rfl)
      · exact ctv_go_values varvals rest _

theorem ctv_go_spec (varvals : I32) (hg : goodVals varvals) :
    ∀ (cs : List (List Int)), (∀ c ∈ cs, inRange varvals c) → ∀ acc : Bool,
      ((ST.ctv_go varvals cs acc = 1 ↔
          (acc = true ∧ ∀ c ∈ cs, clauseCleanSat varvals c)) ∧
       (ST.ctv_go varvals cs acc = -1 ↔ ∃ c ∈ cs, clauseFalsified varvals c))
  | [], _, acc => by
      rw [ctv_go_nil]
      constructor
      · split
        · rename_i h; simp [h]
        · rename_i h; simp [h]
      · split <;> simp
  | c :: rest, hr, acc => by
      have hc := clause_scan_spec varvals hg c (hr c (List.mem_cons_self _ _))
      have hrest := ctv_go_spec varvals hg rest
        (fun x hx => hr x (List.mem_cons_of_mem _ hx))
        (acc && (ST.clause_scan varvals c).2)
      rw [ctv_go_cons]
      by_cases hcond : (ST.clause_scan varvals c).1 = false ∧
          (ST.clause_scan varvals c).2 = true
      · rw [if_pos hcond]
        have hfals : clauseFalsified varvals c := hc.2.mp hcond
        constructor
        · constructor
          · intro h; exact absurd h (by decide)
          · rintro ⟨-, hall⟩
            exact absurd (hall c (List.mem_cons_self _ _))
              (clauseFalsified_not_cleanSat varvals c hfals)
        · simp only [true_iff]
          exact ⟨c, List.mem_cons_self _ _, hfals⟩
      · rw [if_neg hcond]
        have hnfals : ¬ clauseFalsified varvals c := fun h => hcond (hc.2.mpr h)
        constructor
        · rw [hrest.1]
          constructor
          · rintro ⟨hacc, hall⟩
            have hacc2 : acc = true ∧ (ST.clause_scan varvals c).2 = true := by
              simp only [Bool.and_eq_true] at hacc
              exact hacc
            have hclean : clauseCleanSat varvals c := by
              apply hc.1.mp
              have hsnd : (ST.clause_scan varvals c).2 = true := hacc2.2
              have hfst : (ST.clause_scan varvals c).1 = true := by
                by_contra hne
                exact hcond ⟨Bool.eq_false_iff.mpr hne, hsnd⟩
              exact Prod.ext hfst hsnd
            refine ⟨hacc2.1, ?_⟩
            intro x hx
            rcases List.mem_cons.mp hx with rfl | hx
            · exact hclean
            · exact hall x hx
          · rintro ⟨hacc, hall⟩
            have hclean := hall c (List.mem_cons_self _ _)
            have hsc : ST.clause_scan varvals c = (true, true) := hc.1.mpr hclean
            refine ⟨?_, fun x hx => hall x (List.mem_cons_of_mem _ hx)⟩
            rw [hsc, hacc]
            rfl
        · rw [hrest.2]
          constructor
          · rintro ⟨x, hx, hxf⟩
            exact ⟨x, List.mem_cons_of_mem _ hx, hxf⟩
          · rintro ⟨x, hx, hxf⟩
            rcases List.mem_cons.mp hx with rfl | hx
            · exact absurd hxf hnfals
            · exact ⟨x, hx, hxf⟩

/-- C5, corrected form.  The partial evaluator returns 1 iff every clause
    is CLEANLY satisfied: scanning left to right, a true literal is reached
    with only false literals before it (the claim's condition, plain
    satisfaction, is weaker because the scan stops collecting the
    all-assigned flag only up to the first true literal).  It returns -1
    iff some clause is falsified, and 0 otherwise. -/
theorem C5_partial_eval_characterization
    (clauses : List (List Int)) (varvals : I32)
    (hg : goodVals varvals) (hr : ∀ c ∈ clauses, inRange varvals c) :
    (ST.clauses_truth_value_at clauses varvals = 1 ↔
        ∀ c ∈ clauses, clauseCleanSat varvals c) ∧
    (ST.clauses_truth_value_at clauses varvals = -1 ↔
        ∃ c ∈ clauses, clauseFalsified varvals c) ∧
    (ST.clauses_truth_value_at clauses varvals = 0 ↔
        (¬ ∀ c ∈ clauses, clauseCleanSat varvals c) ∧
        (¬ ∃ c ∈ clauses, clauseFalsified varvals c)) := by
  have hspec := ctv_go_spec varvals hg clauses hr true
  have h1 : (ST.clauses_truth_value_at clauses varvals = 1 ↔
      ∀ c ∈ clauses, clauseCleanSat varvals c) := by
    rw [ST.clauses_truth_value_at, hspec.1]
    simp
  have h2 : (ST.clauses_truth_value_at clauses varvals = -1 ↔
      ∃ c ∈ clauses, clauseFalsified varvals c) := by
    rw [ST.clauses_truth_value_at, hspec.2]
  refine ⟨h1, h2, ?_⟩
  have hvals := ctv_go_values varvals clauses true
  rw [ST.clauses_truth_value_at] at *
  constructor
  · intro h0
    constructor
    · intro hall
      have := h1.mpr hall
      omega
    · intro hex
      have := h2.mpr hex
      omega
  · rintro ⟨hn1, hn2⟩
    rcases hvals with h | h | h
    · exact absurd (h1.mp h) hn1
    · exact absurd (h2.mp h) hn2
    · exact h

/-- C5 witness: the characterization applied at a concrete input. -/
theorem C5_partial_eval_characterization_witness :
    (ST.clauses_truth_value_at [[1]] ⟨[0, 1]⟩ = 1 ↔
        ∀ c ∈ [[1]], clauseCleanSat ⟨[0, 1]⟩ c) ∧
    (ST.clauses_truth_value_at [[1]] ⟨[0, 1]⟩ = -1 ↔
        ∃ c ∈ [[1]], clauseFalsified ⟨[0, 1]⟩ c) ∧
    (ST.clauses_truth_value_at [[1]] ⟨[0, 1]⟩ = 0 ↔
        (¬ ∀ c ∈ [[1]], clauseCleanSat ⟨[0, 1]⟩ c) ∧
        (¬ ∃ c ∈ [[1]], clauseFalsified ⟨[0, 1]⟩ c)) :=
  C5_partial_eval_characterization [[1]] ⟨[0, 1]⟩ (by decide) (by decide)

/-- C5 counterexample: under the assignment (var 1 true, var 2 unassigned)
    the single clause `[2, 1]` is satisfied (literal 1 is true), the state
    is a well-formed engine state, yet `clauses_truth_value_at` returns 0,
    not 1 — refuting the claimed "True iff every clause satisfied". -/
theorem C5_counterexample :
    (∀ c ∈ [[2, 1]], clauseSat (⟨[0, 1, 0]⟩ : I32) c) ∧
    goodVals ⟨[0, 1, 0]⟩ ∧
    (∀ c ∈ [[2, 1]], inRange (⟨[0, 1, 0]⟩ : I32) c) ∧
    ST.clauses_truth_value_at [[2, 1]] ⟨[0, 1, 0]⟩ = 0 := by
  decide

theorem naiveres_loop_sat_empties :
    ∀ (fuel : Nat) (usable processed : List (List Int)) (u : List (List Int)),
      NRES.naiveres_loop fuel usable processed = some (true, u) → u = []
  | 0, _, _, _, h => by simp [NRES.naiveres_loop] at h
  | fuel + 1, [], processed, u, h => by
      simp [NRES.naiveres_loop] at h
      exact h
  | fuel + 1, selected :: rest, processed, u, h => by
      rw [show NRES.naiveres_loop (fuel + 1) (selected :: rest) processed =
          (if processed.any (fun p => NRES.naive_subsumed p selected) then
            NRES.naiveres_loop fuel rest processed
          else
            let r := NRES.res_with_processed selected processed rest
            if r.1 then NRES.naiveres_loop fuel r.2 (processed ++ [selected])
            else some (false, r.2)) from rfl] at h
      by_cases hsub : processed.any (fun p => NRES.naive_subsumed p selected)
      · rw [if_pos hsub] at h
        exact naiveres_loop_sat_empties fuel rest processed u h
      · rw [if_neg hsub] at h
        simp only at h
        by_cases hres : (NRES.res_with_processed selected processed rest).1
        · rw [if_pos hres] at h
          exact naiveres_loop_sat_empties fuel _ _ u h
        · rw [if_neg hres] at h
          simp at h

/-- C10: the naive resolution engine uses the caller's clause array itself
    as the usable queue (the embedding threads that array explicitly and
    returns its final state) and appends derived resolvents to it during
    search; whenever the engine returns the SAT verdict, the array it
    leaves behind is empty, because the main loop only terminates with a
    truthy result when the usable queue has length 0. -/
theorem C10_naiveres_sat_empties_input (clauses : List (List Int))
    (maxvarnr : Option Nat) (fuel : Nat) (v : Verdict) (u : List (List Int))
    (h : NRES.naiveres clauses maxvarnr fuel = some (v, u))
    (hsat : v.isSat = true) : u = [] := by
  rcases hloop : NRES.naiveres_loop fuel clauses [] with - | ⟨res, u2⟩
  · rw [NRES.naiveres, hloop] at h
    simp at h
  · rw [NRES.naiveres, hloop] at h
    cases res
    · simp at h
      rw [← h.1] at hsat
      simp [Verdict.isSat] at hsat
    · simp at h
      rw [← h.2]
      exact naiveres_loop_sat_empties fuel clauses [] u2 hloop

/-- C10 witness: a concrete SAT run leaves the empty queue behind. -/
theorem C10_naiveres_sat_empties_input_witness :
    ([] : List (List Int)) = [] ∧
    NRES.naiveres [[1, 2]] (some 2) 6 = some (Verdict.satMarker, []) :=
  ⟨C10_naiveres_sat_empties_input [[1, 2]] (some 2) 6 Verdict.satMarker []
      (by decide) (by decide),
   by decide⟩

/-- C3, evaluation at the failing input: the optimized resolution engine
    skips clauses of length 0 in both preprocessing passes, so on the
    input consisting of exactly the empty clause it saturates an empty
    usable queue and returns the truthy bare SAT marker instead of the
    UNSAT verdict the claim requires. -/
theorem C3_res_empty_clause_returns_sat :
    (RES.resolution [[]] (some 1) 10).map Prod.fst = some Verdict.satMarker ∧
    Verdict.satMarker.isSat = true := by decide

/-- C8, evaluation at the failing input: `exports.resolution` never
    computes the maximum variable when the hint is omitted; it allocates
    `Int32Array(NaN)` (length 0) for the assignment, every unit-clause
    read is then out of range (`undefined !== 0`), and the first pass
    reports a contradiction.  On the one-clause input `[[1]]` the engine
    returns UNSAT without the hint but the SAT model `[1]` with the hint
    the claim says it should compute (`maxvar_of [[1]] = 1`). -/
theorem C8_res_hint_omitted_diverges :
    (RES.resolution [[1]] none 10).map Prod.fst = some Verdict.unsat ∧
    (RES.resolution [[1]] (some (maxvar_of [[1]])) 10).map Prod.fst =
      some (Verdict.model [1]) ∧
    maxvar_of [[1]] = 1 := by decide

/-- C1, evaluation at the failing input: on the clause set consisting of
    exactly the empty clause (with the maximum-variable hint 1 supplied)
    the engines disagree.  Truth-table search, naive DPLL and the
    watched-literal DPLL (for every activity bump function) report UNSAT,
    while naive resolution, optimized resolution and the classical DPLL
    engine skip length-0 clauses and report truthy SAT verdicts — the
    classical engine even a model. -/
theorem C1_engines_disagree_on_empty_clause :
    ST.searchtable [[]] (some 1) true 10 = some Verdict.unsat ∧
    NDPLL.naivedpll [[]] (some 1) 10 = some Verdict.unsat ∧
    (∀ bump : Nat → Int, DPLL.dpll bump [[]] (some 1) 10 = some Verdict.unsat) ∧
    (NRES.naiveres [[]] (some 1) 10).map Prod.fst = some Verdict.satMarker ∧
    (RES.resolution [[]] (some 1) 10).map Prod.fst = some Verdict.satMarker ∧
    ODPLL.olddpll [[]] (some 1) 10 = some (Verdict.model [1]) ∧
    Verdict.unsat.isSat = false ∧ Verdict.satMarker.isSat = true ∧
    (Verdict.model [1]).isSat = true :=
  ⟨by decide, by decide, fun _ => rfl, by decide, by decide, by decide,
   by decide, by decide, by decide⟩

/-- C2, evaluation at two failing inputs.  First: on `[[]]` with V = 1 the
    classical DPLL engine returns the model `[1]`, which assigns every
    variable 1..V, yet the input's empty clause contains no true literal.
    Second: on the unsatisfiable set `[[1],[-2,4],[-1,2],[-4,6],[-4,-6]]`
    the watched-literal engine returns the total model `[1,2,3,-4,5,6]`
    that falsifies the input clause `[-2,4]`: `simplify_clause_list`
    derives the unit 2 from `[-1,2]` after `[-2,4]` was already scanned,
    and `count_occurrences` then deletes `[-2,4]` because it contains the
    assigned variable 2, without checking the literal's polarity.  The
    run's only conflict bump is at propagation count 1, where the source's
    `2*Math.pow(1,1.5)` equals the instantiated bump value 2. -/
theorem C2_total_model_not_satisfying :
    ODPLL.olddpll [[]] (some 1) 10 = some (Verdict.model [1]) ∧
    model_total [1] 1 ∧
    ¬ model_sats_clause [1] ([] : List Int) ∧
    ([] : List Int) ∈ [([] : List Int)] ∧
    DPLL.dpll (fun n => 2 * (n : Int)) [[1], [-2, 4], [-1, 2], [-4, 6], [-4, -6]]
        (some 6) 30 = some (Verdict.model [1, 2, 3, -4, 5, 6]) ∧
    (fun n => 2 * (n : Int)) 1 = 2 ∧
    model_total [1, 2, 3, -4, 5, 6] 6 ∧
    ¬ model_sats_clause [1, 2, 3, -4, 5, 6] [-2, 4] ∧
    [-2, 4] ∈ [[1], [-2, 4], [-1, 2], [-4, 6], [-4, -6]] := by
  decide

theorem nv_fold_spec (varvals : I32) (acts : List Int) :
    ∀ (is : List Nat) (m : Int) (b : Nat), is.Pairwise (· < ·) →
      ((∀ i ∈ is, varvals.get? i = some 0 →
          ∀ a, acts.get? i = some a → a < m) →
        is.foldl (DPLL.nv_step varvals acts) (m, b) = (m, b)) ∧
      ((∃ i ∈ is, varvals.get? i = some 0 ∧ ∃ a, acts.get? i = some a ∧ m ≤ a) →
        (is.foldl (DPLL.nv_step varvals acts) (m, b)).2 ∈ is ∧
        varvals.get? (is.foldl (DPLL.nv_step varvals acts) (m, b)).2 = some 0 ∧
        acts.get? (is.foldl (DPLL.nv_step varvals acts) (m, b)).2 =
          some (is.foldl (DPLL.nv_step varvals acts) (m, b)).1 ∧
        m ≤ (is.foldl (DPLL.nv_step varvals acts) (m, b)).1 ∧
        ∀ i ∈ is, varvals.get? i = some 0 → ∀ a, acts.get? i = some a → m ≤ a →
          a ≤ (is.foldl (DPLL.nv_step varvals acts) (m, b)).1 ∧
          (a = (is.foldl (DPLL.nv_step varvals acts) (m, b)).1 →
            i ≤ (is.foldl (DPLL.nv_step varvals acts) (m, b)).2)) := by
  intro is
  induction is with
  | nil =>
    intro m b _
    constructor
    · intro _; rfl
    · rintro ⟨i, hi, -⟩
      exact absurd hi (List.not_mem_nil i)
  | cons i0 rest ih =>
    intro m b hpw
    have hlt : ∀ j ∈ rest, i0 < j := fun j hj => (List.pairwise_cons.mp hpw).1 j hj
    have hpw2 : rest.Pairwise (· < ·) := (List.pairwise_cons.mp hpw).2
    by_cases hc : varvals.get? i0 = some 0
    · rcases ha : acts.get? i0 with - | a0
      · -- undefined activity entry: the comparison is false, i0 skipped
        have hstep : DPLL.nv_step varvals acts (m, b) i0 = (m, b) := by
          unfold DPLL.nv_step
          rw [if_pos hc, ha]
        rw [List.foldl_cons, hstep]
        have hr := ih m b hpw2
        constructor
        · intro hall
          exact hr.1 (fun i hi => hall i (List.mem_cons_of_mem _ hi))
        · rintro ⟨i, hi, hci, a, hai, hma⟩
          have hwit : ∃ i ∈ rest, varvals.get? i = some 0 ∧
              ∃ a, acts.get? i = some a ∧ m ≤ a := by
            rcases List.mem_cons.mp hi with rfl | hi2
            · rw [ha] at hai
              exact absurd hai (by simp)
            · exact ⟨i, hi2, hci, a, hai, hma⟩
          have hb := hr.2 hwit
          refine ⟨List.mem_cons_of_mem _ hb.1, hb.2.1, hb.2.2.1, hb.2.2.2.1, ?_⟩
          intro j hj hcj aj haj hmaj
          rcases List.mem_cons.mp hj with rfl | hj2
          · rw [ha] at haj
            exact absurd haj (by simp)
          · exact hb.2.2.2.2 j hj2 hcj aj haj hmaj
      · by_cases hm : m ≤ a0
        · -- i0 becomes the new best pair (a0, i0)
          have hstep : DPLL.nv_step varvals acts (m, b) i0 = (a0, i0) := by
            unfold DPLL.nv_step
            rw [if_pos hc, ha]
            simp [hm]
          rw [List.foldl_cons, hstep]
          have hr := ih a0 i0 hpw2
          constructor
          · intro hall
            exact absurd hm (not_le.mpr (hall i0 (List.mem_cons_self _ _) hc a0 ha))
          · intro _hex
            by_cases hrest : ∃ i ∈ rest, varvals.get? i = some 0 ∧
                ∃ a, acts.get? i = some a ∧ a0 ≤ a
            · have hb := hr.2 hrest
              refine ⟨List.mem_cons_of_mem _ hb.1, hb.2.1, hb.2.2.1,
                le_trans hm hb.2.2.2.1, ?_⟩
              intro j hj hcj aj haj hmaj
              rcases List.mem_cons.mp hj with rfl | hj2
              · rw [ha] at haj
                have haj2 : a0 = aj := Option.some.inj haj
                subst haj2
                refine ⟨hb.2.2.2.1, fun _ => ?_⟩
                exact le_of_lt (hlt _ hb.1)
              · by_cases hge : a0 ≤ aj
                · exact hb.2.2.2.2 j hj2 hcj aj haj hge
                · have h1 : aj < a0 := not_le.mp hge
                  have h2 : a0 ≤ (rest.foldl (DPLL.nv_step varvals acts) (a0, i0)).1 :=
                    hb.2.2.2.1
                  exact ⟨by omega, fun he => absurd he (by omega)⟩
            · -- no later candidate reaches a0: the fold keeps (a0, i0)
              have hall2 : ∀ i ∈ rest, varvals.get? i = some 0 →
                  ∀ a, acts.get? i = some a → a < a0 := by
                intro i hi hci a hai
                by_contra hnl
                exact hrest ⟨i, hi, hci, a, hai, not_lt.mp hnl⟩
              have heq := hr.1 hall2
              rw [heq]
              refine ⟨List.mem_cons_self _ _, hc, ha, hm, ?_⟩
              intro j hj hcj aj haj hmaj
              rcases List.mem_cons.mp hj with rfl | hj2
              · rw [ha] at haj
                have haj2 : a0 = aj := Option.some.inj haj
                subst haj2
                exact ⟨le_refl _, fun _ => le_refl _⟩
              · have h1 := hall2 j hj2 hcj aj haj
                exact ⟨le_of_lt h1, fun he => absurd he (by omega)⟩
        · -- a0 below the running maximum: i0 is skipped
          have hstep : DPLL.nv_step varvals acts (m, b) i0 = (m, b) := by
            unfold DPLL.nv_step
            rw [if_pos hc, ha]
            simp [hm]
          rw [List.foldl_cons, hstep]
          have hr := ih m b hpw2
          constructor
          · intro hall
            exact hr.1 (fun i hi => hall i (List.mem_cons_of_mem _ hi))
          · rintro ⟨i, hi, hci, a, hai, hma⟩
            have hwit : ∃ i ∈ rest, varvals.get? i = some 0 ∧
                ∃ a, acts.get? i = some a ∧ m ≤ a := by
              rcases List.mem_cons.mp hi with rfl | hi2
              · rw [ha] at hai
                have h0 : a0 = a := Option.some.inj hai
                exfalso
                omega
              · exact ⟨i, hi2, hci, a, hai, hma⟩
            have hb := hr.2 hwit
            refine ⟨List.mem_cons_of_mem _ hb.1, hb.2.1, hb.2.2.1, hb.2.2.2.1, ?_⟩
            intro j hj hcj aj haj hmaj
            rcases List.mem_cons.mp hj with rfl | hj2
            · rw [ha] at haj
              have h0 : a0 = aj := Option.some.inj haj
              exfalso
              omega
            · exact hb.2.2.2.2 j hj2 hcj aj haj hmaj
    · -- assigned variable: skipped
      have hstep : DPLL.nv_step varvals acts (m, b) i0 = (m, b) := by
        unfold DPLL.nv_step
        rw [if_neg hc]
      rw [List.foldl_cons, hstep]
      have hr := ih m b hpw2
      constructor
      · intro hall
        exact hr.1 (fun i hi => hall i (List.mem_cons_of_mem _ hi))
      · rintro ⟨i, hi, hci, a, hai, hma⟩
        have hwit : ∃ i ∈ rest, varvals.get? i = some 0 ∧
            ∃ a, acts.get? i = some a ∧ m ≤ a := by
          rcases List.mem_cons.mp hi with rfl | hi2
          · exact absurd hci hc
          · exact ⟨i, hi2, hci, a, hai, hma⟩
        have hb := hr.2 hwit
        refine ⟨List.mem_cons_of_mem _ hb.1, hb.2.1, hb.2.2.1, hb.2.2.2.1, ?_⟩
        intro j hj hcj aj haj hmaj
        rcases List.mem_cons.mp hj with rfl | hj2
        · exact absurd hcj hc
        · exact hb.2.2.2.2 j hj2 hcj aj haj hmaj

/-- C9 counterexample: variables 1 and 2 are both unassigned with equal
    activity 5, yet `next_var` returns 2 — not the smallest index 1 the
    claim requires — because the source compares with
    `activity >= maxactivity` and later variables overwrite earlier
    ties. -/
theorem C9_counterexample :
    DPLL.next_var ⟨[0, 0, 0]⟩ [1, 5, 5] = 2 ∧
    (⟨[0, 0, 0]⟩ : I32).get? 1 = some 0 ∧
    (⟨[0, 0, 0]⟩ : I32).get? 2 = some 0 ∧
    ([1, 5, 5] : List Int).get? 1 = some 5 ∧
    ([1, 5, 5] : List Int).get? 2 = some 5 := by decide

/-- C9, corrected: `next_var` returns an Unassigned variable whose
    `varactivities` entry is maximal among the Unassigned variables, and
    when several share the maximal activity it returns the one with the
    LARGEST index (the loop updates on `>=`).  Stated for activity tables
    bounded below by the -1000 sentinel, which every engine state
    satisfies (activities are nonnegative). -/
theorem C9_next_var_max_largest_index
    (varvals : I32) (acts : List Int)
    (hge : ∀ a ∈ acts, -1000 ≤ a)
    (hex : ∃ i ∈ (List.range varvals.data.length).drop 1,
      varvals.get? i = some 0 ∧ ∃ a, acts.get? i = some a) :
    varvals.get? (DPLL.next_var varvals acts) = some 0 ∧
    ∃ ar, acts.get? (DPLL.next_var varvals acts) = some ar ∧
      ∀ j ∈ (List.range varvals.data.length).drop 1,
        varvals.get? j = some 0 → ∀ aj, acts.get? j = some aj →
          aj ≤ ar ∧ (aj = ar → j ≤ DPLL.next_var varvals acts) := by
  have hpw : ((List.range varvals.data.length).drop 1).Pairwise (· < ·) :=
    (List.pairwise_lt_range _).sublist (List.drop_sublist _ _)
  have hex2 : ∃ i ∈ (List.range varvals.data.length).drop 1,
      varvals.get? i = some 0 ∧ ∃ a, acts.get? i = some a ∧ (-1000 : Int) ≤ a := by
    obtain ⟨i, hi, hci, a, hai⟩ := hex
    exact ⟨i, hi, hci, a, hai, hge a (List.get?_mem hai)⟩
  have hspec := (nv_fold_spec varvals acts
    ((List.range varvals.data.length).drop 1) (-1000) 0 hpw).2 hex2
  unfold DPLL.next_var
  refine ⟨hspec.2.1, _, hspec.2.2.1, ?_⟩
  intro j hj hcj aj haj
  exact hspec.2.2.2.2 j hj hcj aj haj (hge aj (List.get?_mem haj))

/-- C9 witness: the corrected statement applied at the counterexample
    state. -/
theorem C9_next_var_max_largest_index_witness :
    (⟨[0, 0, 0]⟩ : I32).get? (DPLL.next_var ⟨[0, 0, 0]⟩ [1, 5, 5]) = some 0 ∧
    ∃ ar, ([1, 5, 5] : List Int).get? (DPLL.next_var ⟨[0, 0, 0]⟩ [1, 5, 5])
        = some ar ∧
      ∀ j ∈ (List.range (⟨[0, 0, 0]⟩ : I32).data.length).drop 1,
        (⟨[0, 0, 0]⟩ : I32).get? j = some 0 →
          ∀ aj, ([1, 5, 5] : List Int).get? j = some aj →
            aj ≤ ar ∧ (aj = ar → j ≤ DPLL.next_var ⟨[0, 0, 0]⟩ [1, 5, 5]) :=
  C9_next_var_max_largest_index ⟨[0, 0, 0]⟩ [1, 5, 5] (by decide)
    ⟨1, by decide, by decide, 5, by decide⟩

/-! ### Assignment-array frame lemmas (backtracking restoration) -/

theorem I32.ext_get? {a b : I32} (h : ∀ n, a.get? n = b.get? n) : a = b := by
  cases a with
  | mk da =>
    cases b with
    | mk db =>
      congr 1
      exact List.ext h

theorem I32.length_set (a : I32) (i : Nat) (v : Int) :
    (a.set i v).data.length = a.data.length := List.length_set a.data i v

theorem I32.get?_set_self (a : I32) (i : Nat) (v : Int)
    (h : i < a.data.length) : (a.set i v).get? i = some v :=
  List.get?_set_eq_of_lt v h

theorem I32.get?_set_other (a : I32) (i j : Nat) (v : Int) (h : i ≠ j) :
    (a.set i v).get? j = a.get? j := List.get?_set_ne v a.data h

theorem I32.get?_lt_length {a : I32} {i : Nat} {v : Int}
    (h : a.get? i = some v) : i < a.data.length := by
  by_contra hge
  rw [I32.get?, List.get?_eq_none.mpr (by omega)] at h
  exact Option.noConfusion h

theorem I32.set_same {a : I32} {i : Nat} {v : Int} (h : a.get? i = some v) :
    a.set i v = a := by
  apply I32.ext_get?
  intro n
  by_cases hn : i = n
  · subst hn
    rw [I32.get?_set_self a i v (I32.get?_lt_length h), h]
  · exact I32.get?_set_other a i n v hn

theorem I32.set_set (a : I32) (i : Nat) (v w : Int) :
    (a.set i v).set i w = a.set i w := by
  show (⟨(a.data.set i v).set i w⟩ : I32) = ⟨a.data.set i w⟩
  rw [List.set_set]

theorem zeroVars_nil (a : I32) : I32.zeroVars [] a = a := rfl

theorem zeroVars_cons (v : Nat) (vs : List Nat) (a : I32) :
    I32.zeroVars (v :: vs) a = I32.zeroVars vs (a.set v 0) := rfl

theorem zeroVars_length (vs : List Nat) (a : I32) :
    (I32.zeroVars vs a).data.length = a.data.length := by
  induction vs generalizing a with
  | nil => rfl
  | cons v vs ih => rw [zeroVars_cons, ih, I32.length_set]

theorem zeroVars_get?_not_mem {vs : List Nat} {n : Nat} (h : n ∉ vs)
    (a : I32) : (I32.zeroVars vs a).get? n = a.get? n := by
  induction vs generalizing a with
  | nil => rfl
  | cons v vs ih =>
    rw [zeroVars_cons, ih (fun hm => h (List.mem_cons_of_mem v hm))]
    exact I32.get?_set_other a v n 0 (fun hvn => h (hvn ▸ List.mem_cons_self v vs))

theorem zeroVars_get?_mem {vs : List Nat} {n : Nat} (h : n ∈ vs) (a : I32)
    (hlt : n < a.data.length) : (I32.zeroVars vs a).get? n = some 0 := by
  induction vs generalizing a with
  | nil => exact absurd h (List.not_mem_nil n)
  | cons v vs ih =>
    rw [zeroVars_cons]
    by_cases hm : n ∈ vs
    · exact ih hm (a.set v 0) (by rw [I32.length_set]; exact hlt)
    · have hv : n = v := by
        rcases List.mem_cons.mp h with h1 | h2
        · exact h1
        · exact absurd h2 hm
      subst hv
      rw [zeroVars_get?_not_mem hm]
      exact I32.get?_set_self a n 0 hlt

theorem VExt_zeroVars {w0 : I32} {vs : List Nat} {w : I32}
    (h : VExt w0 vs w) : I32.zeroVars vs w = w0 := by
  obtain ⟨hlen, hmem, hout⟩ := h
  apply I32.ext_get?
  intro n
  by_cases hn : n ∈ vs
  · have h0 := hmem n hn
    rw [zeroVars_get?_mem hn w (by rw [hlen]; exact I32.get?_lt_length h0), h0]
  · rw [zeroVars_get?_not_mem hn, hout n hn]

theorem VExt_refl (w : I32) : VExt w [] w :=
  ⟨rfl, fun v hv => absurd hv (List.not_mem_nil v), fun _ _ => rfl⟩

theorem VExt_extend {w0 : I32} {vs : List Nat} {w : I32} (h : VExt w0 vs w)
    (v : Nat) (x : Int) (hv : v ∈ vs ∨ w.get? v = some 0) :
    VExt w0 (vs ++ [v]) (w.set v x) := by
  obtain ⟨hlen, hmem, hout⟩ := h
  refine ⟨by rw [I32.length_set]; exact hlen, ?_, ?_⟩
  · intro u hu
    rcases List.mem_append.mp hu with hu1 | hu2
    · exact hmem u hu1
    · have : u = v := List.mem_singleton.mp hu2
      subst this
      rcases hv with hv1 | hv2
      · exact hmem u hv1
      · by_cases hm : u ∈ vs
        · exact hmem u hm
        · rw [← hout u hm]
          exact hv2
  · intro u hu
    have huv : u ≠ v := by
      intro he
      subst he
      exact hu (List.mem_append_right vs (List.mem_singleton_self u))
    have huvs : u ∉ vs := fun hm => hu (List.mem_append_left _ hm)
    rw [I32.get?_set_other w v u x (fun he => huv he.symm)]
    exact hout u huvs

theorem LExt_refl (w : I32) : LExt w [] w :=
  ⟨fun l hl => absurd hl (List.not_mem_nil l), VExt_refl w⟩

theorem LExt_extend {w0 : I32} {ds : List Int} {w : I32} (h : LExt w0 ds w)
    (l : Int) (x : Int) (hl : l ≠ 0)
    (hv : lvar l ∈ ds.map lvar ∨ w.get? (lvar l) = some 0) :
    LExt w0 (ds ++ [l]) (w.set (lvar l) x) := by
  obtain ⟨hnz, hext⟩ := h
  refine ⟨?_, ?_⟩
  · intro l' hl'
    rcases List.mem_append.mp hl' with h1 | h2
    · exact hnz l' h1
    · rw [List.mem_singleton.mp h2]; exact hl
  · rw [List.map_append]
    exact VExt_extend hext (lvar l) x hv

theorem LExt_zero_foldl {w0 : I32} {ds : List Int} {w : I32}
    (h : LExt w0 ds w) :
    ds.foldl (fun w l => w.set (lvar l) 0) w = w0 := by
  have hfm : ds.foldl (fun w l => w.set (lvar l) 0) w
      = (ds.map lvar).foldl (fun w v => w.set v 0) w := by
    rw [List.foldl_map]
  rw [hfm]
  exact VExt_zeroVars h.2

theorem mem_range_drop {n i : Nat} :
    i ∈ (List.range n).drop 1 ↔ 1 ≤ i ∧ i < n := by
  cases n with
  | zero => simp [List.range_zero]
  | succ m =>
    rw [List.range_succ_eq_map]
    show i ∈ (List.range m).map Nat.succ ↔ _
    simp only [List.mem_map, List.mem_range]
    constructor
    · rintro ⟨j, hj, rfl⟩
      omega
    · rintro ⟨h1, h2⟩
      exact ⟨i - 1, by omega, by omega⟩

theorem mk0_get? (n i : Nat) :
    (I32.mk0 n).get? i = if i < n then some 0 else none := by
  by_cases h : i < n
  · rw [if_pos h]
    show (List.replicate n (0:Int)).get? i = some 0
    rw [List.get?_eq_get (by simpa using h)]
    simp
  · rw [if_neg h]
    apply List.get?_eq_none.mpr
    show (List.replicate n (0:Int)).length ≤ i
    simpa using Nat.le_of_not_lt h

/-! ### Naive DPLL: restoration of the assignment on a False return -/

theorem ndpll_scan_nil (w : I32) (cnt : Nat) (ulit : Int) :
    NDPLL.clause_scan w [] cnt ulit = (false, cnt, ulit) := rfl

theorem ndpll_scan_cons (w : I32) (l : Int) (rest : List Int) (cnt : Nat)
    (ulit : Int) :
    NDPLL.clause_scan w (l :: rest) cnt ulit =
      if w.get? (lvar l) = some (lsign l) then (true, cnt, ulit)
      else if w.get? (lvar l) = some 0 then
        NDPLL.clause_scan w rest (cnt + 1) l
      else NDPLL.clause_scan w rest cnt ulit := rfl

theorem ndpll_scan_ulit (w : I32) :
    ∀ (c : List Int) (cnt : Nat) (ulit : Int),
    (NDPLL.clause_scan w c cnt ulit).2 = (cnt, ulit) ∨
      w.get? (lvar (NDPLL.clause_scan w c cnt ulit).2.2) = some 0 := by
  intro c
  induction c with
  | nil => intro cnt ulit; left; rfl
  | cons l rest ih =>
    intro cnt ulit
    rw [ndpll_scan_cons]
    by_cases h1 : w.get? (lvar l) = some (lsign l)
    · rw [if_pos h1]; left; rfl
    · rw [if_neg h1]
      by_cases h2 : w.get? (lvar l) = some 0
      · rw [if_pos h2]
        right
        rcases ih (cnt + 1) l with h | h
        · have h22 : (NDPLL.clause_scan w rest (cnt + 1) l).2.2 = l := by
            rw [h]
          rw [h22]
          exact h2
        · exact h
      · rw [if_neg h2]
        exact ih cnt ulit

theorem ndpll_scan_cnt (w : I32) :
    ∀ (c : List Int) (cnt : Nat) (ulit : Int),
    (NDPLL.clause_scan w c cnt ulit).2.1 ≠ cnt →
    ∃ l ∈ c, w.get? (lvar l) = some 0 := by
  intro c
  induction c with
  | nil => intro cnt ulit h; exact absurd rfl h
  | cons l rest ih =>
    intro cnt ulit h
    rw [ndpll_scan_cons] at h
    by_cases h1 : w.get? (lvar l) = some (lsign l)
    · rw [if_pos h1] at h; exact absurd rfl h
    · rw [if_neg h1] at h
      by_cases h2 : w.get? (lvar l) = some 0
      · exact ⟨l, List.mem_cons_self l rest, h2⟩
      · rw [if_neg h2] at h
        obtain ⟨l', hl', hu⟩ := ih cnt ulit h
        exact ⟨l', List.mem_cons_of_mem l hl', hu⟩

theorem ndpll_pass_nil (w : I32) : NDPLL.pass w [] = some ([], true) := rfl

theorem ndpll_pass_cons (w : I32) (c : List Int) (rest : List (List Int)) :
    NDPLL.pass w (c :: rest) =
      if (NDPLL.clause_scan w c 0 0).1 then NDPLL.pass w rest
      else if (NDPLL.clause_scan w c 0 0).2.1 = 0 then none
      else match NDPLL.pass w rest with
        | none => none
        | some (q, _) =>
          some ((if (NDPLL.clause_scan w c 0 0).2.1 = 1
            then (NDPLL.clause_scan w c 0 0).2.2 :: q else q), false) := rfl

theorem ndpll_pass_false_exists (w : I32) :
    ∀ (cs : List (List Int)) (q : List Int),
    NDPLL.pass w cs = some (q, false) →
    ∃ c ∈ cs, ∃ l ∈ c, w.get? (lvar l) = some 0 := by
  intro cs
  induction cs with
  | nil =>
    intro q h
    rw [ndpll_pass_nil] at h
    simp at h
  | cons c rest ih =>
    intro q h
    rw [ndpll_pass_cons] at h
    by_cases h1 : (NDPLL.clause_scan w c 0 0).1
    · rw [if_pos h1] at h
      obtain ⟨c', hc', hl⟩ := ih q h
      exact ⟨c', List.mem_cons_of_mem c hc', hl⟩
    · rw [if_neg h1] at h
      by_cases h2 : (NDPLL.clause_scan w c 0 0).2.1 = 0
      · rw [if_pos h2] at h
        exact Option.noConfusion h
      · obtain ⟨l, hl, hu⟩ := ndpll_scan_cnt w c 0 0 h2
        exact ⟨c, List.mem_cons_self c rest, l, hl, hu⟩

theorem ndpll_pass_queue (w : I32) :
    ∀ (cs : List (List Int)) (q : List Int) (b : Bool),
    NDPLL.pass w cs = some (q, b) →
    ∀ l ∈ q, w.get? (lvar l) = some 0 := by
  intro cs
  induction cs with
  | nil =>
    intro q b h
    rw [ndpll_pass_nil] at h
    have hq := congrArg (fun o => (o.getD ([], true)).1) h
    simp at hq
    subst hq
    intro l hl
    exact absurd hl (List.not_mem_nil l)
  | cons c rest ih =>
    intro q b h
    rw [ndpll_pass_cons] at h
    by_cases h1 : (NDPLL.clause_scan w c 0 0).1
    · rw [if_pos h1] at h
      exact ih q b h
    · rw [if_neg h1] at h
      by_cases h2 : (NDPLL.clause_scan w c 0 0).2.1 = 0
      · rw [if_pos h2] at h
        exact Option.noConfusion h
      · rw [if_neg h2] at h
        cases hrest : NDPLL.pass w rest with
        | none => rw [hrest] at h; exact Option.noConfusion h
        | some qb =>
          obtain ⟨q', b'⟩ := qb
          rw [hrest] at h
          replace h : some ((if (NDPLL.clause_scan w c 0 0).2.1 = 1
              then (NDPLL.clause_scan w c 0 0).2.2 :: q' else q'), false)
              = some (q, b) := h
          have hq := congrArg (fun o => (o.getD ([], true)).1) h
          simp only [Option.getD_some] at hq
          intro l hl
          rw [← hq] at hl
          by_cases h3 : (NDPLL.clause_scan w c 0 0).2.1 = 1
          · rw [if_pos h3] at hl
            rcases List.mem_cons.mp hl with hl1 | hl2
            · subst hl1
              rcases ndpll_scan_ulit w c 0 0 with hs | hs
              · have : (NDPLL.clause_scan w c 0 0).2.1 = 0 := by rw [hs]
                exact absurd this h2
              · exact hs
            · exact ih q' b' hrest l hl2
          · rw [if_neg h3] at hl
            exact ih q' b' hrest l hl

theorem ndpll_apply_queue_nil (w : I32) (d : List Nat) :
    NDPLL.apply_queue [] w d = (w, d) := rfl

theorem ndpll_apply_queue_cons (l : Int) (q : List Int) (w : I32)
    (d : List Nat) :
    NDPLL.apply_queue (l :: q) w d =
      NDPLL.apply_queue q (w.set (lvar l) (lsign l)) (d ++ [lvar l]) := rfl

theorem ndpll_apply_queue_snd :
    ∀ (q : List Int) (w : I32) (d : List Nat),
    (NDPLL.apply_queue q w d).2 = d ++ q.map lvar := by
  intro q
  induction q with
  | nil => intro w d; simp [ndpll_apply_queue_nil]
  | cons l q' ih =>
    intro w d
    rw [ndpll_apply_queue_cons, ih]
    simp

theorem ndpll_apply_queue_ext {w0 : I32} :
    ∀ (q : List Int) (w : I32) (vs : List Nat) (d : List Nat),
    VExt w0 vs w →
    (∀ l ∈ q, lvar l ∈ vs ∨ w.get? (lvar l) = some 0) →
    VExt w0 (vs ++ q.map lvar) (NDPLL.apply_queue q w d).1 := by
  intro q
  induction q with
  | nil =>
    intro w vs d hext _
    simpa [ndpll_apply_queue_nil] using hext
  | cons l q' ih =>
    intro w vs d hext hq
    rw [ndpll_apply_queue_cons]
    have hext2 : VExt w0 (vs ++ [lvar l]) (w.set (lvar l) (lsign l)) :=
      VExt_extend hext (lvar l) (lsign l) (hq l (List.mem_cons_self l q'))
    have hq2 : ∀ l' ∈ q', lvar l' ∈ vs ++ [lvar l] ∨
        (w.set (lvar l) (lsign l)).get? (lvar l') = some 0 := by
      intro l' hl'
      rcases hq l' (List.mem_cons_of_mem l hl') with h | h
      · exact Or.inl (List.mem_append_left _ h)
      · by_cases he : lvar l' = lvar l
        · exact Or.inl (List.mem_append_right _ (he ▸ List.mem_singleton_self (lvar l)))
        · refine Or.inr ?_
          rw [I32.get?_set_other w (lvar l) (lvar l') (lsign l) (fun hx => he hx.symm)]
          exact h
    have := ih (w.set (lvar l) (lsign l)) (vs ++ [lvar l]) (d ++ [lvar l]) hext2 hq2
    rw [List.append_assoc] at this
    simpa using this

theorem ndpll_up_zero (clauses : List (List Int)) (w : I32) (ds : List Nat) :
    NDPLL.unit_propagate clauses 0 w ds = none := rfl

theorem ndpll_up_succ (clauses : List (List Int)) (fuel : Nat) (w : I32)
    (ds : List Nat) :
    NDPLL.unit_propagate clauses (fuel + 1) w ds =
      match NDPLL.pass w clauses with
      | none => some (.conflict, I32.zeroVars ds w)
      | some (q, acf) =>
        if acf then some (.sat, w)
        else if q.isEmpty then some (.undet ds, w)
        else NDPLL.unit_propagate clauses fuel (NDPLL.apply_queue q w ds).1
          (NDPLL.apply_queue q w ds).2 := rfl

theorem ndpll_up_ext (clauses : List (List Int)) (w0 : I32) :
    ∀ (fuel : Nat) (w : I32) (ds : List Nat) (r : NDPLL.PropRes) (w2 : I32),
    VExt w0 ds w →
    NDPLL.unit_propagate clauses fuel w ds = some (r, w2) →
    (r = .conflict → w2 = w0) ∧ (∀ ds2, r = .undet ds2 → VExt w0 ds2 w2) := by
  intro fuel
  induction fuel with
  | zero =>
    intro w ds r w2 _ h
    rw [ndpll_up_zero] at h
    exact Option.noConfusion h
  | succ fuel ih =>
    intro w ds r w2 hext h
    rw [ndpll_up_succ] at h
    cases hpass : NDPLL.pass w clauses with
    | none =>
      rw [hpass] at h
      replace h : some (NDPLL.PropRes.conflict, I32.zeroVars ds w)
          = some (r, w2) := h
      have hp := Option.some.inj h
      have hr : NDPLL.PropRes.conflict = r := congrArg Prod.fst hp
      have hw : I32.zeroVars ds w = w2 := congrArg Prod.snd hp
      subst hr
      refine ⟨fun _ => ?_, fun ds2 hu => ?_⟩
      · rw [← hw]; exact VExt_zeroVars hext
      · exact NDPLL.PropRes.noConfusion hu
    | some qb =>
      obtain ⟨q, acf⟩ := qb
      rw [hpass] at h
      by_cases hacf : acf = true
      · subst hacf
        replace h : some (NDPLL.PropRes.sat, w) = some (r, w2) := h
        have hr : NDPLL.PropRes.sat = r := congrArg Prod.fst (Option.some.inj h)
        subst hr
        exact ⟨fun hc => NDPLL.PropRes.noConfusion hc,
          fun ds2 hu => NDPLL.PropRes.noConfusion hu⟩
      · replace h : (if acf = true then some (NDPLL.PropRes.sat, w)
            else if q.isEmpty then some (NDPLL.PropRes.undet ds, w)
            else NDPLL.unit_propagate clauses fuel (NDPLL.apply_queue q w ds).1
              (NDPLL.apply_queue q w ds).2) = some (r, w2) := h
        rw [if_neg hacf] at h
        by_cases hq : q.isEmpty
        · rw [if_pos hq] at h
          have hp := Option.some.inj h
          have hr : NDPLL.PropRes.undet ds = r := congrArg Prod.fst hp
          have hw : w = w2 := congrArg Prod.snd hp
          subst hr
          refine ⟨fun hc => NDPLL.PropRes.noConfusion hc, fun ds2 hu => ?_⟩
          have hds : ds = ds2 := by injection hu
          subst hds
          rw [← hw]
          exact hext
        · rw [if_neg hq] at h
          have hqun := ndpll_pass_queue w clauses q acf hpass
          have hext2 : VExt w0 (ds ++ q.map lvar) (NDPLL.apply_queue q w ds).1 :=
            ndpll_apply_queue_ext q w ds ds hext
              (fun l hl => Or.inr (hqun l hl))
          rw [ndpll_apply_queue_snd] at h
          exact ih (NDPLL.apply_queue q w ds).1 (ds ++ q.map lvar) r w2 hext2 h

theorem ndpll_up_undet_pass (clauses : List (List Int)) :
    ∀ (fuel : Nat) (w : I32) (ds ds2 : List Nat) (w2 : I32),
    NDPLL.unit_propagate clauses fuel w ds = some (.undet ds2, w2) →
    ∃ q, NDPLL.pass w2 clauses = some (q, false) := by
  intro fuel
  induction fuel with
  | zero =>
    intro w ds ds2 w2 h
    rw [ndpll_up_zero] at h
    exact Option.noConfusion h
  | succ fuel ih =>
    intro w ds ds2 w2 h
    rw [ndpll_up_succ] at h
    cases hpass : NDPLL.pass w clauses with
    | none =>
      rw [hpass] at h
      replace h : some (NDPLL.PropRes.conflict, I32.zeroVars ds w)
          = some (NDPLL.PropRes.undet ds2, w2) := h
      have hr := congrArg Prod.fst (Option.some.inj h)
      exact NDPLL.PropRes.noConfusion hr
    | some qb =>
      obtain ⟨q, acf⟩ := qb
      rw [hpass] at h
      replace h : (if acf = true then some (NDPLL.PropRes.sat, w)
          else if q.isEmpty then some (NDPLL.PropRes.undet ds, w)
          else NDPLL.unit_propagate clauses fuel (NDPLL.apply_queue q w ds).1
            (NDPLL.apply_queue q w ds).2)
          = some (NDPLL.PropRes.undet ds2, w2) := h
      by_cases hacf : acf = true
      · rw [if_pos hacf] at h
        have hr := congrArg Prod.fst (Option.some.inj h)
        exact NDPLL.PropRes.noConfusion hr
      · rw [if_neg hacf] at h
        by_cases hq : q.isEmpty
        · rw [if_pos hq] at h
          have hp := Option.some.inj h
          have hw : w = w2 := congrArg Prod.snd hp
          subst hw
          refine ⟨q, ?_⟩
          rw [hpass]
          have : acf = false := Bool.eq_false_iff.mpr hacf
          rw [this]
        · rw [if_neg hq] at h
          exact ih _ _ ds2 w2 h

theorem ndpll_next_unassigned_spec (w : I32)
    (h : NDPLL.next_unassigned w ≠ 0) :
    w.get? (NDPLL.next_unassigned w) = some 0 := by
  cases hf : ((List.range w.data.length).drop 1).find?
      (fun i => w.get? i = some 0) with
  | none =>
    have hnu : NDPLL.next_unassigned w = 0 := by
      unfold NDPLL.next_unassigned; rw [hf]
    exact absurd hnu h
  | some i =>
    have hnu : NDPLL.next_unassigned w = i := by
      unfold NDPLL.next_unassigned; rw [hf]
    rw [hnu]
    have := List.find?_some hf
    simpa using this

theorem ndpll_next_unassigned_ne (w : I32) (v : Nat) (h1 : 1 ≤ v)
    (h2 : w.get? v = some 0) : NDPLL.next_unassigned w ≠ 0 := by
  have hlt : v < w.data.length := I32.get?_lt_length h2
  cases hf : ((List.range w.data.length).drop 1).find?
      (fun i => w.get? i = some 0) with
  | none =>
    have := List.find?_eq_none.mp hf v (mem_range_drop.mpr ⟨h1, hlt⟩)
    simp at this
    exact absurd h2 this
  | some i =>
    have hnu : NDPLL.next_unassigned w = i := by
      unfold NDPLL.next_unassigned; rw [hf]
    have hmem := List.mem_of_find?_eq_some hf
    have : 1 ≤ i := (mem_range_drop.mp hmem).1
    omega

theorem ndpll_sat_zero (clauses : List (List Int)) (w : I32) (varnr : Nat)
    (val : Int) : NDPLL.satisfiable_at clauses 0 w varnr val = none := rfl

theorem ndpll_sat_succ (clauses : List (List Int)) (fuel : Nat) (w : I32)
    (varnr : Nat) (val : Int) :
    NDPLL.satisfiable_at clauses (fuel + 1) w varnr val =
      match NDPLL.unit_propagate clauses (fuel + 1)
          (if varnr ≠ 0 then w.set varnr val else w) [] with
      | none => none
      | some (.sat, w2) =>
        some (true, some (ST.store_model w2), w2.set varnr 0)
      | some (.conflict, w2) => some (false, none, w2.set varnr 0)
      | some (.undet ds, w2) =>
        if NDPLL.next_unassigned w2 ≠ 0 then
          match NDPLL.satisfiable_at clauses fuel w2
              (NDPLL.next_unassigned w2) 1 with
          | none => none
          | some (true, m, w3) => some (true, m, w3)
          | some (false, _, w3) =>
            match NDPLL.satisfiable_at clauses fuel w3
                (NDPLL.next_unassigned w2) (-1) with
            | none => none
            | some (true, m, w4) => some (true, m, w4)
            | some (false, _, w4) =>
              some (false, none,
                I32.zeroVars ds (w4.set (NDPLL.next_unassigned w2) 0))
        else some (false, none, w2) := rfl

theorem ndpll_restore_frame (clauses : List (List Int))
    (hnz : ∀ c ∈ clauses, ∀ l ∈ c, l ≠ 0) :
    ∀ (fuel : Nat) (w : I32) (varnr : Nat) (val : Int)
      (m : Option (List Int)) (w2 : I32),
    varnr ≠ 0 →
    NDPLL.satisfiable_at clauses fuel w varnr val = some (false, m, w2) →
    w2 = w.set varnr 0 ∨ w2 = w.set varnr val := by
  intro fuel
  induction fuel with
  | zero =>
    intro w varnr val m w2 _ h
    rw [ndpll_sat_zero] at h
    exact Option.noConfusion h
  | succ fuel ih =>
    intro w varnr val m w2 hvn h
    rw [ndpll_sat_succ, if_pos hvn] at h
    cases hup : NDPLL.unit_propagate clauses (fuel + 1) (w.set varnr val) []
      with
    | none => rw [hup] at h; exact Option.noConfusion h
    | some rw2 =>
      obtain ⟨r, w2'⟩ := rw2
      rw [hup] at h
      have hext := ndpll_up_ext clauses (w.set varnr val) (fuel + 1)
        (w.set varnr val) [] r w2' (VExt_refl _) hup
      cases r with
      | sat =>
        replace h : some (true, some (ST.store_model w2'), w2'.set varnr 0)
            = some (false, m, w2) := h
        have hb : true = false := congrArg Prod.fst (Option.some.inj h)
        exact Bool.noConfusion hb
      | conflict =>
        replace h : some (false, (none : Option (List Int)), w2'.set varnr 0)
            = some (false, m, w2) := h
        have hw : w2'.set varnr 0 = w2 :=
          congrArg (fun p => p.2.2) (Option.some.inj h)
        left
        rw [← hw, hext.1 rfl, I32.set_set]
      | undet ds =>
        replace h : (if NDPLL.next_unassigned w2' ≠ 0 then
            match NDPLL.satisfiable_at clauses fuel w2'
                (NDPLL.next_unassigned w2') 1 with
            | none => none
            | some (true, m, w3) => some (true, m, w3)
            | some (false, _, w3) =>
              match NDPLL.satisfiable_at clauses fuel w3
                  (NDPLL.next_unassigned w2') (-1) with
              | none => none
              | some (true, m, w4) => some (true, m, w4)
              | some (false, _, w4) =>
                some (false, none,
                  I32.zeroVars ds (w4.set (NDPLL.next_unassigned w2') 0))
          else some (false, none, w2')) = some (false, m, w2) := h
        by_cases hnv : NDPLL.next_unassigned w2' ≠ 0
        · rw [if_pos hnv] at h
          cases h1 : NDPLL.satisfiable_at clauses fuel w2'
              (NDPLL.next_unassigned w2') 1 with
          | none => rw [h1] at h; exact Option.noConfusion h
          | some t1 =>
            obtain ⟨b1, m1, w3⟩ := t1
            rw [h1] at h
            cases b1 with
            | true =>
              replace h : some (true, m1, w3) = some (false, m, w2) := h
              exact Bool.noConfusion (congrArg Prod.fst (Option.some.inj h))
            | false =>
              replace h : (match NDPLL.satisfiable_at clauses fuel w3
                    (NDPLL.next_unassigned w2') (-1) with
                | none => none
                | some (true, m, w4) => some (true, m, w4)
                | some (false, _, w4) =>
                  some (false, none,
                    I32.zeroVars ds (w4.set (NDPLL.next_unassigned w2') 0)))
                  = some (false, m, w2) := h
              cases h2 : NDPLL.satisfiable_at clauses fuel w3
                  (NDPLL.next_unassigned w2') (-1) with
              | none => rw [h2] at h; exact Option.noConfusion h
              | some t2 =>
                obtain ⟨b2, m2, w4⟩ := t2
                rw [h2] at h
                cases b2 with
                | true =>
                  replace h : some (true, m2, w4) = some (false, m, w2) := h
                  exact Bool.noConfusion (congrArg Prod.fst (Option.some.inj h))
                | false =>
                  replace h : some (false, (none : Option (List Int)),
                      I32.zeroVars ds (w4.set (NDPLL.next_unassigned w2') 0))
                      = some (false, m, w2) := h
                  have hw : I32.zeroVars ds
                      (w4.set (NDPLL.next_unassigned w2') 0) = w2 :=
                    congrArg (fun p => p.2.2) (Option.some.inj h)
                  have hc1 := ih w2' (NDPLL.next_unassigned w2') 1 m1 w3 hnv h1
                  have hc2 := ih w3 (NDPLL.next_unassigned w2') (-1) m2 w4 hnv h2
                  have hw4 : w4.set (NDPLL.next_unassigned w2') 0
                      = w2'.set (NDPLL.next_unassigned w2') 0 := by
                    rcases hc2 with hx | hx <;> rcases hc1 with hy | hy <;>
                      rw [hx, hy] <;> simp only [I32.set_set]
                  have hnv0 : w2'.set (NDPLL.next_unassigned w2') 0 = w2' :=
                    I32.set_same (ndpll_next_unassigned_spec w2' hnv)
                  right
                  rw [← hw, hw4, hnv0, VExt_zeroVars (hext.2 ds rfl)]
        · rw [if_neg hnv] at h
          obtain ⟨q, hp⟩ := ndpll_up_undet_pass clauses (fuel + 1)
            (w.set varnr val) [] ds w2' hup
          obtain ⟨c, hc, l, hl, hl0⟩ := ndpll_pass_false_exists w2' clauses q hp
          have hlnz := hnz c hc l hl
          have h1lv : 1 ≤ lvar l := Int.natAbs_pos.mpr hlnz
          exact absurd (ndpll_next_unassigned_ne w2' (lvar l) h1lv hl0) hnv

/-! ### Classical DPLL: restoration of the assignment on a False return -/

theorem assign_fold_ext {w0 : I32} :
    ∀ (ini : List Int) (ds : List Int) (w : I32),
    LExt w0 ds w →
    (∀ l ∈ ini, l ≠ 0 ∧
      (lvar l ∈ ds.map lvar ∨ w.get? (lvar l) = some 0)) →
    LExt w0 (ds ++ ini)
      (ini.foldl (fun w l => w.set (lvar l) (lsign l)) w) := by
  intro ini
  induction ini with
  | nil => intro ds w hext _; simpa using hext
  | cons l rest ih =>
    intro ds w hext hini
    rw [List.foldl_cons]
    have h1 := hini l (List.mem_cons_self l rest)
    have hext2 : LExt w0 (ds ++ [l]) (w.set (lvar l) (lsign l)) :=
      LExt_extend hext l (lsign l) h1.1 h1.2
    have hini2 : ∀ l' ∈ rest, l' ≠ 0 ∧
        (lvar l' ∈ (ds ++ [l]).map lvar ∨
          (w.set (lvar l) (lsign l)).get? (lvar l') = some 0) := by
      intro l' hl'
      obtain ⟨hnz', hun'⟩ := hini l' (List.mem_cons_of_mem l hl')
      refine ⟨hnz', ?_⟩
      rcases hun' with hm | hu
      · left; rw [List.map_append]; exact List.mem_append_left _ hm
      · by_cases he : lvar l' = lvar l
        · left
          rw [List.map_append]
          exact List.mem_append_right _ (by simp [he])
        · right
          rw [I32.get?_set_other w (lvar l) (lvar l') (lsign l)
            (fun hx => he hx.symm)]
          exact hu
    have := ih (ds ++ [l]) (w.set (lvar l) (lsign l)) hext2 hini2
    rw [List.append_assoc] at this
    simpa using this

theorem odpll_restore_one {w0 w : I32} {l : Int} (h : LExt w0 [l] w) :
    ODPLL.old_restore (.one l) w = w0 := by
  have hl : l ≠ 0 := h.1 l (List.mem_singleton_self l)
  have hset : w.set (lvar l) 0 = w0 := by
    have : I32.zeroVars ([l].map lvar) w = w0 := VExt_zeroVars h.2
    simpa [I32.zeroVars] using this
  show (if l < 0 then w.set (lvar l) 0
    else if l ≠ 0 then w.set (lvar l) 0 else w) = w0
  by_cases hlt : l < 0
  · rw [if_pos hlt]; exact hset
  · rw [if_neg hlt, if_pos hl]; exact hset

theorem odpll_restore_many {w0 w : I32} {ls : List Int}
    (h : LExt w0 ls w) : ODPLL.old_restore (.many ls) w = w0 :=
  LExt_zero_foldl h

theorem odpll_scan_nil (w : I32) (cnt : Nat) (ulit : Int) :
    ODPLL.clause_scan w [] cnt ulit = (true, cnt, ulit) := rfl

theorem odpll_scan_cons (w : I32) (l : Int) (rest : List Int) (cnt : Nat)
    (ulit : Int) :
    ODPLL.clause_scan w (l :: rest) cnt ulit =
      if w.get? (lvar l) = some 0 then
        (if cnt > 0 then (false, cnt, ulit)
         else ODPLL.clause_scan w rest 1 l)
      else if w.get? (lvar l) = some (lsign l) then (false, cnt, ulit)
      else ODPLL.clause_scan w rest cnt ulit := rfl

theorem odpll_scan_ulit (w : I32) :
    ∀ (c : List Int) (cnt : Nat) (ulit : Int),
    (ODPLL.clause_scan w c cnt ulit).2 = (cnt, ulit) ∨
      ((ODPLL.clause_scan w c cnt ulit).2.2 ∈ c ∧
        w.get? (lvar (ODPLL.clause_scan w c cnt ulit).2.2) = some 0) := by
  intro c
  induction c with
  | nil => intro cnt ulit; left; rfl
  | cons l rest ih =>
    intro cnt ulit
    rw [odpll_scan_cons]
    by_cases h1 : w.get? (lvar l) = some 0
    · rw [if_pos h1]
      by_cases h2 : cnt > 0
      · rw [if_pos h2]; left; rfl
      · rw [if_neg h2]
        right
        rcases ih 1 l with h | h
        · have h22 : (ODPLL.clause_scan w rest 1 l).2.2 = l := by rw [h]
          rw [h22]
          exact ⟨List.mem_cons_self l rest, h1⟩
        · exact ⟨List.mem_cons_of_mem l h.1, h.2⟩
    · rw [if_neg h1]
      by_cases h2 : w.get? (lvar l) = some (lsign l)
      · rw [if_pos h2]; left; rfl
      · rw [if_neg h2]
        rcases ih cnt ulit with h | h
        · exact Or.inl h
        · exact Or.inr ⟨List.mem_cons_of_mem l h.1, h.2⟩

theorem odpll_walk_nil (w : I32) (np allD : List Int) :
    ODPLL.walk_bucket [] w np allD = (true, w, np, allD) := rfl

theorem odpll_walk_cons (c : List Int) (rest : List (List Int)) (w : I32)
    (np allD : List Int) :
    ODPLL.walk_bucket (c :: rest) w np allD =
      if (ODPLL.clause_scan w c 0 0).1 = false then
        ODPLL.walk_bucket rest w np allD
      else if (ODPLL.clause_scan w c 0 0).2.1 = 0 then
        (false, I32.zeroVars (allD.map lvar) w, np, allD)
      else ODPLL.walk_bucket rest
        (w.set (lvar (ODPLL.clause_scan w c 0 0).2.2)
          (lsign (ODPLL.clause_scan w c 0 0).2.2))
        (np ++ [(ODPLL.clause_scan w c 0 0).2.2])
        (allD ++ [(ODPLL.clause_scan w c 0 0).2.2]) := rfl

theorem odpll_walk_ext {w0 : I32} :
    ∀ (bucket : List (List Int)) (w : I32) (np allD : List Int),
    (∀ c ∈ bucket, ∀ l ∈ c, l ≠ 0) →
    LExt w0 allD w →
    ((ODPLL.walk_bucket bucket w np allD).1 = false →
      (ODPLL.walk_bucket bucket w np allD).2.1 = w0) ∧
    ((ODPLL.walk_bucket bucket w np allD).1 = true →
      LExt w0 (ODPLL.walk_bucket bucket w np allD).2.2.2
        (ODPLL.walk_bucket bucket w np allD).2.1) := by
  intro bucket
  induction bucket with
  | nil =>
    intro w np allD _ hext
    rw [odpll_walk_nil]
    exact ⟨fun h => Bool.noConfusion h, fun _ => hext⟩
  | cons c rest ih =>
    intro w np allD hnz hext
    rw [odpll_walk_cons]
    by_cases h1 : (ODPLL.clause_scan w c 0 0).1 = false
    · rw [if_pos h1]
      exact ih w np allD (fun c' hc' => hnz c' (List.mem_cons_of_mem c hc'))
        hext
    · rw [if_neg h1]
      by_cases h2 : (ODPLL.clause_scan w c 0 0).2.1 = 0
      · rw [if_pos h2]
        exact ⟨fun _ => VExt_zeroVars hext.2, fun ht => Bool.noConfusion ht⟩
      · rw [if_neg h2]
        have hu : (ODPLL.clause_scan w c 0 0).2.2 ∈ c ∧
            w.get? (lvar (ODPLL.clause_scan w c 0 0).2.2) = some 0 := by
          rcases odpll_scan_ulit w c 0 0 with h | h
          · have : (ODPLL.clause_scan w c 0 0).2.1 = 0 := by rw [h]
            exact absurd this h2
          · exact h
        have hlz : (ODPLL.clause_scan w c 0 0).2.2 ≠ 0 :=
          hnz c (List.mem_cons_self c rest) _ hu.1
        have hext2 := LExt_extend hext (ODPLL.clause_scan w c 0 0).2.2
          (lsign (ODPLL.clause_scan w c 0 0).2.2) hlz (Or.inr hu.2)
        exact ih _ _ _ (fun c' hc' => hnz c' (List.mem_cons_of_mem c hc'))
          hext2

theorem odpll_up_go_zero (posb negb : ODPLL.Buckets) (pending allD : List Int)
    (w : I32) : ODPLL.up_go posb negb 0 pending allD w = none := rfl

theorem odpll_up_go_succ (posb negb : ODPLL.Buckets) (fuel : Nat)
    (pending allD : List Int) (w : I32) :
    ODPLL.up_go posb negb (fuel + 1) pending allD w =
      match pending with
      | [] =>
        match allD with
        | [l] => some (.one l, w)
        | ls => some (.many ls, w)
      | dlit :: restPending =>
        if (ODPLL.walk_bucket
            (if dlit < 0 then (posb.get? (lvar dlit)).getD []
             else (negb.get? (lvar dlit)).getD []) w restPending allD).1 then
          ODPLL.up_go posb negb fuel
            (ODPLL.walk_bucket
              (if dlit < 0 then (posb.get? (lvar dlit)).getD []
               else (negb.get? (lvar dlit)).getD []) w restPending allD).2.2.1
            (ODPLL.walk_bucket
              (if dlit < 0 then (posb.get? (lvar dlit)).getD []
               else (negb.get? (lvar dlit)).getD []) w restPending allD).2.2.2
            (ODPLL.walk_bucket
              (if dlit < 0 then (posb.get? (lvar dlit)).getD []
               else (negb.get? (lvar dlit)).getD []) w restPending allD).2.1
        else some (.conflict,
          (ODPLL.walk_bucket
            (if dlit < 0 then (posb.get? (lvar dlit)).getD []
             else (negb.get? (lvar dlit)).getD []) w restPending allD).2.1) := rfl

theorem bucket_nz_of_get {bs : ODPLL.Buckets}
    (hb : ∀ b ∈ bs, ∀ c ∈ b, ∀ l ∈ c, l ≠ 0) (k : Nat) :
    ∀ c ∈ (bs.get? k).getD [], ∀ l ∈ c, l ≠ 0 := by
  cases hk : bs.get? k with
  | none => intro c hc; exact absurd hc (List.not_mem_nil c)
  | some b =>
    intro c hc
    exact hb b (List.get?_mem hk) c hc

theorem odpll_up_go_ext (posb negb : ODPLL.Buckets)
    (hpb : ∀ b ∈ posb, ∀ c ∈ b, ∀ l ∈ c, l ≠ 0)
    (hnb : ∀ b ∈ negb, ∀ c ∈ b, ∀ l ∈ c, l ≠ 0) {w0 : I32} :
    ∀ (fuel : Nat) (pending allD : List Int) (w : I32)
      (r : ODPLL.OPropRes) (w2 : I32),
    LExt w0 allD w →
    ODPLL.up_go posb negb fuel pending allD w = some (r, w2) →
    (r = .conflict → w2 = w0) ∧
    (∀ l, r = .one l → LExt w0 [l] w2) ∧
    (∀ ls, r = .many ls → LExt w0 ls w2) := by
  intro fuel
  induction fuel with
  | zero =>
    intro pending allD w r w2 _ h
    rw [odpll_up_go_zero] at h
    exact Option.noConfusion h
  | succ fuel ih =>
    intro pending allD w r w2 hext h
    rw [odpll_up_go_succ] at h
    cases pending with
    | nil =>
      cases allD with
      | nil =>
        replace h : some (ODPLL.OPropRes.many [], w) = some (r, w2) := h
        have hp := Option.some.inj h
        have hr : ODPLL.OPropRes.many [] = r := congrArg Prod.fst hp
        have hw : w = w2 := congrArg Prod.snd hp
        subst hr
        refine ⟨fun hc => ODPLL.OPropRes.noConfusion hc,
          fun l h1 => ODPLL.OPropRes.noConfusion h1, fun ls hm => ?_⟩
        have : ([] : List Int) = ls := by injection hm
        subst this
        rw [← hw]
        exact hext
      | cons a tl =>
        cases tl with
        | nil =>
          replace h : some (ODPLL.OPropRes.one a, w) = some (r, w2) := h
          have hp := Option.some.inj h
          have hr : ODPLL.OPropRes.one a = r := congrArg Prod.fst hp
          have hw : w = w2 := congrArg Prod.snd hp
          subst hr
          refine ⟨fun hc => ODPLL.OPropRes.noConfusion hc, fun l h1 => ?_,
            fun ls hm => ODPLL.OPropRes.noConfusion hm⟩
          have : a = l := by injection h1
          subst this
          rw [← hw]
          exact hext
        | cons b tl2 =>
          replace h : some (ODPLL.OPropRes.many (a :: b :: tl2), w)
              = some (r, w2) := h
          have hp := Option.some.inj h
          have hr : ODPLL.OPropRes.many (a :: b :: tl2) = r :=
            congrArg Prod.fst hp
          have hw : w = w2 := congrArg Prod.snd hp
          subst hr
          refine ⟨fun hc => ODPLL.OPropRes.noConfusion hc,
            fun l h1 => ODPLL.OPropRes.noConfusion h1, fun ls hm => ?_⟩
          have : a :: b :: tl2 = ls := by injection hm
          subst this
          rw [← hw]
          exact hext
    | cons dlit restPending =>
      replace h : (if (ODPLL.walk_bucket
            (if dlit < 0 then (posb.get? (lvar dlit)).getD []
             else (negb.get? (lvar dlit)).getD []) w restPending allD).1 then
          ODPLL.up_go posb negb fuel
            (ODPLL.walk_bucket
              (if dlit < 0 then (posb.get? (lvar dlit)).getD []
               else (negb.get? (lvar dlit)).getD []) w restPending allD).2.2.1
            (ODPLL.walk_bucket
              (if dlit < 0 then (posb.get? (lvar dlit)).getD []
               else (negb.get? (lvar dlit)).getD []) w restPending allD).2.2.2
            (ODPLL.walk_bucket
              (if dlit < 0 then (posb.get? (lvar dlit)).getD []
               else (negb.get? (lvar dlit)).getD []) w restPending allD).2.1
        else some (.conflict,
          (ODPLL.walk_bucket
            (if dlit < 0 then (posb.get? (lvar dlit)).getD []
             else (negb.get? (lvar dlit)).getD []) w restPending allD).2.1))
          = some (r, w2) := h
      have hbnz : ∀ c ∈ (if dlit < 0 then (posb.get? (lvar dlit)).getD []
          else (negb.get? (lvar dlit)).getD []), ∀ l ∈ c, l ≠ 0 := by
        by_cases hd : dlit < 0
        · rw [if_pos hd]; exact bucket_nz_of_get hpb (lvar dlit)
        · rw [if_neg hd]; exact bucket_nz_of_get hnb (lvar dlit)
      have hwk := odpll_walk_ext
        ((if dlit < 0 then (posb.get? (lvar dlit)).getD []
          else (negb.get? (lvar dlit)).getD [])) w restPending allD hbnz hext
      by_cases hr1 : (ODPLL.walk_bucket
          (if dlit < 0 then (posb.get? (lvar dlit)).getD []
           else (negb.get? (lvar dlit)).getD []) w restPending allD).1 = true
      · rw [if_pos hr1] at h
        exact ih _ _ _ r w2 (hwk.2 hr1) h
      · rw [if_neg hr1] at h
        replace h : some (ODPLL.OPropRes.conflict,
            (ODPLL.walk_bucket
              (if dlit < 0 then (posb.get? (lvar dlit)).getD []
               else (negb.get? (lvar dlit)).getD []) w restPending allD).2.1)
            = some (r, w2) := h
        have hp := Option.some.inj h
        have hr : ODPLL.OPropRes.conflict = r := congrArg Prod.fst hp
        have hw : _ = w2 := congrArg Prod.snd hp
        subst hr
        refine ⟨fun _ => ?_, fun l h1 => ODPLL.OPropRes.noConfusion h1,
          fun ls hm => ODPLL.OPropRes.noConfusion hm⟩
        rw [← hw]
        exact hwk.1 (Bool.eq_false_iff.mpr hr1)

theorem odpll_up_ext (posb negb : ODPLL.Buckets)
    (hpb : ∀ b ∈ posb, ∀ c ∈ b, ∀ l ∈ c, l ≠ 0)
    (hnb : ∀ b ∈ negb, ∀ c ∈ b, ∀ l ∈ c, l ≠ 0)
    (ini : List Int) (fuel : Nat) (w : I32) (r : ODPLL.OPropRes) (w2 : I32)
    (hini : ∀ l ∈ ini, l ≠ 0 ∧ w.get? (lvar l) = some 0)
    (h : ODPLL.unit_propagate ini fuel w posb negb = some (r, w2)) :
    (r = .conflict → w2 = w) ∧
    (∀ l, r = .one l → LExt w [l] w2) ∧
    (∀ ls, r = .many ls → LExt w ls w2) := by
  have hext : LExt w ini
      (ini.foldl (fun w l => w.set (lvar l) (lsign l)) w) := by
    have := assign_fold_ext ini [] w (LExt_refl w)
      (fun l hl => ⟨(hini l hl).1, Or.inr (hini l hl).2⟩)
    simpa using this
  exact odpll_up_go_ext posb negb hpb hnb fuel ini ini _ r w2 hext h

theorem occGood_mk0 (n : Nat) : occGood (I32.mk0 n) := by
  intro j v h
  rw [mk0_get?] at h
  by_cases hj : j < n
  · rw [if_pos hj] at h
    have : (0 : Int) = v := Option.some.inj h
    omega
  · rw [if_neg hj] at h
    exact Option.noConfusion h

theorem occGood_set {occ : I32} (h : occGood occ) (i : Nat) (v : Int)
    (hv : -1 ≤ v) : occGood (occ.set i v) := by
  intro j u hu
  by_cases hij : i = j
  · subst hij
    by_cases hlen : i < occ.data.length
    · rw [I32.get?_set_self occ i v hlen] at hu
      have : v = u := Option.some.inj hu
      omega
    · have : (occ.set i v).get? i = none := by
        apply List.get?_eq_none.mpr
        rw [show (occ.set i v).data.length = occ.data.length
          from I32.length_set occ i v]
        omega
      rw [this] at hu
      exact Option.noConfusion hu
  · rw [I32.get?_set_other occ i j v hij] at hu
    exact h j u hu

theorem odpll_occ_upd_nil (varvals : I32) (blen : Int) (occ : I32) :
    ODPLL.occ_upd varvals blen occ [] = occ := rfl

theorem odpll_occ_upd_cons (varvals : I32) (blen : Int) (occ : I32)
    (l : Int) (rest : List Int) :
    ODPLL.occ_upd varvals blen occ (l :: rest) =
      ODPLL.occ_upd varvals blen
        (if varvals.get? (lvar l) = some 0 then
          match occ.get? (lvar l) with
          | some oval =>
            if oval = 0 then occ.set (lvar l) (lsign l)
            else if oval = -(lsign l) then occ.set (lvar l) 2
            else if oval ≥ 2 then
              occ.set (lvar l)
                (oval + (if blen < 3 then 20 else if blen < 4 then 15
                  else if 10 - blen < 0 then 1 else 10 - blen))
            else occ
          | none => occ
        else occ) rest := rfl

theorem odpll_occ_upd_cons_some (varvals : I32) (blen : Int) (occ : I32)
    (l : Int) (rest : List Int) (oval : Int)
    (h1 : varvals.get? (lvar l) = some 0)
    (ho : occ.get? (lvar l) = some oval) :
    ODPLL.occ_upd varvals blen occ (l :: rest) =
      ODPLL.occ_upd varvals blen
        (if oval = 0 then occ.set (lvar l) (lsign l)
         else if oval = -(lsign l) then occ.set (lvar l) 2
         else if oval ≥ 2 then
           occ.set (lvar l)
             (oval + (if blen < 3 then 20 else if blen < 4 then 15
               else if 10 - blen < 0 then 1 else 10 - blen))
         else occ) rest := by
  rw [odpll_occ_upd_cons, if_pos h1, ho]

theorem odpll_occ_upd_cons_other (varvals : I32) (blen : Int) (occ : I32)
    (l : Int) (rest : List Int)
    (h1 : ¬ (varvals.get? (lvar l) = some 0 ∧
      (occ.get? (lvar l)).isSome)) :
    ODPLL.occ_upd varvals blen occ (l :: rest) =
      ODPLL.occ_upd varvals blen occ rest := by
  rw [odpll_occ_upd_cons]
  by_cases h2 : varvals.get? (lvar l) = some 0
  · rw [if_pos h2]
    cases ho : occ.get? (lvar l) with
    | none => rfl
    | some oval => exact absurd ⟨h2, by rw [ho]; rfl⟩ h1
  · rw [if_neg h2]

theorem odpll_occ_upd_good (varvals : I32) (blen : Int) :
    ∀ (c : List Int) (occ : I32), occGood occ →
    occGood (ODPLL.occ_upd varvals blen occ c) := by
  intro c
  induction c with
  | nil => intro occ h; rw [odpll_occ_upd_nil]; exact h
  | cons l rest ih =>
    intro occ h
    by_cases h1 : varvals.get? (lvar l) = some 0
    swap
    · rw [odpll_occ_upd_cons_other varvals blen occ l rest
        (fun hx => h1 hx.1)]
      exact ih occ h
    cases ho : occ.get? (lvar l) with
    | none =>
      rw [odpll_occ_upd_cons_other varvals blen occ l rest
        (fun hx => by rw [ho] at hx; exact Bool.noConfusion hx.2)]
      exact ih occ h
    | some oval =>
      rw [odpll_occ_upd_cons_some varvals blen occ l rest oval h1 ho]
      apply ih
      by_cases h2 : oval = 0
      · rw [if_pos h2]
        refine occGood_set h _ _ ?_
        rcases lsign_cases l with hs | hs <;> rw [hs] <;> omega
      · rw [if_neg h2]
        by_cases h3 : oval = -(lsign l)
        · rw [if_pos h3]
          exact occGood_set h _ _ (by omega)
        · rw [if_neg h3]
          by_cases h4 : oval ≥ 2
          · rw [if_pos h4]
            refine occGood_set h _ _ ?_
            have hb : (0:Int) ≤ (if blen < 3 then 20
                else if blen < 4 then 15
                else if 10 - blen < 0 then 1 else 10 - blen) := by
              by_cases hb1 : blen < 3
              · rw [if_pos hb1]; omega
              · rw [if_neg hb1]
                by_cases hb2 : blen < 4
                · rw [if_pos hb2]; omega
                · rw [if_neg hb2]
                  by_cases hb3 : 10 - blen < 0
                  · rw [if_pos hb3]; omega
                  · rw [if_neg hb3]; omega
            omega
          · rw [if_neg h4]; exact h

theorem odpll_occ_fold_good (varvals : I32) (clauses : List (List Int))
    (occ0 : I32) (h : occGood occ0) :
    occGood (clauses.foldl (fun occ c =>
      let cb := ODPLL.cv_blen varvals c (c.length : Int)
      if cb.1 = false ∧ cb.2 > 0 then ODPLL.occ_upd varvals cb.2 occ c
      else occ) occ0) := by
  induction clauses generalizing occ0 with
  | nil => exact h
  | cons c rest ih =>
    rw [List.foldl_cons]
    apply ih
    by_cases hc : (ODPLL.cv_blen varvals c (c.length : Int)).1 = false ∧
        (ODPLL.cv_blen varvals c (c.length : Int)).2 > 0
    · show occGood (if _ then _ else _)
      rw [if_pos hc]
      exact odpll_occ_upd_good varvals _ c occ0 h
    · show occGood (if _ then _ else _)
      rw [if_neg hc]
      exact h

theorem odpll_sel_nil (varvals occ : I32) (q : List Int) (bonus nr : Int) :
    ODPLL.sel_fold varvals occ [] q bonus nr = (q, bonus, nr) := rfl

theorem odpll_sel_cons (varvals occ : I32) (i : Nat) (rest : List Nat)
    (q : List Int) (bonus nr : Int) :
    ODPLL.sel_fold varvals occ (i :: rest) q bonus nr =
      match occ.get? i with
      | none => ODPLL.sel_fold varvals occ rest q bonus nr
      | some oval =>
        if oval = 0 then ODPLL.sel_fold varvals occ rest q bonus nr
        else
          if oval > bonus ∧ varvals.get? i = some 0 then
            ODPLL.sel_fold varvals occ rest
              (if oval < 2 ∧ varvals.get? i = some 0
                then q ++ [oval * (i : Int)] else q) oval (i : Int)
          else ODPLL.sel_fold varvals occ rest
            (if oval < 2 ∧ varvals.get? i = some 0
              then q ++ [oval * (i : Int)] else q) bonus nr := rfl

theorem odpll_sel_cons_none (varvals occ : I32) (i : Nat) (rest : List Nat)
    (q : List Int) (bonus nr : Int) (h : occ.get? i = none) :
    ODPLL.sel_fold varvals occ (i :: rest) q bonus nr =
      ODPLL.sel_fold varvals occ rest q bonus nr := by
  rw [odpll_sel_cons, h]

theorem odpll_sel_cons_some (varvals occ : I32) (i : Nat) (rest : List Nat)
    (q : List Int) (bonus nr oval : Int) (h : occ.get? i = some oval) :
    ODPLL.sel_fold varvals occ (i :: rest) q bonus nr =
      (if oval = 0 then ODPLL.sel_fold varvals occ rest q bonus nr
       else
         if oval > bonus ∧ varvals.get? i = some 0 then
           ODPLL.sel_fold varvals occ rest
             (if oval < 2 ∧ varvals.get? i = some 0
               then q ++ [oval * (i : Int)] else q) oval (i : Int)
         else ODPLL.sel_fold varvals occ rest
           (if oval < 2 ∧ varvals.get? i = some 0
             then q ++ [oval * (i : Int)] else q) bonus nr) := by
  rw [odpll_sel_cons, h]

theorem odpll_sel_queue (varvals occ : I32) (hg : occGood occ) :
    ∀ (idxs : List Nat) (q : List Int) (bonus nr : Int),
    (∀ i ∈ idxs, 1 ≤ i) →
    (∀ x ∈ q, 1 ≤ lvar x ∧ varvals.get? (lvar x) = some 0) →
    ∀ x ∈ (ODPLL.sel_fold varvals occ idxs q bonus nr).1,
      1 ≤ lvar x ∧ varvals.get? (lvar x) = some 0 := by
  intro idxs
  induction idxs with
  | nil =>
    intro q bonus nr _ hq
    rw [odpll_sel_nil]
    exact hq
  | cons i rest ih =>
    intro q bonus nr hidx hq
    have hrest : ∀ j ∈ rest, 1 ≤ j :=
      fun j hj => hidx j (List.mem_cons_of_mem i hj)
    cases ho : occ.get? i with
    | none =>
      rw [odpll_sel_cons_none varvals occ i rest q bonus nr ho]
      exact ih q bonus nr hrest hq
    | some oval =>
      rw [odpll_sel_cons_some varvals occ i rest q bonus nr oval ho]
      by_cases h0 : oval = 0
      · rw [if_pos h0]
        exact ih q bonus nr hrest hq
      · rw [if_neg h0]
        have hq2 : ∀ x ∈ (if oval < 2 ∧ varvals.get? i = some 0
            then q ++ [oval * (i : Int)] else q),
            1 ≤ lvar x ∧ varvals.get? (lvar x) = some 0 := by
          by_cases hcond : oval < 2 ∧ varvals.get? i = some 0
          · rw [if_pos hcond]
            intro x hx
            rcases List.mem_append.mp hx with hx1 | hx2
            · exact hq x hx1
            · have hxe : x = oval * (i : Int) := List.mem_singleton.mp hx2
              subst hxe
              have hge := hg i oval ho
              have hlt := hcond.1
              have hov : oval = -1 ∨ oval = 1 := by omega
              have hlv : lvar (oval * (i : Int)) = i := by
                show (oval * (i : Int)).natAbs = i
                rw [Int.natAbs_mul]
                rcases hov with hv | hv <;> subst hv <;>
                  simp [Int.natAbs_ofNat]
              rw [hlv]
              exact ⟨hidx i (List.mem_cons_self i rest), hcond.2⟩
          · rw [if_neg hcond]
            exact hq
        by_cases hsel : oval > bonus ∧ varvals.get? i = some 0
        · rw [if_pos hsel]
          exact ih _ oval (i : Int) hrest hq2
        · rw [if_neg hsel]
          exact ih _ bonus nr hrest hq2

theorem odpll_sel_nr (varvals occ : I32) :
    ∀ (idxs : List Nat) (q : List Int) (bonus nr : Int),
    (∀ i ∈ idxs, 1 ≤ i) → selInv varvals nr →
    selInv varvals (ODPLL.sel_fold varvals occ idxs q bonus nr).2.2 := by
  intro idxs
  induction idxs with
  | nil =>
    intro q bonus nr _ hnr
    rw [odpll_sel_nil]
    exact hnr
  | cons i rest ih =>
    intro q bonus nr hidx hnr
    have hrest : ∀ j ∈ rest, 1 ≤ j :=
      fun j hj => hidx j (List.mem_cons_of_mem i hj)
    cases ho : occ.get? i with
    | none =>
      rw [odpll_sel_cons_none varvals occ i rest q bonus nr ho]
      exact ih q bonus nr hrest hnr
    | some oval =>
      rw [odpll_sel_cons_some varvals occ i rest q bonus nr oval ho]
      by_cases h0 : oval = 0
      · rw [if_pos h0]
        exact ih q bonus nr hrest hnr
      · rw [if_neg h0]
        by_cases hsel : oval > bonus ∧ varvals.get? i = some 0
        · rw [if_pos hsel]
          exact ih _ oval (i : Int) hrest
            (Or.inr ⟨i, hidx i (List.mem_cons_self i rest), rfl, hsel.2⟩)
        · rw [if_neg hsel]
          exact ih _ bonus nr hrest hnr

theorem odpll_nv_core (w occ : I32) (hg : occGood occ) :
    (∃ q, ODPLL.nv_choice w (ODPLL.sel_fold w occ
        ((List.range occ.data.length).drop 1) [] 0 0) = .pure q ∧
      q ≠ [] ∧ ∀ x ∈ q, 1 ≤ lvar x ∧ w.get? (lvar x) = some 0) ∨
    (∃ v, ODPLL.nv_choice w (ODPLL.sel_fold w occ
        ((List.range occ.data.length).drop 1) [] 0 0) = .var v ∧
      (v = 0 ∨ w.get? v = some 0)) := by
  have hidx : ∀ i ∈ (List.range occ.data.length).drop 1, 1 ≤ i :=
    fun i hi => (mem_range_drop.mp hi).1
  have hq := odpll_sel_queue w occ hg ((List.range occ.data.length).drop 1)
    [] 0 0 hidx (fun x hx => absurd hx (List.not_mem_nil x))
  have hnr := odpll_sel_nr w occ ((List.range occ.data.length).drop 1)
    [] 0 0 hidx (Or.inl rfl)
  generalize hS : ODPLL.sel_fold w occ
    ((List.range occ.data.length).drop 1) [] 0 0 = S at hq hnr ⊢
  obtain ⟨q, bonus, nr⟩ := S
  unfold ODPLL.nv_choice
  by_cases hqe : q.isEmpty = true
  · right
    have hne : ¬ ¬ ((q, bonus, nr).1.isEmpty = true) := fun hx => hx hqe
    rw [if_neg hne]
    by_cases hlt : (q, bonus, nr).2.2 < 0
    · rw [if_pos hlt]
      exfalso
      have hlt' : nr < 0 := hlt
      rcases hnr with h0 | ⟨i, _, hni, _⟩
      · have h0' : nr = 0 := h0
        omega
      · have hni' : nr = (i : Int) := hni
        have := Int.natCast_nonneg i
        omega
    · rw [if_neg hlt]
      by_cases hgt : (q, bonus, nr).2.2 > 0
      · rw [if_pos hgt]
        have hgt' : nr > 0 := hgt
        rcases hnr with h0 | ⟨i, h1i, hni, hui⟩
        · exfalso
          have h0' : nr = 0 := h0
          omega
        · refine ⟨(q, bonus, nr).2.2.toNat, rfl, Or.inr ?_⟩
          have hni' : nr = (i : Int) := hni
          show w.get? nr.toNat = some 0
          rw [hni']
          simpa using hui
      · rw [if_neg hgt]
        cases hf : ((List.range w.data.length).drop 1).find?
            (fun i => w.get? i = some 0) with
        | none => exact ⟨0, rfl, Or.inl rfl⟩
        | some i =>
          refine ⟨i, rfl, Or.inr ?_⟩
          have := List.find?_some hf
          simpa using this
  · left
    rw [if_pos (fun hx => hqe hx)]
    refine ⟨q, rfl, ?_, hq⟩
    intro he
    subst he
    exact hqe rfl

theorem odpll_next_vars_spec (clauses : List (List Int)) (w : I32)
    (len : Nat) :
    (∃ q, ODPLL.next_vars clauses w len = .pure q ∧
      q ≠ [] ∧ ∀ x ∈ q, 1 ≤ lvar x ∧ w.get? (lvar x) = some 0) ∨
    (∃ v, ODPLL.next_vars clauses w len = .var v ∧
      (v = 0 ∨ w.get? v = some 0)) := by
  unfold ODPLL.next_vars
  exact odpll_nv_core w _
    (odpll_occ_fold_good w clauses (I32.mk0 len) (occGood_mk0 len))

theorem odpll_sat_zero (clauses : List (List Int))
    (posb negb : ODPLL.Buckets) (w : I32) (varnr : Nat) (val : Int) :
    ODPLL.satisfiable_at clauses posb negb 0 w varnr val = none := rfl

theorem odpll_sat_succ (clauses : List (List Int))
    (posb negb : ODPLL.Buckets) (fuel : Nat) (w : I32) (varnr : Nat)
    (val : Int) :
    ODPLL.satisfiable_at clauses posb negb (fuel + 1) w varnr val =
      match (if varnr ≠ 0 then
          ODPLL.unit_propagate [(varnr : Int) * val] (fuel + 1) w posb negb
        else some (.one 0, w)) with
      | none => none
      | some (.conflict, w2) => some (false, none, w2)
      | some (pr, w2) =>
        match ODPLL.next_vars clauses w2 w2.data.length with
        | .pure q =>
          (match ODPLL.satisfiable_at clauses posb negb fuel w2
              (lvar q.headI) (if q.headI < 0 then (-1 : Int) else 1) with
           | none => none
           | some (true, m, w3) => some (true, m, w3)
           | some (false, _, w3) =>
             some (false, none, ODPLL.old_restore pr w3))
        | .var 0 => some (true, some (ST.store_model w2), w2)
        | .var (n + 1) =>
          (match ODPLL.satisfiable_at clauses posb negb fuel w2 (n + 1) 1
              with
           | none => none
           | some (true, m, w3) => some (true, m, w3)
           | some (false, _, w3) =>
             match ODPLL.satisfiable_at clauses posb negb fuel w3 (n + 1)
                 (-1) with
             | none => none
             | some (true, m, w4) => some (true, m, w4)
             | some (false, _, w4) =>
               some (false, none, ODPLL.old_restore pr w4)) := rfl

theorem odpll_sat_cont (clauses : List (List Int))
    (posb negb : ODPLL.Buckets) (fuel : Nat)
    (ih : ∀ (w : I32) (varnr : Nat) (val : Int) (m : Option (List Int))
      (w2 : I32), varnr ≠ 0 → (val = 1 ∨ val = -1) →
      w.get? varnr = some 0 →
      ODPLL.satisfiable_at clauses posb negb fuel w varnr val
        = some (false, m, w2) → w2 = w)
    (pr : ODPLL.OPropRes) (w0 w2' : I32) (m : Option (List Int)) (w2 : I32)
    (hres : ODPLL.old_restore pr w2' = w0)
    (h : (match ODPLL.next_vars clauses w2' w2'.data.length with
      | .pure q =>
        (match ODPLL.satisfiable_at clauses posb negb fuel w2'
            (lvar q.headI) (if q.headI < 0 then (-1 : Int) else 1) with
         | none => none
         | some (true, m, w3) => some (true, m, w3)
         | some (false, _, w3) =>
           some (false, none, ODPLL.old_restore pr w3))
      | .var 0 => some (true, some (ST.store_model w2'), w2')
      | .var (n + 1) =>
        (match ODPLL.satisfiable_at clauses posb negb fuel w2' (n + 1) 1
            with
         | none => none
         | some (true, m, w3) => some (true, m, w3)
         | some (false, _, w3) =>
           match ODPLL.satisfiable_at clauses posb negb fuel w3 (n + 1)
               (-1) with
           | none => none
           | some (true, m, w4) => some (true, m, w4)
           | some (false, _, w4) =>
             some (false, none, ODPLL.old_restore pr w4)))
      = some (false, m, w2)) :
    w2 = w0 := by
  rcases odpll_next_vars_spec clauses w2' w2'.data.length with
    ⟨q, hnv, hqne, hqp⟩ | ⟨v, hnv, hv⟩
  · rw [hnv] at h
    replace h : (match ODPLL.satisfiable_at clauses posb negb fuel w2'
        (lvar q.headI) (if q.headI < 0 then (-1 : Int) else 1) with
      | none => none
      | some (true, m, w3) => some (true, m, w3)
      | some (false, _, w3) =>
        some (false, none, ODPLL.old_restore pr w3)) = some (false, m, w2)
      := h
    have hhead := hqp q.headI (by
      cases q with
      | nil => exact absurd rfl hqne
      | cons a t => exact List.mem_cons_self a t)
    cases hc1 : ODPLL.satisfiable_at clauses posb negb fuel w2'
        (lvar q.headI) (if q.headI < 0 then (-1 : Int) else 1) with
    | none => rw [hc1] at h; exact Option.noConfusion h
    | some t1 =>
      obtain ⟨b1, m1, w3⟩ := t1
      rw [hc1] at h
      cases b1 with
      | true =>
        replace h : some (true, m1, w3) = some (false, m, w2) := h
        exact Bool.noConfusion (congrArg Prod.fst (Option.some.inj h))
      | false =>
        replace h : some (false, (none : Option (List Int)),
            ODPLL.old_restore pr w3) = some (false, m, w2) := h
        have hw : ODPLL.old_restore pr w3 = w2 :=
          congrArg (fun p => p.2.2) (Option.some.inj h)
        have hvz : (if q.headI < 0 then (-1 : Int) else 1) = 1 ∨
            (if q.headI < 0 then (-1 : Int) else 1) = -1 := by
          by_cases hx : q.headI < 0 <;> simp [hx]
        have hvarne : lvar q.headI ≠ 0 := by
          have := hhead.1
          omega
        have hw3 : w3 = w2' := ih w2' (lvar q.headI) _ m1 w3 hvarne hvz
          hhead.2 hc1
        rw [← hw, hw3, hres]
  · rw [hnv] at h
    cases v with
    | zero =>
      replace h : some (true, some (ST.store_model w2'), w2')
          = some (false, m, w2) := h
      exact Bool.noConfusion (congrArg Prod.fst (Option.some.inj h))
    | succ n =>
      replace h : (match ODPLL.satisfiable_at clauses posb negb fuel w2'
          (n + 1) 1 with
        | none => none
        | some (true, m, w3) => some (true, m, w3)
        | some (false, _, w3) =>
          match ODPLL.satisfiable_at clauses posb negb fuel w3 (n + 1)
              (-1) with
          | none => none
          | some (true, m, w4) => some (true, m, w4)
          | some (false, _, w4) =>
            some (false, none, ODPLL.old_restore pr w4))
          = some (false, m, w2) := h
      have hget : w2'.get? (n + 1) = some 0 := by
        rcases hv with h0 | hu
        · exact absurd h0 (Nat.succ_ne_zero n)
        · exact hu
      cases hc1 : ODPLL.satisfiable_at clauses posb negb fuel w2'
          (n + 1) 1 with
      | none => rw [hc1] at h; exact Option.noConfusion h
      | some t1 =>
        obtain ⟨b1, m1, w3⟩ := t1
        rw [hc1] at h
        cases b1 with
        | true =>
          replace h : some (true, m1, w3) = some (false, m, w2) := h
          exact Bool.noConfusion (congrArg Prod.fst (Option.some.inj h))
        | false =>
          replace h : (match ODPLL.satisfiable_at clauses posb negb fuel w3
              (n + 1) (-1) with
            | none => none
            | some (true, m, w4) => some (true, m, w4)
            | some (false, _, w4) =>
              some (false, none, ODPLL.old_restore pr w4))
              = some (false, m, w2) := h
          have hw3 : w3 = w2' := ih w2' (n + 1) 1 m1 w3
            (Nat.succ_ne_zero n) (Or.inl rfl) hget hc1
          cases hc2 : ODPLL.satisfiable_at clauses posb negb fuel w3
              (n + 1) (-1) with
          | none => rw [hc2] at h; exact Option.noConfusion h
          | some t2 =>
            obtain ⟨b2, m2, w4⟩ := t2
            rw [hc2] at h
            cases b2 with
            | true =>
              replace h : some (true, m2, w4) = some (false, m, w2) := h
              exact Bool.noConfusion (congrArg Prod.fst (Option.some.inj h))
            | false =>
              replace h : some (false, (none : Option (List Int)),
                  ODPLL.old_restore pr w4) = some (false, m, w2) := h
              have hw : ODPLL.old_restore pr w4 = w2 :=
                congrArg (fun p => p.2.2) (Option.some.inj h)
              have hw4 : w4 = w3 := ih w3 (n + 1) (-1) m2 w4
                (Nat.succ_ne_zero n) (Or.inr rfl) (by rw [hw3]; exact hget)
                hc2
              rw [← hw, hw4, hw3, hres]

theorem odpll_restore_frame (clauses : List (List Int))
    (posb negb : ODPLL.Buckets)
    (hpb : ∀ b ∈ posb, ∀ c ∈ b, ∀ l ∈ c, l ≠ 0)
    (hnb : ∀ b ∈ negb, ∀ c ∈ b, ∀ l ∈ c, l ≠ 0) :
    ∀ (fuel : Nat) (w : I32) (varnr : Nat) (val : Int)
      (m : Option (List Int)) (w2 : I32),
    varnr ≠ 0 → (val = 1 ∨ val = -1) → w.get? varnr = some 0 →
    ODPLL.satisfiable_at clauses posb negb fuel w varnr val
      = some (false, m, w2) →
    w2 = w := by
  intro fuel
  induction fuel with
  | zero =>
    intro w varnr val m w2 _ _ _ h
    rw [odpll_sat_zero] at h
    exact Option.noConfusion h
  | succ fuel ih =>
    intro w varnr val m w2 hvn hval hget h
    rw [odpll_sat_succ, if_pos hvn] at h
    cases hup : ODPLL.unit_propagate [(varnr : Int) * val] (fuel + 1) w
        posb negb with
    | none => rw [hup] at h; exact Option.noConfusion h
    | some prw =>
      obtain ⟨pr, w2'⟩ := prw
      rw [hup] at h
      have hini : ∀ l ∈ [(varnr : Int) * val], l ≠ 0 ∧
          w.get? (lvar l) = some 0 := by
        intro l hl
        have hle : l = (varnr : Int) * val := List.mem_singleton.mp hl
        subst hle
        have hv0 : (varnr : Int) ≠ 0 := Int.natCast_ne_zero.mpr hvn
        have hvz : val ≠ 0 := by rcases hval with hx | hx <;> simp [hx]
        refine ⟨mul_ne_zero hv0 hvz, ?_⟩
        have hlv : lvar ((varnr : Int) * val) = varnr := by
          show ((varnr : Int) * val).natAbs = varnr
          rw [Int.natAbs_mul, Int.natAbs_ofNat]
          rcases hval with hx | hx <;> subst hx <;> simp
        rw [hlv]
        exact hget
      have hext := odpll_up_ext posb negb hpb hnb [(varnr : Int) * val]
        (fuel + 1) w pr w2' hini hup
      cases pr with
      | conflict =>
        replace h : some (false, (none : Option (List Int)), w2')
            = some (false, m, w2) := h
        have hw : w2' = w2 := congrArg (fun p => p.2.2) (Option.some.inj h)
        rw [← hw]
        exact hext.1 rfl
      | one l =>
        exact odpll_sat_cont clauses posb negb fuel ih (.one l) w w2' m w2
          (odpll_restore_one (hext.2.1 l rfl)) h
      | many ls =>
        exact odpll_sat_cont clauses posb negb fuel ih (.many ls) w w2' m w2
          (odpll_restore_many (hext.2.2 ls rfl)) h

/-! ### Watched-literal DPLL: restoration of the assignment on a False
    return -/

theorem dpll_setB_varvals (st : DPLL.DState) (isPos : Bool) (v : Nat)
    (b : DPLL.Bucket) : (DPLL.setB st isPos v b).varvals = st.varvals := by
  unfold DPLL.setB
  by_cases h : isPos = true
  · rw [if_pos h]
  · rw [if_neg h]

theorem dpll_setB_store (st : DPLL.DState) (isPos : Bool) (v : Nat)
    (b : DPLL.Bucket) : (DPLL.setB st isPos v b).store = st.store := by
  unfold DPLL.setB
  by_cases h : isPos = true
  · rw [if_pos h]
  · rw [if_neg h]

theorem dpll_move_watch_varvals (st : DPLL.DState) (negdlit : Int)
    (isPos : Bool) (bvar i cid : Nat) (first second : Int) :
    (DPLL.move_watch st negdlit isPos bvar i cid first second).varvals
      = st.varvals := by
  unfold DPLL.move_watch
  rw [dpll_setB_varvals, dpll_setB_varvals]

theorem drop2_set (c : List Int) (slot : Nat) (x : Int) (h : slot < 2) :
    (c.set slot x).drop 2 = c.drop 2 := by
  rcases slot with _ | _ | n
  · cases c with
    | nil => rfl
    | cons a t => rfl
  · cases c with
    | nil => rfl
    | cons a t =>
      cases t with
      | nil => rfl
      | cons b t2 => rfl
  · omega

theorem if_prop_lt_two (P : Prop) [Decidable P] :
    (if P then 0 else 1) < 2 := by
  by_cases h : P
  · rw [if_pos h]; omega
  · rw [if_neg h]; omega

theorem dpll_move_watch_nz {st : DPLL.DState} (negdlit : Int)
    (isPos : Bool) (bvar i cid : Nat) (first second : Int)
    (h : storeNZ st.store) :
    storeNZ (DPLL.move_watch st negdlit isPos bvar i cid first second).store
    := by
  unfold DPLL.move_watch
  rw [dpll_setB_store, dpll_setB_store]
  intro c' hc' l hl
  rcases List.mem_or_eq_of_mem_set hc' with h1 | h2
  · exact h c' h1 l hl
  · subst h2
    rw [drop2_set _ _ _ (if_prop_lt_two _)] at hl
    cases hg : st.store.get? cid with
    | none =>
      rw [hg] at hl
      exact absurd hl (List.not_mem_nil l)
    | some cc =>
      rw [hg] at hl
      exact h cc (List.get?_mem hg) l hl

theorem dpll_entry_nz (st : DPLL.DState) (e : Option (Option Nat))
    (h : storeNZ st.store) :
    ∀ l ∈ (DPLL.entry_clause st e).drop 2, l ≠ 0 := by
  intro l hl
  match e with
  | some (some cid) =>
    show l ≠ 0
    have hl' : l ∈ ((st.store.get? cid).getD []).drop 2 := hl
    cases hg : st.store.get? cid with
    | none =>
      rw [hg] at hl'
      exact absurd hl' (List.not_mem_nil l)
    | some cc =>
      rw [hg] at hl'
      exact h cc (List.get?_mem hg) l hl'
  | some none => exact absurd hl (List.not_mem_nil l)
  | none => exact absurd hl (List.not_mem_nil l)

theorem dpll_wscan_nil (w : I32) (cnt : Nat) (ulit : Int) :
    DPLL.wscan w [] cnt ulit =
      if cnt = 0 then .conflictc else .unitc ulit := rfl

theorem dpll_wscan_cons (w : I32) (x : Int) (rest : List Int) (cnt : Nat)
    (ulit : Int) :
    DPLL.wscan w (x :: rest) cnt ulit =
      if w.get? (lvar x) = some 0 then
        (if cnt > 0 then .move2 ulit x else DPLL.wscan w rest 1 x)
      else if w.get? (lvar x) = some (lsign x) then .satisfied
      else DPLL.wscan w rest cnt ulit := rfl

theorem dpll_wscan_unit (w : I32) :
    ∀ (body : List Int) (cnt : Nat) (ulit l : Int),
    DPLL.wscan w body cnt ulit = .unitc l →
    (cnt ≠ 0 ∧ l = ulit) ∨ (l ∈ body ∧ w.get? (lvar l) = some 0) := by
  intro body
  induction body with
  | nil =>
    intro cnt ulit l h
    rw [dpll_wscan_nil] at h
    by_cases hc : cnt = 0
    · rw [if_pos hc] at h
      exact DPLL.ScanRes.noConfusion h
    · rw [if_neg hc] at h
      have : ulit = l := by injection h
      exact Or.inl ⟨hc, this.symm⟩
  | cons x rest ih =>
    intro cnt ulit l h
    rw [dpll_wscan_cons] at h
    by_cases h1 : w.get? (lvar x) = some 0
    · rw [if_pos h1] at h
      by_cases h2 : cnt > 0
      · rw [if_pos h2] at h
        exact DPLL.ScanRes.noConfusion h
      · rw [if_neg h2] at h
        rcases ih 1 x l h with ⟨_, hlx⟩ | ⟨hm, hu⟩
        · subst hlx
          exact Or.inr ⟨List.mem_cons_self l rest, h1⟩
        · exact Or.inr ⟨List.mem_cons_of_mem x hm, hu⟩
    · rw [if_neg h1] at h
      by_cases h2 : w.get? (lvar x) = some (lsign x)
      · rw [if_pos h2] at h
        exact DPLL.ScanRes.noConfusion h
      · rw [if_neg h2] at h
        rcases ih cnt ulit l h with hl | ⟨hm, hu⟩
        · exact Or.inl hl
        · exact Or.inr ⟨List.mem_cons_of_mem x hm, hu⟩

theorem dpll_ub_zero (bump : Nat → Int) (negdlit : Int) (isPos : Bool)
    (bvar i : Nat) (st : DPLL.DState) (pending allD : List Int) :
    DPLL.ub_iter bump negdlit isPos bvar 0 i st pending allD = none := rfl

theorem dpll_ub_succ (bump : Nat → Int) (negdlit : Int) (isPos : Bool)
    (bvar : Nat) (fuel i : Nat) (st : DPLL.DState)
    (pending allD : List Int) :
    DPLL.ub_iter bump negdlit isPos bvar (fuel + 1) i st pending allD =
      if i > (DPLL.getB st isPos bvar).used then some (true, st, pending, allD)
      else
        match DPLL.wscan st.varvals
            ((DPLL.entry_clause st
              ((DPLL.getB st isPos bvar).entries.get? (i - 1))).drop 2) 0 0
          with
        | .satisfied =>
          DPLL.ub_iter bump negdlit isPos bvar fuel (i + 1) st pending allD
        | .conflictc =>
          some (false,
            { st with
              varvals := I32.zeroVars (allD.map lvar) st.varvals,
              acts := DPLL.bump_acts st.acts
                ((DPLL.entry_clause st
                  ((DPLL.getB st isPos bvar).entries.get? (i - 1))).drop 2)
                (bump st.upcount) }, pending, allD)
        | .unitc l =>
          DPLL.ub_iter bump negdlit isPos bvar fuel (i + 1)
            { st with varvals := st.varvals.set (lvar l) (lsign l) }
            (pending ++ [l]) (allD ++ [l])
        | .move2 first second =>
          match (DPLL.getB st isPos bvar).entries.get? (i - 1) with
          | some (some cid) =>
            DPLL.ub_iter bump negdlit isPos bvar fuel i
              (DPLL.move_watch st negdlit isPos bvar i cid first second)
              pending allD
          | _ =>
            DPLL.ub_iter bump negdlit isPos bvar fuel (i + 1) st pending allD
      := rfl

theorem dpll_ub_ext (bump : Nat → Int) (negdlit : Int) (isPos : Bool)
    (bvar : Nat) {w0 : I32} :
    ∀ (fuel i : Nat) (st : DPLL.DState) (pending allD : List Int)
      (ok : Bool) (st' : DPLL.DState) (pending' allD' : List Int),
    storeNZ st.store → LExt w0 allD st.varvals →
    DPLL.ub_iter bump negdlit isPos bvar fuel i st pending allD
      = some (ok, st', pending', allD') →
    (ok = false → st'.varvals = w0 ∧ storeNZ st'.store) ∧
    (ok = true → storeNZ st'.store ∧ LExt w0 allD' st'.varvals) := by
  intro fuel
  induction fuel with
  | zero =>
    intro i st pending allD ok st' pending' allD' _ _ h
    rw [dpll_ub_zero] at h
    exact Option.noConfusion h
  | succ fuel ih =>
    intro i st pending allD ok st' pending' allD' hnz hext h
    rw [dpll_ub_succ] at h
    by_cases hi : i > (DPLL.getB st isPos bvar).used
    · rw [if_pos hi] at h
      replace h : some (true, st, pending, allD)
          = some (ok, st', pending', allD') := h
      have hp := Option.some.inj h
      have hok : true = ok := congrArg Prod.fst hp
      have hst : st = st' := congrArg (fun p => p.2.1) hp
      have hallD : allD = allD' := congrArg (fun p => p.2.2.2) hp
      subst hok
      subst hst
      subst hallD
      exact ⟨fun hf => Bool.noConfusion hf, fun _ => ⟨hnz, hext⟩⟩
    · rw [if_neg hi] at h
      cases hws : DPLL.wscan st.varvals
          ((DPLL.entry_clause st
            ((DPLL.getB st isPos bvar).entries.get? (i - 1))).drop 2) 0 0
        with
      | satisfied =>
        rw [hws] at h
        exact ih (i + 1) st pending allD ok st' pending' allD' hnz hext h
      | conflictc =>
        rw [hws] at h
        replace h : some (false,
            { st with
              varvals := I32.zeroVars (allD.map lvar) st.varvals,
              acts := DPLL.bump_acts st.acts
                ((DPLL.entry_clause st
                  ((DPLL.getB st isPos bvar).entries.get? (i - 1))).drop 2)
                (bump st.upcount) }, pending, allD)
            = some (ok, st', pending', allD') := h
        simp only [Option.some.injEq, Prod.mk.injEq] at h
        obtain ⟨hok, hst, _, _⟩ := h
        subst hok
        refine ⟨fun _ => ?_, fun ht => Bool.noConfusion ht⟩
        constructor
        · rw [← hst]
          exact VExt_zeroVars hext.2
        · rw [← hst]
          exact hnz
      | unitc l =>
        rw [hws] at h
        rcases dpll_wscan_unit st.varvals _ 0 0 l hws with ⟨hc0, _⟩ | ⟨hm, hu⟩
        · exact absurd rfl hc0
        · have hlnz : l ≠ 0 := dpll_entry_nz st _ hnz l hm
          have hext2 := LExt_extend hext l (lsign l) hlnz (Or.inr hu)
          exact ih (i + 1)
            { st with varvals := st.varvals.set (lvar l) (lsign l) }
            (pending ++ [l]) (allD ++ [l]) ok st' pending' allD'
            hnz hext2 h
      | move2 first second =>
        rw [hws] at h
        cases he : (DPLL.getB st isPos bvar).entries.get? (i - 1) with
        | none =>
          rw [he] at h
          exact ih (i + 1) st pending allD ok st' pending' allD' hnz hext h
        | some oe =>
          cases oe with
          | none =>
            rw [he] at h
            exact ih (i + 1) st pending allD ok st' pending' allD' hnz hext h
          | some cid =>
            rw [he] at h
            have hnz2 := dpll_move_watch_nz negdlit isPos bvar i cid
              first second hnz
            have hext2 : LExt w0 allD
                (DPLL.move_watch st negdlit isPos bvar i cid
                  first second).varvals := by
              rw [dpll_move_watch_varvals]
              exact hext
            exact ih i _ pending allD ok st' pending' allD' hnz2 hext2 h

theorem dpll_up_go_zero (bump : Nat → Int) (pending allD : List Int)
    (st : DPLL.DState) : DPLL.up_go bump 0 pending allD st = none := rfl

theorem dpll_up_go_succ (bump : Nat → Int) (fuel : Nat)
    (pending allD : List Int) (st : DPLL.DState) :
    DPLL.up_go bump (fuel + 1) pending allD st =
      match pending with
      | [] =>
        match allD with
        | [l] => some (.one l, st)
        | ls => some (.many ls, st)
      | dlit :: restPending =>
        match DPLL.ub_iter bump (0 - dlit) (dlit < 0) (lvar dlit) (fuel + 1)
            1 st restPending allD with
        | none => none
        | some (true, st2, pending2, allD2) =>
          DPLL.up_go bump fuel pending2 allD2 st2
        | some (false, st2, _, _) => some (.conflict, st2) := rfl

theorem dpll_up_go_ext (bump : Nat → Int) {w0 : I32} :
    ∀ (fuel : Nat) (pending allD : List Int) (st : DPLL.DState)
      (r : ODPLL.OPropRes) (st' : DPLL.DState),
    storeNZ st.store → LExt w0 allD st.varvals →
    DPLL.up_go bump fuel pending allD st = some (r, st') →
    (r = .conflict → st'.varvals = w0 ∧ storeNZ st'.store) ∧
    (∀ l, r = .one l → storeNZ st'.store ∧ LExt w0 [l] st'.varvals) ∧
    (∀ ls, r = .many ls → storeNZ st'.store ∧ LExt w0 ls st'.varvals) := by
  intro fuel
  induction fuel with
  | zero =>
    intro pending allD st r st' _ _ h
    rw [dpll_up_go_zero] at h
    exact Option.noConfusion h
  | succ fuel ih =>
    intro pending allD st r st' hnz hext h
    rw [dpll_up_go_succ] at h
    cases pending with
    | nil =>
      cases allD with
      | nil =>
        replace h : some (ODPLL.OPropRes.many [], st) = some (r, st') := h
        have hp := Option.some.inj h
        have hr : ODPLL.OPropRes.many [] = r := congrArg Prod.fst hp
        have hst : st = st' := congrArg Prod.snd hp
        subst hr
        subst hst
        refine ⟨fun hc => ODPLL.OPropRes.noConfusion hc,
          fun l h1 => ODPLL.OPropRes.noConfusion h1, fun ls hm => ?_⟩
        have : ([] : List Int) = ls := by injection hm
        subst this
        exact ⟨hnz, hext⟩
      | cons a tl =>
        cases tl with
        | nil =>
          replace h : some (ODPLL.OPropRes.one a, st) = some (r, st') := h
          have hp := Option.some.inj h
          have hr : ODPLL.OPropRes.one a = r := congrArg Prod.fst hp
          have hst : st = st' := congrArg Prod.snd hp
          subst hr
          subst hst
          refine ⟨fun hc => ODPLL.OPropRes.noConfusion hc, fun l h1 => ?_,
            fun ls hm => ODPLL.OPropRes.noConfusion hm⟩
          have : a = l := by injection h1
          subst this
          exact ⟨hnz, hext⟩
        | cons b tl2 =>
          replace h : some (ODPLL.OPropRes.many (a :: b :: tl2), st)
              = some (r, st') := h
          have hp := Option.some.inj h
          have hr : ODPLL.OPropRes.many (a :: b :: tl2) = r :=
            congrArg Prod.fst hp
          have hst : st = st' := congrArg Prod.snd hp
          subst hr
          subst hst
          refine ⟨fun hc => ODPLL.OPropRes.noConfusion hc,
            fun l h1 => ODPLL.OPropRes.noConfusion h1, fun ls hm => ?_⟩
          have : a :: b :: tl2 = ls := by injection hm
          subst this
          exact ⟨hnz, hext⟩
    | cons dlit restPending =>
      replace h : (match DPLL.ub_iter bump (0 - dlit) (dlit < 0) (lvar dlit)
          (fuel + 1) 1 st restPending allD with
        | none => none
        | some (true, st2, pending2, allD2) =>
          DPLL.up_go bump fuel pending2 allD2 st2
        | some (false, st2, _, _) => some (.conflict, st2))
          = some (r, st') := h
      cases hub : DPLL.ub_iter bump (0 - dlit) (dlit < 0) (lvar dlit)
          (fuel + 1) 1 st restPending allD with
      | none => rw [hub] at h; exact Option.noConfusion h
      | some quad =>
        obtain ⟨ok, st2, p2, a2⟩ := quad
        rw [hub] at h
        have hu := dpll_ub_ext bump (0 - dlit) (dlit < 0) (lvar dlit)
          (fuel + 1) 1 st restPending allD ok st2 p2 a2 hnz hext hub
        cases ok with
        | true =>
          replace h : DPLL.up_go bump fuel p2 a2 st2 = some (r, st') := h
          obtain ⟨hnz2, hext2⟩ := hu.2 rfl
          exact ih p2 a2 st2 r st' hnz2 hext2 h
        | false =>
          replace h : some (ODPLL.OPropRes.conflict, st2) = some (r, st')
            := h
          have hp := Option.some.inj h
          have hr : ODPLL.OPropRes.conflict = r := congrArg Prod.fst hp
          have hst : st2 = st' := congrArg Prod.snd hp
          subst hr
          subst hst
          exact ⟨fun _ => hu.1 rfl,
            fun l h1 => ODPLL.OPropRes.noConfusion h1,
            fun ls hm => ODPLL.OPropRes.noConfusion hm⟩

theorem dpll_up_ext (bump : Nat → Int) (ini : List Int) (fuel : Nat)
    (st : DPLL.DState) (r : ODPLL.OPropRes) (st' : DPLL.DState)
    (hnz : storeNZ st.store)
    (hini : ∀ l ∈ ini, l ≠ 0 ∧ st.varvals.get? (lvar l) = some 0)
    (h : DPLL.unit_propagate bump ini fuel st = some (r, st')) :
    (r = .conflict → st'.varvals = st.varvals ∧ storeNZ st'.store) ∧
    (∀ l, r = .one l → storeNZ st'.store ∧
      LExt st.varvals [l] st'.varvals) ∧
    (∀ ls, r = .many ls → storeNZ st'.store ∧
      LExt st.varvals ls st'.varvals) := by
  have hext : LExt st.varvals ini
      (ini.foldl (fun w l => w.set (lvar l) (lsign l)) st.varvals) := by
    have := assign_fold_ext ini [] st.varvals (LExt_refl _)
      (fun l hl => ⟨(hini l hl).1, Or.inr (hini l hl).2⟩)
    simpa using this
  exact dpll_up_go_ext bump fuel ini ini
    { st with
      upcount := st.upcount + 1,
      varvals := ini.foldl (fun w l => w.set (lvar l) (lsign l)) st.varvals }
    r st' hnz hext h

theorem dpll_nv_fold_unassigned (varvals : I32) (acts : List Int) :
    ∀ (idxs : List Nat) (p : Int × Nat),
    (idxs.foldl (DPLL.nv_step varvals acts) p).2 = p.2 ∨
    varvals.get? ((idxs.foldl (DPLL.nv_step varvals acts) p).2) = some 0
    := by
  intro idxs
  induction idxs with
  | nil => intro p; left; rfl
  | cons i rest ih =>
    intro p
    rw [List.foldl_cons]
    by_cases hc : varvals.get? i = some 0
    · rcases ha : acts.get? i with - | a
      · have hstep : DPLL.nv_step varvals acts p i = p := by
          unfold DPLL.nv_step
          rw [if_pos hc, ha]
        rw [hstep]
        exact ih p
      · by_cases hle : p.1 ≤ a
        · have hstep : DPLL.nv_step varvals acts p i = (a, i) := by
            unfold DPLL.nv_step
            rw [if_pos hc, ha]
            show (if p.1 ≤ a then ((a : Int), i) else p) = ((a : Int), i)
            rw [if_pos hle]
          rw [hstep]
          rcases ih (a, i) with h | h
          · right
            rw [h]
            exact hc
          · right
            exact h
        · have hstep : DPLL.nv_step varvals acts p i = p := by
            unfold DPLL.nv_step
            rw [if_pos hc, ha]
            show (if p.1 ≤ a then ((a : Int), i) else p) = p
            rw [if_neg hle]
          rw [hstep]
          exact ih p
    · have hstep : DPLL.nv_step varvals acts p i = p := by
        unfold DPLL.nv_step
        rw [if_neg hc]
      rw [hstep]
      exact ih p

theorem dpll_next_var_unassigned (w : I32) (acts : List Int) :
    DPLL.next_var w acts = 0 ∨
    w.get? (DPLL.next_var w acts) = some 0 := by
  unfold DPLL.next_var
  rcases dpll_nv_fold_unassigned w acts
    ((List.range w.data.length).drop 1) (-1000, 0) with h | h
  · left
    exact h
  · right
    exact h

theorem dpll_sat_zero (bump : Nat → Int) (initLits : List Int)
    (st : DPLL.DState) :
    DPLL.satisfiable_at bump 0 initLits st = none := rfl

theorem dpll_sat_succ (bump : Nat → Int) (fuel : Nat)
    (initLits : List Int) (st : DPLL.DState) :
    DPLL.satisfiable_at bump (fuel + 1) initLits st =
      match (if initLits ≠ [] then
          DPLL.unit_propagate bump initLits (fuel + 1) st
        else some (.one 0, st)) with
      | none => none
      | some (.conflict, st2) => some (false, none, st2)
      | some (pr, st2) =>
        if DPLL.next_var st2.varvals st2.acts = 0 then
          some (true, some (ST.store_model st2.varvals), st2)
        else
          match DPLL.satisfiable_at bump fuel
              [(DPLL.next_var st2.varvals st2.acts : Int)] st2 with
          | none => none
          | some (true, m, st3) => some (true, m, st3)
          | some (false, _, st3) =>
            match DPLL.satisfiable_at bump fuel
                [-(DPLL.next_var st2.varvals st2.acts : Int)] st3 with
            | none => none
            | some (true, m, st4) => some (true, m, st4)
            | some (false, _, st4) =>
              some (false, none,
                { st4 with varvals := ODPLL.old_restore pr st4.varvals })
      := rfl

theorem dpll_sat_cont (bump : Nat → Int) (fuel : Nat)
    (ih : ∀ (initLits : List Int) (st : DPLL.DState)
      (m : Option (List Int)) (st2 : DPLL.DState),
      storeNZ st.store →
      (∀ l ∈ initLits, l ≠ 0 ∧ st.varvals.get? (lvar l) = some 0) →
      DPLL.satisfiable_at bump fuel initLits st = some (false, m, st2) →
      st2.varvals = st.varvals ∧ storeNZ st2.store)
    (pr : ODPLL.OPropRes) (w0 : I32) (st2' : DPLL.DState)
    (m : Option (List Int)) (st2 : DPLL.DState)
    (hnz2 : storeNZ st2'.store)
    (hres : ODPLL.old_restore pr st2'.varvals = w0)
    (h : (if DPLL.next_var st2'.varvals st2'.acts = 0 then
        some (true, some (ST.store_model st2'.varvals), st2')
      else
        match DPLL.satisfiable_at bump fuel
            [(DPLL.next_var st2'.varvals st2'.acts : Int)] st2' with
        | none => none
        | some (true, m, st3) => some (true, m, st3)
        | some (false, _, st3) =>
          match DPLL.satisfiable_at bump fuel
              [-(DPLL.next_var st2'.varvals st2'.acts : Int)] st3 with
          | none => none
          | some (true, m, st4) => some (true, m, st4)
          | some (false, _, st4) =>
            some (false, none,
              { st4 with varvals := ODPLL.old_restore pr st4.varvals }))
      = some (false, m, st2)) :
    st2.varvals = w0 ∧ storeNZ st2.store := by
  by_cases hnv : DPLL.next_var st2'.varvals st2'.acts = 0
  · rw [if_pos hnv] at h
    exact Bool.noConfusion (congrArg Prod.fst (Option.some.inj h))
  · rw [if_neg hnv] at h
    have hget : st2'.varvals.get? (DPLL.next_var st2'.varvals st2'.acts)
        = some 0 := by
      rcases dpll_next_var_unassigned st2'.varvals st2'.acts with h0 | hu
      · exact absurd h0 hnv
      · exact hu
    have hini1 : ∀ l ∈ [(DPLL.next_var st2'.varvals st2'.acts : Int)],
        l ≠ 0 ∧ st2'.varvals.get? (lvar l) = some 0 := by
      intro l hl
      have hle := List.mem_singleton.mp hl
      subst hle
      refine ⟨Int.natCast_ne_zero.mpr hnv, ?_⟩
      show st2'.varvals.get?
        ((DPLL.next_var st2'.varvals st2'.acts : Int)).natAbs = some 0
      rw [Int.natAbs_ofNat]
      exact hget
    cases hc1 : DPLL.satisfiable_at bump fuel
        [(DPLL.next_var st2'.varvals st2'.acts : Int)] st2' with
    | none => rw [hc1] at h; exact Option.noConfusion h
    | some t1 =>
      obtain ⟨b1, m1, st3⟩ := t1
      rw [hc1] at h
      cases b1 with
      | true =>
        replace h : some (true, m1, st3) = some (false, m, st2) := h
        exact Bool.noConfusion (congrArg Prod.fst (Option.some.inj h))
      | false =>
        replace h : (match DPLL.satisfiable_at bump fuel
            [-(DPLL.next_var st2'.varvals st2'.acts : Int)] st3 with
          | none => none
          | some (true, m, st4) => some (true, m, st4)
          | some (false, _, st4) =>
            some (false, none,
              { st4 with varvals := ODPLL.old_restore pr st4.varvals }))
            = some (false, m, st2) := h
        obtain ⟨h3v, h3nz⟩ := ih _ st2' m1 st3 hnz2 hini1 hc1
        have hini2 : ∀ l ∈ [-(DPLL.next_var st2'.varvals st2'.acts : Int)],
            l ≠ 0 ∧ st3.varvals.get? (lvar l) = some 0 := by
          intro l hl
          have hle := List.mem_singleton.mp hl
          subst hle
          refine ⟨neg_ne_zero.mpr (Int.natCast_ne_zero.mpr hnv), ?_⟩
          show st3.varvals.get?
            ((-(DPLL.next_var st2'.varvals st2'.acts : Int)).natAbs)
            = some 0
          rw [Int.natAbs_neg, Int.natAbs_ofNat, h3v]
          exact hget
        cases hc2 : DPLL.satisfiable_at bump fuel
            [-(DPLL.next_var st2'.varvals st2'.acts : Int)] st3 with
        | none => rw [hc2] at h; exact Option.noConfusion h
        | some t2 =>
          obtain ⟨b2, m2, st4⟩ := t2
          rw [hc2] at h
          cases b2 with
          | true =>
            replace h : some (true, m2, st4) = some (false, m, st2) := h
            exact Bool.noConfusion (congrArg Prod.fst (Option.some.inj h))
          | false =>
            replace h : some (false, (none : Option (List Int)),
                ({ st4 with
                  varvals := ODPLL.old_restore pr st4.varvals }))
                = some (false, m, st2) := h
            simp only [Option.some.injEq, Prod.mk.injEq] at h
            obtain ⟨-, -, hst⟩ := h
            obtain ⟨h4v, h4nz⟩ := ih _ st3 m2 st4 h3nz hini2 hc2
            constructor
            · rw [← hst]
              show ODPLL.old_restore pr st4.varvals = w0
              rw [h4v, h3v, hres]
            · rw [← hst]
              exact h4nz

theorem dpll_restore_frame (bump : Nat → Int) :
    ∀ (fuel : Nat) (initLits : List Int) (st : DPLL.DState)
      (m : Option (List Int)) (st2 : DPLL.DState),
    storeNZ st.store →
    (∀ l ∈ initLits, l ≠ 0 ∧ st.varvals.get? (lvar l) = some 0) →
    DPLL.satisfiable_at bump fuel initLits st = some (false, m, st2) →
    st2.varvals = st.varvals ∧ storeNZ st2.store := by
  intro fuel
  induction fuel with
  | zero =>
    intro initLits st m st2 _ _ h
    rw [dpll_sat_zero] at h
    exact Option.noConfusion h
  | succ fuel ih =>
    intro initLits st m st2 hnz hini h
    rw [dpll_sat_succ] at h
    by_cases hinit : initLits ≠ []
    · rw [if_pos hinit] at h
      cases hup : DPLL.unit_propagate bump initLits (fuel + 1) st with
      | none => rw [hup] at h; exact Option.noConfusion h
      | some prst =>
        obtain ⟨pr, st2'⟩ := prst
        rw [hup] at h
        have hext := dpll_up_ext bump initLits (fuel + 1) st pr st2' hnz
          hini hup
        cases pr with
        | conflict =>
          replace h : some (false, (none : Option (List Int)), st2')
              = some (false, m, st2) := h
          simp only [Option.some.injEq, Prod.mk.injEq] at h
          obtain ⟨-, -, hst⟩ := h
          subst hst
          exact hext.1 rfl
        | one l =>
          obtain ⟨hnz2, hlext⟩ := hext.2.1 l rfl
          exact dpll_sat_cont bump fuel ih (.one l) st.varvals st2' m st2
            hnz2 (odpll_restore_one hlext) h
        | many ls =>
          obtain ⟨hnz2, hlext⟩ := hext.2.2 ls rfl
          exact dpll_sat_cont bump fuel ih (.many ls) st.varvals st2' m st2
            hnz2 (odpll_restore_many hlext) h
    · rw [if_neg hinit] at h
      have hres : ODPLL.old_restore (.one 0) st.varvals = st.varvals := by
        show (if (0 : Int) < 0 then st.varvals.set (lvar 0) 0
          else if (0 : Int) ≠ 0 then st.varvals.set (lvar 0) 0
          else st.varvals) = st.varvals
        rw [if_neg (by omega : ¬ (0 : Int) < 0),
          if_neg (by simp : ¬ (0 : Int) ≠ 0)]
      exact dpll_sat_cont bump fuel ih (.one 0) st.varvals st m st2
        hnz hres h

/-- C6 counterexample: in the naive DPLL engine a decision frame that
    returns False does NOT reset its own decision variable on the
    failed-split path: deciding variable 1 true on the clause set
    [[1,2],[2,3],[-2,3],[2,-3],[-2,-3]] fails (variables 2 and 3 are
    over-constrained), yet the frame returns with variable 1 still
    assigned, so the assignment differs from its state at frame entry. -/
theorem C6_counterexample :
    NDPLL.satisfiable_at [[1, 2], [2, 3], [-2, 3], [2, -3], [-2, -3]] 10
      ⟨[0, 0, 0, 0]⟩ 1 1 = some (false, none, ⟨[0, 1, 0, 0]⟩) ∧
    (⟨[0, 1, 0, 0]⟩ : I32) ≠ (⟨[0, 0, 0, 0]⟩ : I32) := by decide

/-- C6 (amended): backtracking restoration per engine, for decision
    frames on nonzero-literal inputs entered with the decision variable
    Unassigned.  (1) The naive DPLL engine restores every variable
    except possibly its own decision variable, which may remain set to
    the decision value when the frame fails through the split path (the
    parent's loop resets it).  (2) The classical DPLL engine restores
    the assignment exactly: its propagation result carries the decision
    literal as derived[0], so the restore block resets it with the
    units.  (3) The watched-literal engine restores the assignment array
    exactly (clause and bucket mutations and activity bumps are not
    undone). -/
theorem C6_backtracking_restoration :
    (∀ (clauses : List (List Int)), (∀ c ∈ clauses, ∀ l ∈ c, l ≠ 0) →
      ∀ (fuel : Nat) (w : I32) (varnr : Nat) (val : Int)
        (m : Option (List Int)) (w2 : I32),
      varnr ≠ 0 → w.get? varnr = some 0 →
      NDPLL.satisfiable_at clauses fuel w varnr val = some (false, m, w2) →
      w2 = w ∨ w2 = w.set varnr val) ∧
    (∀ (clauses : List (List Int)) (posb negb : ODPLL.Buckets),
      (∀ b ∈ posb, ∀ c ∈ b, ∀ l ∈ c, l ≠ 0) →
      (∀ b ∈ negb, ∀ c ∈ b, ∀ l ∈ c, l ≠ 0) →
      ∀ (fuel : Nat) (w : I32) (varnr : Nat) (val : Int)
        (m : Option (List Int)) (w2 : I32),
      varnr ≠ 0 → (val = 1 ∨ val = -1) → w.get? varnr = some 0 →
      ODPLL.satisfiable_at clauses posb negb fuel w varnr val
        = some (false, m, w2) →
      w2 = w) ∧
    (∀ (bump : Nat → Int) (fuel : Nat) (initLits : List Int)
      (st : DPLL.DState) (m : Option (List Int)) (st2 : DPLL.DState),
      storeNZ st.store →
      (∀ l ∈ initLits, l ≠ 0 ∧ st.varvals.get? (lvar l) = some 0) →
      DPLL.satisfiable_at bump fuel initLits st = some (false, m, st2) →
      st2.varvals = st.varvals) := by
  refine ⟨?_, ?_, ?_⟩
  · intro clauses hnz fuel w varnr val m w2 hvn hget h
    rcases ndpll_restore_frame clauses hnz fuel w varnr val m w2 hvn h
      with h1 | h1
    · left
      rw [h1, I32.set_same hget]
    · right
      exact h1
  · intro clauses posb negb hpb hnb fuel w varnr val m w2 hvn hval hget h
    exact odpll_restore_frame clauses posb negb hpb hnb fuel w varnr val
      m w2 hvn hval hget h
  · intro bump fuel initLits st m st2 hnz hini h
    exact (dpll_restore_frame bump fuel initLits st m st2 hnz hini h).1

/-- C6 witness: the amended statement applied to one failing decision
    frame of each engine — the naive and classical engines on the
    contradictory pair [[1],[-1]] deciding variable 1 true, the watched
    engine on a one-variable state with contradictory watched unit
    clauses — each restoring to the entry assignment. -/
theorem C6_backtracking_restoration_witness :
    ((⟨[0, 0]⟩ : I32) = I32.mk0 2 ∨
      (⟨[0, 0]⟩ : I32) = (I32.mk0 2).set 1 1) ∧
    (⟨[0, 0]⟩ : I32) = I32.mk0 2 ∧
    (({ store := [[1, 0, 1], [-1, 0, -1]],
        posb := [⟨0, []⟩, ⟨1, [some 0]⟩],
        negb := [⟨0, []⟩, ⟨1, [some 1]⟩],
        varvals := ⟨[0, 0]⟩, acts := [1, 7], upcount := 2 } :
          DPLL.DState)).varvals =
      (({ store := [[1, 0, 1], [-1, 0, -1]],
          posb := [⟨0, []⟩, ⟨1, [some 0]⟩],
          negb := [⟨0, []⟩, ⟨1, [some 1]⟩],
          varvals := ⟨[0, 0]⟩, acts := [1, 1], upcount := 0 } :
          DPLL.DState)).varvals :=
  ⟨C6_backtracking_restoration.1 [[1], [-1]] (by decide) 5 (I32.mk0 2) 1 1
      none ⟨[0, 0]⟩ (by decide) (by decide) (by decide),
   C6_backtracking_restoration.2.1 [[1], [-1]] [[], [[1]]] [[], [[-1]]]
      (by decide) (by decide) 5 (I32.mk0 2) 1 1 none ⟨[0, 0]⟩ (by decide)
      (Or.inl rfl) (by decide) (by decide),
   C6_backtracking_restoration.2.2 (fun n => 2 * (n : Int)) 3 []
      { store := [[1, 0, 1], [-1, 0, -1]],
        posb := [⟨0, []⟩, ⟨1, [some 0]⟩],
        negb := [⟨0, []⟩, ⟨1, [some 1]⟩],
        varvals := ⟨[0, 0]⟩, acts := [1, 1], upcount := 0 }
      none
      { store := [[1, 0, 1], [-1, 0, -1]],
        posb := [⟨0, []⟩, ⟨1, [some 0]⟩],
        negb := [⟨0, []⟩, ⟨1, [some 1]⟩],
        varvals := ⟨[0, 0]⟩, acts := [1, 7], upcount := 2 }
      (by decide) (by decide) (by decide)⟩

/-! ### Optimized resolution on horn inputs: every step has a unit
    parent -/

theorem hornClause_of_sublist {s c : List Int} (hs : List.Sublist s c)
    (hne : s ≠ []) (hc : hornClause c) : hornClause s := by
  obtain ⟨_, hsort, hcnt, hnz⟩ := hc
  exact ⟨hne, hsort.sublist hs, le_trans (hs.countP_le _) hcnt,
    fun l hl => hnz l (hs.subset hl)⟩

theorem hornClause_sorted (c : List Int) (hne : c ≠ [])
    (hcnt : c.countP (fun l => 0 < l) ≤ 1) (hnz : ∀ l ∈ c, l ≠ 0) :
    hornClause (RES.quick_sort_in_place c) := by
  have hperm := List.perm_insertionSort (· ≤ ·) c
  refine ⟨?_, List.sorted_insertionSort _ c, ?_, ?_⟩
  · intro he
    have he' : List.insertionSort (· ≤ ·) c = [] := he
    have hlen := hperm.length_eq
    rw [he'] at hlen
    exact hne (List.length_eq_zero.mp hlen.symm)
  · exact (le_of_eq (hperm.countP_eq _)).trans hcnt
  · intro l hl
    exact hnz l (hperm.subset hl)

theorem horn_head_unit {c : List Int} (hc : hornClause c)
    (hp : 0 < c.headI) : c.length = 1 := by
  obtain ⟨hne, hsort, hcnt, _⟩ := hc
  cases c with
  | nil => exact absurd rfl hne
  | cons x rest =>
    cases rest with
    | nil => rfl
    | cons y t =>
      exfalso
      have hxy : x ≤ y := (List.pairwise_cons.mp hsort).1 y
        (List.mem_cons_self y t)
      have hx : 0 < x := hp
      rw [List.countP_cons] at hcnt
      have hcx : (if (fun l => decide (0 < l)) x = true then 1 else 0)
          = 1 := by
        simp [hx]
      rw [hcx] at hcnt
      have hrest : (y :: t).countP (fun l => decide (0 < l)) = 0 := by omega
      have hy := List.countP_eq_zero.mp hrest y (List.mem_cons_self y t)
      simp at hy
      omega

theorem ppc_scan_sublist (w : I32) (clen : Nat) :
    ∀ (c : List Int) (lastlit : Int) (tmp out : List Int),
    RES.ppc_scan w clen c lastlit tmp = some out →
    ∃ s, List.Sublist s c ∧ out = tmp ++ s := by
  intro c
  induction c with
  | nil =>
    intro lastlit tmp out h
    have : tmp = out := by
      have := Option.some.inj h
      exact this
    exact ⟨[], List.Sublist.slnil, by rw [← this]; simp⟩
  | cons lit rest ih =>
    intro lastlit tmp out h
    rw [show RES.ppc_scan w clen (lit :: rest) lastlit tmp =
      (if lit = lastlit then RES.ppc_scan w clen rest lastlit tmp
       else if w.get? (lvar lit) = some 0 then
         RES.ppc_scan w clen rest lit (tmp ++ [lit])
       else if w.get? (lvar lit) = some (lsign lit) then
         (if clen > 1 then none
          else RES.ppc_scan w clen rest lit (tmp ++ [lit]))
       else RES.ppc_scan w clen rest lit tmp) from rfl] at h
    by_cases h1 : lit = lastlit
    · rw [if_pos h1] at h
      obtain ⟨s, hs, ho⟩ := ih lastlit tmp out h
      exact ⟨s, hs.cons lit, ho⟩
    · rw [if_neg h1] at h
      by_cases h2 : w.get? (lvar lit) = some 0
      · rw [if_pos h2] at h
        obtain ⟨s, hs, ho⟩ := ih lit (tmp ++ [lit]) out h
        refine ⟨lit :: s, List.Sublist.cons₂ lit hs, ?_⟩
        rw [ho, List.append_assoc]
        rfl
      · rw [if_neg h2] at h
        by_cases h3 : w.get? (lvar lit) = some (lsign lit)
        · rw [if_pos h3] at h
          by_cases h4 : clen > 1
          · rw [if_pos h4] at h
            exact Option.noConfusion h
          · rw [if_neg h4] at h
            obtain ⟨s, hs, ho⟩ := ih lit (tmp ++ [lit]) out h
            refine ⟨lit :: s, List.Sublist.cons₂ lit hs, ?_⟩
            rw [ho, List.append_assoc]
            rfl
        · rw [if_neg h3] at h
          obtain ⟨s, hs, ho⟩ := ih lit tmp out h
          exact ⟨s, hs.cons lit, ho⟩

theorem pre_preprocess_kept (c : List Int) (w : I32)
    (pcs : List (List Int)) (s : List Int)
    (h : RES.pre_preprocess_clause c w pcs = .kept s) :
    s = c ∨ (List.Sublist s c ∧ s ≠ []) := by
  unfold RES.pre_preprocess_clause at h
  cases hscan : RES.ppc_scan w c.length c 0 [] with
  | none => rw [hscan] at h; exact RES.PrepRes.noConfusion h
  | some tmp =>
    rw [hscan] at h
    replace h : (if tmp.length = 0 then RES.PrepRes.contradiction
      else if pcs.any (fun p =>
          decide (p.length ≤ tmp.length) && RES.ord_subsumed_by p tmp) then
        RES.PrepRes.subsumed
      else if tmp.length = c.length then RES.PrepRes.kept c
      else RES.PrepRes.kept tmp) = RES.PrepRes.kept s := h
    by_cases h0 : tmp.length = 0
    · rw [if_pos h0] at h
      exact RES.PrepRes.noConfusion h
    · rw [if_neg h0] at h
      by_cases h1 : pcs.any (fun p =>
          decide (p.length ≤ tmp.length) && RES.ord_subsumed_by p tmp)
      · rw [if_pos h1] at h
        exact RES.PrepRes.noConfusion h
      · rw [if_neg h1] at h
        by_cases h2 : tmp.length = c.length
        · rw [if_pos h2] at h
          left
          have : c = s := by injection h
          exact this.symm
        · rw [if_neg h2] at h
          right
          have hts : tmp = s := by injection h
          subst hts
          obtain ⟨su, hsu, ho⟩ := ppc_scan_sublist w c.length c 0 [] tmp hscan
          simp at ho
          subst ho
          refine ⟨hsu, ?_⟩
          intro he
          rw [he] at h0
          exact h0 rfl

theorem preprocess_kept (c : List Int) (w : I32)
    (posb negb : RES.PBuckets) (s : List Int)
    (h : RES.preprocess_clause c w posb negb = .kept s) :
    s = c ∨ (List.Sublist s c ∧ s ≠ []) := by
  unfold RES.preprocess_clause at h
  cases hscan : RES.ppc_scan w c.length c 0 [] with
  | none => rw [hscan] at h; exact RES.PrepRes.noConfusion h
  | some tmp =>
    rw [hscan] at h
    replace h : (if tmp.length = 0 then RES.PrepRes.contradiction
      else if tmp.any (fun lit =>
          (((if lit < 0 then negb.get? (lvar lit)
             else posb.get? (lvar lit)).getD []).any (fun pc =>
            match pc with
            | none => false
            | some p =>
              decide (p.length ≤ tmp.length) &&
                RES.ord_subsumed_by p tmp))) then
        RES.PrepRes.subsumed
      else if tmp.length = c.length then RES.PrepRes.kept c
      else RES.PrepRes.kept tmp) = RES.PrepRes.kept s := h
    by_cases h0 : tmp.length = 0
    · rw [if_pos h0] at h
      exact RES.PrepRes.noConfusion h
    · rw [if_neg h0] at h
      by_cases h1 : tmp.any (fun lit =>
          (((if lit < 0 then negb.get? (lvar lit)
             else posb.get? (lvar lit)).getD []).any (fun pc =>
            match pc with
            | none => false
            | some p =>
              decide (p.length ≤ tmp.length) && RES.ord_subsumed_by p tmp)))
      · rw [if_pos h1] at h
        exact RES.PrepRes.noConfusion h
      · rw [if_neg h1] at h
        by_cases h2 : tmp.length = c.length
        · rw [if_pos h2] at h
          left
          have : c = s := by injection h
          exact this.symm
        · rw [if_neg h2] at h
          right
          have hts : tmp = s := by injection h
          subst hts
          obtain ⟨su, hsu, ho⟩ := ppc_scan_sublist w c.length c 0 [] tmp hscan
          simp at ho
          subst ho
          refine ⟨hsu, ?_⟩
          intro he
          rw [he] at h0
          exact h0 rfl

theorem mr_collect_sublist (c1 : List Int) (i1 : Nat) (w : I32) :
    ∀ (c2 : List Int) (i i2 : Nat) (tmp out : List Int),
    RES.mr_collect c1 i1 w c2 i i2 tmp = some out →
    ∃ s, List.Sublist s c2 ∧ out = tmp ++ s := by
  intro c2
  induction c2 with
  | nil =>
    intro i i2 tmp out h
    have : tmp = out := Option.some.inj h
    exact ⟨[], List.Sublist.slnil, by rw [← this]; simp⟩
  | cons l rest ih =>
    intro i i2 tmp out h
    rw [show RES.mr_collect c1 i1 w (l :: rest) i i2 tmp =
      (if i = i2 then RES.mr_collect c1 i1 w rest (i + 1) i2 tmp
       else if w.get? (lvar l) ≠ some 0 then
         (if w.get? (lvar l) = some (lsign l) then none
          else RES.mr_collect c1 i1 w rest (i + 1) i2 tmp)
       else
         match RES.c1_find i1 l c1 0 with
         | some true => RES.mr_collect c1 i1 w rest (i + 1) i2 tmp
         | some false => none
         | none => RES.mr_collect c1 i1 w rest (i + 1) i2 (tmp ++ [l]))
      from rfl] at h
    by_cases h1 : i = i2
    · rw [if_pos h1] at h
      obtain ⟨s, hs, ho⟩ := ih (i + 1) i2 tmp out h
      exact ⟨s, hs.cons l, ho⟩
    · rw [if_neg h1] at h
      by_cases h2 : w.get? (lvar l) ≠ some 0
      · rw [if_pos h2] at h
        by_cases h3 : w.get? (lvar l) = some (lsign l)
        · rw [if_pos h3] at h
          exact Option.noConfusion h
        · rw [if_neg h3] at h
          obtain ⟨s, hs, ho⟩ := ih (i + 1) i2 tmp out h
          exact ⟨s, hs.cons l, ho⟩
      · rw [if_neg h2] at h
        cases hf : RES.c1_find i1 l c1 0 with
        | none =>
          rw [hf] at h
          obtain ⟨s, hs, ho⟩ := ih (i + 1) i2 (tmp ++ [l]) out h
          refine ⟨l :: s, List.Sublist.cons₂ l hs, ?_⟩
          rw [ho, List.append_assoc]
          rfl
        | some b =>
          cases b with
          | true =>
            rw [hf] at h
            obtain ⟨s, hs, ho⟩ := ih (i + 1) i2 tmp out h
            exact ⟨s, hs.cons l, ho⟩
          | false =>
            rw [hf] at h
            exact Option.noConfusion h

theorem mr_collect_unit (c1 : List Int) (w : I32) (x : Int) :
    RES.mr_collect c1 0 w [x] 0 0 [] = some [] := rfl

theorem mr_merge_nil (i1 : Nat) (cs : List Int) (i : Nat) :
    RES.mr_merge i1 cs i [] = RES.drop_idx i1 cs i := by
  unfold RES.mr_merge
  cases cs with
  | nil => rfl
  | cons x rest => rfl

theorem mr_merge_unit (a : Int) (tmp : List Int) :
    RES.mr_merge 0 [a] 0 tmp = tmp := by
  cases tmp with
  | nil =>
    rw [mr_merge_nil]
    rfl
  | cons t restT =>
    unfold RES.mr_merge
    norm_num
    unfold RES.mr_merge
    rfl

theorem drop_idx_gt (i1 : Nat) :
    ∀ (c : List Int) (i : Nat), i1 < i → RES.drop_idx i1 c i = c := by
  intro c
  induction c with
  | nil => intro i _; rfl
  | cons x rest ih =>
    intro i hi
    rw [show RES.drop_idx i1 (x :: rest) i =
      (if i = i1 then RES.drop_idx i1 rest (i + 1)
       else x :: RES.drop_idx i1 rest (i + 1)) from rfl]
    rw [if_neg (by omega)]
    rw [ih (i + 1) (by omega)]

theorem merge_rest_clause (c1 c2 : List Int) (w : I32) (d : List Int)
    (h : RES.merge_rest c1 c2 0 0 w = .clause d) :
    ∃ tmp, RES.mr_collect c1 0 w c2 0 0 [] = some tmp ∧
      ¬ (tmp.length = 0 ∧ c1.length < 2) ∧
      d = RES.mr_merge 0 c1 0 tmp := by
  unfold RES.merge_rest at h
  cases hc : RES.mr_collect c1 0 w c2 0 0 [] with
  | none => rw [hc] at h; exact MergeRes.noConfusion h
  | some tmp =>
    rw [hc] at h
    replace h : (if tmp.length = 0 ∧ c1.length < 2 then MergeRes.empty
      else MergeRes.clause (RES.mr_merge 0 c1 0 tmp)) = MergeRes.clause d
      := h
    by_cases hg : tmp.length = 0 ∧ c1.length < 2
    · rw [if_pos hg] at h
      exact MergeRes.noConfusion h
    · rw [if_neg hg] at h
      have : RES.mr_merge 0 c1 0 tmp = d := by injection h
      exact ⟨tmp, rfl, hg, this.symm⟩

theorem store_to_usable_horn {d : List Int} {u : List (List (List Int))}
    (hd : hornClause d) (hu : hornUsable u) :
    hornUsable (RES.store_to_usable d u) := by
  intro b hb c hc
  unfold RES.store_to_usable at hb
  rcases List.mem_or_eq_of_mem_set hb with h1 | h2
  · exact hu b h1 c hc
  · subst h2
    rcases List.mem_append.mp hc with hc1 | hc2
    · cases hg : u.get?
          (if d.length < 100 then d.length else 99) with
      | none =>
        rw [hg] at hc1
        exact absurd hc1 (List.not_mem_nil c)
      | some b0 =>
        rw [hg] at hc1
        exact hu b0 (List.get?_mem hg) c hc1
    · rw [List.mem_singleton.mp hc2]
      exact hd

theorem buckets_set (Q : Option (List Int) → Prop) (b : RES.PBuckets)
    (i : Nat) (nb : List (Option (List Int)))
    (hb : ∀ bb ∈ b, ∀ e ∈ bb, Q e) (hnb : ∀ e ∈ nb, Q e) :
    ∀ bb ∈ b.set i nb, ∀ e ∈ bb, Q e := by
  intro bb hbb e he
  rcases List.mem_or_eq_of_mem_set hbb with h1 | h2
  · exact hb bb h1 e he
  · subst h2
    exact hnb e he

theorem buckets_getD (Q : Option (List Int) → Prop) (b : RES.PBuckets)
    (i : Nat) (hb : ∀ bb ∈ b, ∀ e ∈ bb, Q e) :
    ∀ e ∈ (b.get? i).getD [], Q e := by
  cases hg : b.get? i with
  | none => intro e he; exact absurd he (List.not_mem_nil e)
  | some bb =>
    intro e he
    exact hb bb (List.get?_mem hg) e he

theorem bpush_buckets (Q : Option (List Int) → Prop) (b : RES.PBuckets)
    (i : Nat) (x : Option (List Int))
    (hb : ∀ bb ∈ b, ∀ e ∈ bb, Q e) (hx : Q x) :
    ∀ bb ∈ RES.bpush b i x, ∀ e ∈ bb, Q e := by
  unfold RES.bpush
  apply buckets_set Q b i _ hb
  intro e he
  rcases List.mem_append.mp he with h1 | h2
  · exact buckets_getD Q b i hb e h1
  · rw [List.mem_singleton.mp h2]
    exact hx

theorem pick_selected_spec {u : List (List (List Int))}
    {c : List Int} {u1 : List (List (List Int))}
    (h : RES.pick_selected u = some (c, u1)) (hu : hornUsable u) :
    hornClause c ∧ hornUsable u1 := by
  unfold RES.pick_selected at h
  cases hf : ((List.range 100).drop 1).find?
      (fun i => !((u.get? i).getD []).isEmpty) with
  | none => rw [hf] at h; exact Option.noConfusion h
  | some i =>
    rw [hf] at h
    replace h : (match (u.get? i).getD [] with
      | [] => none
      | c0 :: rest => some (c0, u.set i rest)) = some (c, u1) := h
    cases hb : (u.get? i).getD [] with
    | nil => rw [hb] at h; exact Option.noConfusion h
    | cons c0 rest =>
      rw [hb] at h
      have hp := Option.some.inj h
      have hc0 : c0 = c := congrArg Prod.fst hp
      have hu1 : u.set i rest = u1 := congrArg Prod.snd hp
      have hbu : ∀ x ∈ c0 :: rest, hornClause x := by
        cases hg : u.get? i with
        | none =>
          rw [hg] at hb
          exact absurd hb.symm (List.cons_ne_nil c0 rest)
        | some b0 =>
          rw [hg] at hb
          have hb' : b0 = c0 :: rest := hb
          intro x hx
          refine hu b0 (List.get?_mem hg) x ?_
          rw [hb']
          exact hx
      constructor
      · rw [← hc0]
        exact hbu c0 (List.mem_cons_self c0 rest)
      · rw [← hu1]
        intro bb hbb x hx
        rcases List.mem_or_eq_of_mem_set hbb with h1 | h2
        · exact hu bb h1 x hx
        · subst h2
          exact hbu x (List.mem_cons_of_mem c0 hx)

theorem merge_clause_horn (sel p : List Int) (w : I32) (d : List Int)
    (hsel : hornClause sel) (hp : hornClause p)
    (hunit : sel.length = 1 ∨ p.length = 1)
    (h : RES.merge_rest sel p 0 0 w = .clause d) :
    hornClause d := by
  obtain ⟨tmp, hcol, hguard, hd⟩ := merge_rest_clause sel p w d h
  rcases hunit with hu | hu
  · obtain ⟨a, ha⟩ : ∃ a, sel = [a] := by
      cases sel with
      | nil => simp at hu
      | cons x rest =>
        cases rest with
        | nil => exact ⟨x, rfl⟩
        | cons y t => simp at hu
    subst ha
    rw [mr_merge_unit] at hd
    obtain ⟨s, hs, ho⟩ := mr_collect_sublist [a] 0 w p 0 0 [] tmp hcol
    simp at ho
    rw [hd, ho]
    refine hornClause_of_sublist hs ?_ hp
    intro he
    refine hguard ⟨?_, by simp⟩
    rw [ho, he]
    rfl
  · obtain ⟨x, hx⟩ : ∃ x, p = [x] := by
      cases p with
      | nil => simp at hu
      | cons y rest =>
        cases rest with
        | nil => exact ⟨y, rfl⟩
        | cons z t => simp at hu
    subst hx
    have htmp : tmp = [] := by
      have h2 := mr_collect_unit sel w x
      rw [hcol] at h2
      exact Option.some.inj h2
    subst htmp
    rw [mr_merge_nil] at hd
    have hlen : 2 ≤ sel.length := by
      by_contra hlt
      exact hguard ⟨rfl, by omega⟩
    cases hse : sel with
    | nil => rw [hse] at hlen; simp at hlen
    | cons s0 srest =>
      rw [hse] at hd
      have hdi : RES.drop_idx 0 (s0 :: srest) 0 = srest := by
        rw [show RES.drop_idx 0 (s0 :: srest) 0 =
          (if 0 = 0 then RES.drop_idx 0 srest 1
           else s0 :: RES.drop_idx 0 srest 1) from rfl]
        rw [if_pos rfl, drop_idx_gt 0 srest 1 (by omega)]
      rw [hdi] at hd
      rw [hd]
      rw [hse] at hsel hlen
      refine hornClause_of_sublist ((List.Sublist.refl srest).cons s0)
        ?_ hsel
      intro he
      rw [he] at hlen
      simp at hlen

theorem rbl_nil (sel : List Int) (w : I32) (u : List (List (List Int)))
    (log : List (List Int × List Int)) :
    RES.res_bucket_loop sel [] w u log = ⟨[], w, u, log, true⟩ := rfl

theorem rbl_none (sel : List Int) (rest : List (Option (List Int)))
    (w : I32) (u : List (List (List Int)))
    (log : List (List Int × List Int)) :
    RES.res_bucket_loop sel (none :: rest) w u log =
      ⟨none :: (RES.res_bucket_loop sel rest w u log).bucket,
       (RES.res_bucket_loop sel rest w u log).varvals,
       (RES.res_bucket_loop sel rest w u log).usable,
       (RES.res_bucket_loop sel rest w u log).log,
       (RES.res_bucket_loop sel rest w u log).ok⟩ := rfl

theorem rbl_some (sel p : List Int) (rest : List (Option (List Int)))
    (w : I32) (u : List (List (List Int)))
    (log : List (List Int × List Int)) :
    RES.res_bucket_loop sel (some p :: rest) w u log =
      match RES.merge_rest sel p 0 0 w with
      | .empty => ⟨some p :: rest, w, u, log ++ [(sel, p)], false⟩
      | .taut =>
        ⟨some p ::
          (RES.res_bucket_loop sel rest w u (log ++ [(sel, p)])).bucket,
         (RES.res_bucket_loop sel rest w u (log ++ [(sel, p)])).varvals,
         (RES.res_bucket_loop sel rest w u (log ++ [(sel, p)])).usable,
         (RES.res_bucket_loop sel rest w u (log ++ [(sel, p)])).log,
         (RES.res_bucket_loop sel rest w u (log ++ [(sel, p)])).ok⟩
      | .clause d =>
        ⟨(if RES.ordered_subsumed d p then none else some p) ::
          (RES.res_bucket_loop sel rest
            (if d.length = 1 then RES.store_to_varvals w d.headI else w)
            (RES.store_to_usable d u) (log ++ [(sel, p)])).bucket,
         (RES.res_bucket_loop sel rest
            (if d.length = 1 then RES.store_to_varvals w d.headI else w)
            (RES.store_to_usable d u) (log ++ [(sel, p)])).varvals,
         (RES.res_bucket_loop sel rest
            (if d.length = 1 then RES.store_to_varvals w d.headI else w)
            (RES.store_to_usable d u) (log ++ [(sel, p)])).usable,
         (RES.res_bucket_loop sel rest
            (if d.length = 1 then RES.store_to_varvals w d.headI else w)
            (RES.store_to_usable d u) (log ++ [(sel, p)])).log,
         (RES.res_bucket_loop sel rest
            (if d.length = 1 then RES.store_to_varvals w d.headI else w)
            (RES.store_to_usable d u) (log ++ [(sel, p)])).ok⟩ := rfl

theorem res_bucket_loop_spec (sel : List Int) (P : List Int → Prop)
    (hsel : hornClause sel) :
    ∀ (bucket : List (Option (List Int))) (w : I32)
      (u : List (List (List Int))) (log : List (List Int × List Int)),
    (∀ e ∈ bucket, ∀ c, e = some c → P c ∧ hornClause c ∧
      (sel.length = 1 ∨ c.length = 1)) →
    hornUsable u →
    (∀ q ∈ log, q.1.length = 1 ∨ q.2.length = 1) →
    (∀ q ∈ (RES.res_bucket_loop sel bucket w u log).log,
      q.1.length = 1 ∨ q.2.length = 1) ∧
    hornUsable (RES.res_bucket_loop sel bucket w u log).usable ∧
    (∀ e ∈ (RES.res_bucket_loop sel bucket w u log).bucket, ∀ c,
      e = some c → P c ∧ hornClause c ∧ (sel.length = 1 ∨ c.length = 1))
    := by
  intro bucket
  induction bucket with
  | nil =>
    intro w u log hb hu hlog
    rw [rbl_nil]
    exact ⟨hlog, hu, fun e he c hec => absurd he (List.not_mem_nil e)⟩
  | cons e0 rest ih =>
    intro w u log hb hu hlog
    have hbrest : ∀ e ∈ rest, ∀ c, e = some c → P c ∧ hornClause c ∧
        (sel.length = 1 ∨ c.length = 1) :=
      fun e he => hb e (List.mem_cons_of_mem e0 he)
    cases e0 with
    | none =>
      rw [rbl_none]
      obtain ⟨h1, h2, h3⟩ := ih w u log hbrest hu hlog
      refine ⟨h1, h2, ?_⟩
      intro e he c hec
      rcases List.mem_cons.mp he with he1 | he2
      · subst he1
        exact Option.noConfusion hec
      · exact h3 e he2 c hec
    | some p =>
      obtain ⟨hP, hphorn, hpu⟩ := hb (some p) (List.mem_cons_self _ rest)
        p rfl
      have hlog1 : ∀ q ∈ log ++ [(sel, p)],
          q.1.length = 1 ∨ q.2.length = 1 := by
        intro q hq
        rcases List.mem_append.mp hq with hq1 | hq2
        · exact hlog q hq1
        · rw [List.mem_singleton.mp hq2]
          exact hpu
      rw [rbl_some]
      cases hm : RES.merge_rest sel p 0 0 w with
      | empty =>
        refine ⟨hlog1, hu, ?_⟩
        intro e he c hec
        rcases List.mem_cons.mp he with he1 | he2
        · subst he1
          have : p = c := by injection hec
          subst this
          exact ⟨hP, hphorn, hpu⟩
        · exact hbrest e he2 c hec
      | taut =>
        obtain ⟨h1, h2, h3⟩ := ih w u (log ++ [(sel, p)]) hbrest hu hlog1
        refine ⟨h1, h2, ?_⟩
        intro e he c hec
        rcases List.mem_cons.mp he with he1 | he2
        · subst he1
          have : p = c := by injection hec
          subst this
          exact ⟨hP, hphorn, hpu⟩
        · exact h3 e he2 c hec
      | clause d =>
        have hdh : hornClause d := merge_clause_horn sel p w d hsel hphorn
          hpu hm
        obtain ⟨h1, h2, h3⟩ := ih
          (if d.length = 1 then RES.store_to_varvals w d.headI else w)
          (RES.store_to_usable d u) (log ++ [(sel, p)]) hbrest
          (store_to_usable_horn hdh hu) hlog1
        refine ⟨h1, h2, ?_⟩
        intro e he c hec
        rcases List.mem_cons.mp he with he1 | he2
        · subst he1
          by_cases hsub : RES.ordered_subsumed d p
          · rw [if_pos hsub] at hec
            exact Option.noConfusion hec
          · rw [if_neg hsub] at hec
            have : p = c := by injection hec
            subst this
            exact ⟨hP, hphorn, hpu⟩
        · exact h3 e he2 c hec

theorem store_to_processed_cons (lit : Int) (stail : List Int)
    (processed : List (List Int)) (posb negb : RES.PBuckets) :
    RES.store_to_processed (lit :: stail) processed posb negb =
      (processed ++ [lit :: stail],
       (if lit < 0 then posb
        else RES.bpush posb (lvar lit) (some (lit :: stail))),
       (if lit < 0 then RES.bpush negb (lvar lit) (some (lit :: stail))
        else negb)) := by
  show (if lit < 0 then
      (processed ++ [lit :: stail], posb,
        RES.bpush negb (lvar lit) (some (lit :: stail)))
    else
      (processed ++ [lit :: stail],
        RES.bpush posb (lvar lit) (some (lit :: stail)), negb)) = _
  by_cases hl : lit < 0
  · rw [if_pos hl, if_pos hl, if_pos hl]
  · rw [if_neg hl, if_neg hl, if_neg hl]

theorem after_pick_spec (st1 : RES.RState) (sl : Int) (stail : List Int)
    (hg : hornClause (sl :: stail))
    (hu : hornUsable st1.usable)
    (hbk : hornBuckets st1.posb st1.negb)
    (hlog : ∀ q ∈ st1.log, q.1.length = 1 ∨ q.2.length = 1) :
    (∀ q ∈ (RES.after_pick st1 (sl :: stail) sl).2.log,
      q.1.length = 1 ∨ q.2.length = 1) ∧
    hornUsable (RES.after_pick st1 (sl :: stail) sl).2.usable ∧
    hornBuckets (RES.after_pick st1 (sl :: stail) sl).2.posb
      (RES.after_pick st1 (sl :: stail) sl).2.negb := by
  have hslnz : sl ≠ 0 := hg.2.2.2 sl (List.mem_cons_self sl stail)
  by_cases hsl : sl < 0
  · have hBent : ∀ e ∈ (st1.posb.get? (lvar sl)).getD [], ∀ c,
        e = some c → 0 < c.headI ∧ hornClause c ∧
        ((sl :: stail).length = 1 ∨ c.length = 1) := by
      intro e he c hec
      have hq := buckets_getD
        (fun e => ∀ c, e = some c → hornClause c ∧ 0 < c.headI)
        st1.posb (lvar sl) hbk.1 e he c hec
      exact ⟨hq.2, hq.1, Or.inr (horn_head_unit hq.1 hq.2)⟩
    have hspec := res_bucket_loop_spec (sl :: stail)
      (fun c => 0 < c.headI) hg ((st1.posb.get? (lvar sl)).getD [])
      st1.varvals st1.usable st1.log hBent hu hlog
    have hposb2 : ∀ bb ∈ st1.posb.set (lvar sl)
        (RES.res_bucket_loop (sl :: stail)
          ((st1.posb.get? (lvar sl)).getD [])
          st1.varvals st1.usable st1.log).bucket, ∀ e ∈ bb, ∀ c,
        e = some c → hornClause c ∧ 0 < c.headI := by
      apply buckets_set _ _ _ _ hbk.1
      intro e he c hec
      have hq := hspec.2.2 e he c hec
      exact ⟨hq.2.1, hq.1⟩
    unfold RES.after_pick
    simp only [if_pos hsl]
    by_cases hok : (RES.res_bucket_loop (sl :: stail)
        ((st1.posb.get? (lvar sl)).getD [])
        st1.varvals st1.usable st1.log).ok = true
    · rw [if_pos hok, store_to_processed_cons, if_pos hsl, if_pos hsl]
      refine ⟨hspec.1, hspec.2.1, ?_, ?_⟩
      · exact hposb2
      · show ∀ bb ∈ RES.bpush st1.negb (lvar sl) (some (sl :: stail)),
          ∀ e ∈ bb, ∀ c, e = some c → hornClause c ∧ c.headI < 0
        apply bpush_buckets _ _ _ _ hbk.2
        intro c hec
        have : sl :: stail = c := by injection hec
        subst this
        exact ⟨hg, hsl⟩
    · rw [if_neg hok]
      exact ⟨hspec.1, hspec.2.1, hposb2, hbk.2⟩
  · have hslpos : (0 : Int) < sl := by omega
    have hselu : (sl :: stail).length = 1 := horn_head_unit hg hslpos
    have hBent : ∀ e ∈ (st1.negb.get? (lvar sl)).getD [], ∀ c,
        e = some c → c.headI < 0 ∧ hornClause c ∧
        ((sl :: stail).length = 1 ∨ c.length = 1) := by
      intro e he c hec
      have hq := buckets_getD
        (fun e => ∀ c, e = some c → hornClause c ∧ c.headI < 0)
        st1.negb (lvar sl) hbk.2 e he c hec
      exact ⟨hq.2, hq.1, Or.inl hselu⟩
    have hspec := res_bucket_loop_spec (sl :: stail)
      (fun c => c.headI < 0) hg ((st1.negb.get? (lvar sl)).getD [])
      st1.varvals st1.usable st1.log hBent hu hlog
    have hnegb2 : ∀ bb ∈ st1.negb.set (lvar sl)
        (RES.res_bucket_loop (sl :: stail)
          ((st1.negb.get? (lvar sl)).getD [])
          st1.varvals st1.usable st1.log).bucket, ∀ e ∈ bb, ∀ c,
        e = some c → hornClause c ∧ c.headI < 0 := by
      apply buckets_set _ _ _ _ hbk.2
      intro e he c hec
      have hq := hspec.2.2 e he c hec
      exact ⟨hq.2.1, hq.1⟩
    unfold RES.after_pick
    simp only [if_neg hsl]
    by_cases hok : (RES.res_bucket_loop (sl :: stail)
        ((st1.negb.get? (lvar sl)).getD [])
        st1.varvals st1.usable st1.log).ok = true
    · rw [if_pos hok, store_to_processed_cons, if_neg hsl, if_neg hsl]
      refine ⟨hspec.1, hspec.2.1, ?_, ?_⟩
      · show ∀ bb ∈ RES.bpush st1.posb (lvar sl) (some (sl :: stail)),
          ∀ e ∈ bb, ∀ c, e = some c → hornClause c ∧ 0 < c.headI
        apply bpush_buckets _ _ _ _ hbk.1
        intro c hec
        have : sl :: stail = c := by injection hec
        subst this
        exact ⟨hg, hslpos⟩
      · exact hnegb2
    · rw [if_neg hok]
      exact ⟨hspec.1, hspec.2.1, hbk.1, hnegb2⟩

theorem res_loop_zero (st : RES.RState) : RES.res_loop 0 st = none := rfl

theorem res_loop_succ (fuel : Nat) (st : RES.RState) :
    RES.res_loop (fuel + 1) st =
      match RES.pick_selected st.usable with
      | none => some (true, st)
      | some (selected, u1) =>
        match RES.preprocess_clause selected st.varvals st.posb st.negb
          with
        | .contradiction => some (false, { st with usable := u1 })
        | .subsumed => RES.res_loop fuel { st with usable := u1 }
        | .kept sel =>
          match sel with
          | [] => some (false, { st with usable := u1 })
          | sl :: _ =>
            if (RES.after_pick { st with usable := u1 } sel sl).1 then
              RES.res_loop fuel
                (RES.after_pick { st with usable := u1 } sel sl).2
            else
              some (false,
                (RES.after_pick { st with usable := u1 } sel sl).2) := rfl

theorem res_loop_spec :
    ∀ (fuel : Nat) (st : RES.RState) (b : Bool) (stF : RES.RState),
    hornUsable st.usable → hornBuckets st.posb st.negb →
    (∀ q ∈ st.log, q.1.length = 1 ∨ q.2.length = 1) →
    RES.res_loop fuel st = some (b, stF) →
    ∀ q ∈ stF.log, q.1.length = 1 ∨ q.2.length = 1 := by
  intro fuel
  induction fuel with
  | zero =>
    intro st b stF _ _ _ h
    rw [res_loop_zero] at h
    exact Option.noConfusion h
  | succ fuel ih =>
    intro st b stF hu hbk hlog h
    rw [res_loop_succ] at h
    cases hpick : RES.pick_selected st.usable with
    | none =>
      rw [hpick] at h
      replace h : some (true, st) = some (b, stF) := h
      have hst : st = stF := congrArg Prod.snd (Option.some.inj h)
      rw [← hst]
      exact hlog
    | some su =>
      obtain ⟨selected, u1⟩ := su
      rw [hpick] at h
      obtain ⟨hselg, hu1⟩ := pick_selected_spec hpick hu
      replace h : (match RES.preprocess_clause selected st.varvals
          st.posb st.negb with
        | .contradiction => some (false, { st with usable := u1 })
        | .subsumed => RES.res_loop fuel { st with usable := u1 }
        | .kept sel =>
          match sel with
          | [] => some (false, { st with usable := u1 })
          | sl :: _ =>
            if (RES.after_pick { st with usable := u1 } sel sl).1 then
              RES.res_loop fuel
                (RES.after_pick { st with usable := u1 } sel sl).2
            else
              some (false,
                (RES.after_pick { st with usable := u1 } sel sl).2))
          = some (b, stF) := h
      cases hpp : RES.preprocess_clause selected st.varvals st.posb
          st.negb with
      | contradiction =>
        rw [hpp] at h
        replace h : some (false, { st with usable := u1 })
            = some (b, stF) := h
        have hst : ({ st with usable := u1 } : RES.RState) = stF :=
          congrArg Prod.snd (Option.some.inj h)
        rw [← hst]
        exact hlog
      | subsumed =>
        rw [hpp] at h
        exact ih { st with usable := u1 } b stF hu1 hbk hlog h
      | kept sel =>
        rw [hpp] at h
        have hselg2 : hornClause sel := by
          rcases preprocess_kept selected st.varvals st.posb st.negb sel
            hpp with he | ⟨hs, hne⟩
          · rw [he]
            exact hselg
          · exact hornClause_of_sublist hs hne hselg
        cases sel with
        | nil =>
          replace h : some (false, { st with usable := u1 })
              = some (b, stF) := h
          have hst : ({ st with usable := u1 } : RES.RState) = stF :=
            congrArg Prod.snd (Option.some.inj h)
          rw [← hst]
          exact hlog
        | cons sl stail =>
          replace h : (if (RES.after_pick { st with usable := u1 }
                (sl :: stail) sl).1 then
              RES.res_loop fuel
                (RES.after_pick { st with usable := u1 } (sl :: stail)
                  sl).2
            else
              some (false,
                (RES.after_pick { st with usable := u1 } (sl :: stail)
                  sl).2)) = some (b, stF) := h
          have hap := after_pick_spec { st with usable := u1 } sl stail
            hselg2 hu1 hbk hlog
          by_cases hok : (RES.after_pick { st with usable := u1 }
              (sl :: stail) sl).1 = true
          · replace h : RES.res_loop fuel
                (RES.after_pick { st with usable := u1 } (sl :: stail)
                  sl).2 = some (b, stF) := by
              rw [if_pos hok] at h
              exact h
            exact ih _ b stF hap.2.1 hap.2.2 hap.1 h
          · replace h : some (false,
                (RES.after_pick { st with usable := u1 } (sl :: stail)
                  sl).2) = some (b, stF) := by
              rw [if_neg hok] at h
              exact h
            simp only [Option.some.injEq, Prod.mk.injEq] at h
            obtain ⟨-, hst⟩ := h
            rw [← hst]
            exact hap.1

theorem first_pass_horn :
    ∀ (cs : List (List Int)) (w : I32) (u : List (List (List Int)))
      (w1 : I32) (u1 : List (List (List Int))),
    (∀ c ∈ cs, ∀ l ∈ c, l ≠ 0) → hornUsable u →
    RES.first_pass cs w u = some (w1, u1) → hornUsable u1 := by
  intro cs
  induction cs with
  | nil =>
    intro w u w1 u1 _ hu h
    have := Option.some.inj h
    have hu1 : u = u1 := congrArg Prod.snd this
    rw [← hu1]
    exact hu
  | cons c rest ih =>
    intro w u w1 u1 hnz hu h
    have hnzr : ∀ c' ∈ rest, ∀ l ∈ c', l ≠ 0 :=
      fun c' hc' => hnz c' (List.mem_cons_of_mem c hc')
    cases c with
    | nil =>
      replace h : RES.first_pass rest w u = some (w1, u1) := h
      exact ih w u w1 u1 hnzr hu h
    | cons lit tail =>
      replace h : (if (lit :: tail).length ≠ 1 then
          RES.first_pass rest w u
        else if w.get? (lvar lit) ≠ some 0 then
          (if w.get? (lvar lit) = some (lsign lit) then
            RES.first_pass rest w u
          else none)
        else RES.first_pass rest (RES.store_to_varvals w lit)
          (RES.store_to_usable (lit :: tail) u)) = some (w1, u1) := h
      by_cases hlen : (lit :: tail).length ≠ 1
      · rw [if_pos hlen] at h
        exact ih w u w1 u1 hnzr hu h
      · rw [if_neg hlen] at h
        by_cases h1 : w.get? (lvar lit) ≠ some 0
        · rw [if_pos h1] at h
          by_cases h2 : w.get? (lvar lit) = some (lsign lit)
          · rw [if_pos h2] at h
            exact ih w u w1 u1 hnzr hu h
          · rw [if_neg h2] at h
            exact Option.noConfusion h
        · rw [if_neg h1] at h
          have htail : tail = [] := by
            simp at hlen
            exact List.length_eq_zero.mp (by simpa using hlen)
          subst htail
          have hcg : hornClause (lit :: []) := by
            refine ⟨List.cons_ne_nil lit [], List.sorted_singleton lit,
              ?_, ?_⟩
            · rw [List.countP_cons]
              by_cases hp : (0 : Int) < lit
              · simp [hp]
              · simp [hp]
            · intro l hl
              rw [List.mem_singleton.mp hl]
              exact hnz (lit :: []) (List.mem_cons_self _ rest) lit
                (List.mem_cons_self lit [])
          exact ih (RES.store_to_varvals w lit)
            (RES.store_to_usable (lit :: []) u) w1 u1 hnzr
            (store_to_usable_horn hcg hu) h

theorem second_pass_horn :
    ∀ (cs : List (List Int)) (w : I32) (u : List (List (List Int)))
      (u2 : List (List (List Int))),
    (∀ c ∈ cs, (∀ l ∈ c, l ≠ 0) ∧ c.countP (fun l => 0 < l) ≤ 1) →
    hornUsable u → RES.second_pass cs w u = some u2 → hornUsable u2 := by
  intro cs
  induction cs with
  | nil =>
    intro w u u2 _ hu h
    have : u = u2 := Option.some.inj h
    rw [← this]
    exact hu
  | cons c rest ih =>
    intro w u u2 hh hu h
    rw [show RES.second_pass (c :: rest) w u =
      (if c.length < 2 then RES.second_pass rest w u
       else if RES.tautology c then RES.second_pass rest w u
       else match RES.pre_preprocess_clause
           (RES.quick_sort_in_place c) w [] with
       | .contradiction => none
       | .subsumed => RES.second_pass rest w u
       | .kept c2 => RES.second_pass rest w (RES.store_to_usable c2 u))
      from rfl] at h
    have hhr : ∀ c' ∈ rest, (∀ l ∈ c', l ≠ 0) ∧
        c'.countP (fun l => 0 < l) ≤ 1 :=
      fun c' hc' => hh c' (List.mem_cons_of_mem c hc')
    by_cases hlen : c.length < 2
    · rw [if_pos hlen] at h
      exact ih w u u2 hhr hu h
    · rw [if_neg hlen] at h
      by_cases htaut : RES.tautology c = true
      · rw [if_pos htaut] at h
        exact ih w u u2 hhr hu h
      · rw [if_neg htaut] at h
        have hcs : hornClause (RES.quick_sort_in_place c) := by
          refine hornClause_sorted c ?_ (hh c (List.mem_cons_self c rest)).2
            (hh c (List.mem_cons_self c rest)).1
          intro he
          rw [he] at hlen
          simp at hlen
        cases hpp : RES.pre_preprocess_clause
            (RES.quick_sort_in_place c) w [] with
        | contradiction => rw [hpp] at h; exact Option.noConfusion h
        | subsumed =>
          rw [hpp] at h
          exact ih w u u2 hhr hu h
        | kept c2 =>
          rw [hpp] at h
          have hc2 : hornClause c2 := by
            rcases pre_preprocess_kept (RES.quick_sort_in_place c) w []
              c2 hpp with he | ⟨hs, hne⟩
            · rw [he]; exact hcs
            · exact hornClause_of_sublist hs hne hcs
          exact ih w (RES.store_to_usable c2 u) u2 hhr
            (store_to_usable_horn hc2 hu) h

/-- C4: on a horn input (every clause has at most one positive literal,
    literals are nonzero) every resolution step the optimized resolution
    engine performs — every `merge_rest` call of the main loop, recorded
    in the embedding's step log as (selected clause, processed clause) —
    has a unit parent: no performed step resolves two clauses of length
    greater than one.  Structurally: the search keeps every clause
    sorted, so a horn clause with a positive first literal is a positive
    unit; the processed buckets on the positive side therefore hold only
    units, and a selected clause with a negative first literal meets only
    those, while a selected clause with a positive first literal is
    itself a unit. -/
theorem C4_horn_unit_resolution (clauses : List (List Int)) (n fuel : Nat)
    (v : Verdict) (log : List (List Int × List Int))
    (hnz : ∀ c ∈ clauses, ∀ l ∈ c, l ≠ 0)
    (hhorn : ∀ c ∈ clauses, c.countP (fun l => 0 < l) ≤ 1)
    (h : RES.resolution clauses (some n) fuel = some (v, log)) :
    ∀ q ∈ log, q.1.length = 1 ∨ q.2.length = 1 := by
  replace h : (match RES.first_pass clauses (I32.mk0 (n + 1))
      (List.replicate 100 []) with
    | none => some (Verdict.unsat, [])
    | some (w1, u1) =>
      match RES.second_pass clauses w1 u1 with
      | none => some (Verdict.unsat, [])
      | some u2 =>
        match RES.res_loop fuel
            { varvals := w1, usable := u2, processed := [],
              posb := List.replicate (n + 1) [],
              negb := List.replicate (n + 1) [], log := [] } with
        | none => none
        | some (true, stF) =>
          some ((if (RES.result_model stF.varvals).isEmpty then
              Verdict.satMarker
            else Verdict.model (RES.result_model stF.varvals)), stF.log)
        | some (false, stF) => some (Verdict.unsat, stF.log))
      = some (v, log) := h
  have hu0 : hornUsable (List.replicate 100
      ([] : List (List Int))) := by
    intro b hb c hc
    rw [List.eq_of_mem_replicate hb] at hc
    exact absurd hc (List.not_mem_nil c)
  cases hfp : RES.first_pass clauses (I32.mk0 (n + 1))
      (List.replicate 100 []) with
  | none =>
    rw [hfp] at h
    have hlog : ([] : List (List Int × List Int)) = log :=
      congrArg Prod.snd (Option.some.inj h)
    rw [← hlog]
    intro q hq
    exact absurd hq (List.not_mem_nil q)
  | some wu =>
    obtain ⟨w1, u1⟩ := wu
    rw [hfp] at h
    replace h : (match RES.second_pass clauses w1 u1 with
      | none => some (Verdict.unsat, [])
      | some u2 =>
        match RES.res_loop fuel
            { varvals := w1, usable := u2, processed := [],
              posb := List.replicate (n + 1) [],
              negb := List.replicate (n + 1) [], log := [] } with
        | none => none
        | some (true, stF) =>
          some ((if (RES.result_model stF.varvals).isEmpty then
              Verdict.satMarker
            else Verdict.model (RES.result_model stF.varvals)), stF.log)
        | some (false, stF) => some (Verdict.unsat, stF.log))
        = some (v, log) := h
    have hu1 : hornUsable u1 := first_pass_horn clauses (I32.mk0 (n + 1))
      (List.replicate 100 []) w1 u1 hnz hu0 hfp
    cases hsp : RES.second_pass clauses w1 u1 with
    | none =>
      rw [hsp] at h
      have hlog : ([] : List (List Int × List Int)) = log :=
        congrArg Prod.snd (Option.some.inj h)
      rw [← hlog]
      intro q hq
      exact absurd hq (List.not_mem_nil q)
    | some u2 =>
      rw [hsp] at h
      replace h : (match RES.res_loop fuel
          { varvals := w1, usable := u2, processed := [],
            posb := List.replicate (n + 1) [],
            negb := List.replicate (n + 1) [], log := [] } with
        | none => none
        | some (true, stF) =>
          some ((if (RES.result_model stF.varvals).isEmpty then
              Verdict.satMarker
            else Verdict.model (RES.result_model stF.varvals)), stF.log)
        | some (false, stF) => some (Verdict.unsat, stF.log))
          = some (v, log) := h
      have hu2 : hornUsable u2 := second_pass_horn clauses w1 u1 u2
        (fun c hc => ⟨hnz c hc, hhorn c hc⟩) hu1 hsp
      have hbk0 : hornBuckets (List.replicate (n + 1) [])
          (List.replicate (n + 1) []) := by
        constructor <;>
          · intro b hb e he
            rw [List.eq_of_mem_replicate hb] at he
            exact absurd he (List.not_mem_nil e)
      cases hrl : RES.res_loop fuel
          { varvals := w1, usable := u2, processed := [],
            posb := List.replicate (n + 1) [],
            negb := List.replicate (n + 1) [], log := [] } with
      | none => rw [hrl] at h; exact Option.noConfusion h
      | some bst =>
        obtain ⟨bres, stF⟩ := bst
        rw [hrl] at h
        have hspec := res_loop_spec fuel
          { varvals := w1, usable := u2, processed := [],
            posb := List.replicate (n + 1) [],
            negb := List.replicate (n + 1) [], log := [] } bres stF hu2
          hbk0 (fun q hq => absurd hq (List.not_mem_nil q)) hrl
        cases bres with
        | true =>
          replace h : some ((if (RES.result_model stF.varvals).isEmpty
              then Verdict.satMarker
              else Verdict.model (RES.result_model stF.varvals)),
              stF.log) = some (v, log) := h
          have hlog : stF.log = log :=
            congrArg Prod.snd (Option.some.inj h)
          rw [← hlog]
          exact hspec
        | false =>
          replace h : some (Verdict.unsat, stF.log) = some (v, log) := h
          have hlog : stF.log = log :=
            congrArg Prod.snd (Option.some.inj h)
          rw [← hlog]
          exact hspec

/-- C4 witness: the theorem applied to the horn clause set
    [[1],[-1,2],[-4,-3],[-2,-3],[-2,4]] over four variables, whose run
    returns the model [1,2,-3,4] after one main-loop resolution step,
    recorded in the log as the pair (selected [4], processed [-4,-3]):
    the selected parent of that step is a unit. -/
theorem C4_horn_unit_resolution_witness :
    (([4], [-4, -3]) : List Int × List Int).1.length = 1 ∨
    (([4], [-4, -3]) : List Int × List Int).2.length = 1 :=
  C4_horn_unit_resolution [[1], [-1, 2], [-4, -3], [-2, -3], [-2, 4]] 4 20
    (Verdict.model [1, 2, -3, 4]) [([4], [-4, -3])]
    (by decide) (by decide) (by decide) ([4], [-4, -3]) (by decide)

/-! ### Watched-literal invariant: basic literal and assignment lemmas -/

theorem lvar_neg (l : Int) : lvar (-l) = lvar l := Int.natAbs_neg l

theorem lsign_neg {l : Int} (h : l ≠ 0) : lsign (-l) = -(lsign l) := by
  unfold lsign
  by_cases hl : l < 0
  · rw [if_pos hl, if_neg (by omega)]
    norm_num
  · rw [if_neg hl, if_pos (by omega)]

theorem wTrue_neg {w : I32} {p : Int} (hp : p ≠ 0) (h : wTrue w p) :
    wFalse w (-p) := by
  unfold wFalse
  rw [lvar_neg, lsign_neg hp, neg_neg]
  exact h

theorem I32.set_oob {a : I32} {i : Nat} (h : ¬ i < a.data.length) (v : Int) :
    a.set i v = a := by
  apply I32.ext_get?
  intro n
  by_cases hn : i = n
  · subst hn
    have h1 : (a.data.set i v).get? i = none :=
      List.get?_eq_none.mpr (by rw [List.length_set]; omega)
    have h2 : a.data.get? i = none := List.get?_eq_none.mpr (by omega)
    show (a.data.set i v).get? i = a.data.get? i
    rw [h1, h2]
  · exact I32.get?_set_other a i n v hn

theorem wFalse_set_rev {w : I32} {v : Nat} {x : Int} {l : Int}
    (h : wFalse (w.set v x) l) :
    wFalse w l ∨ (lvar l = v ∧ x = -(lsign l)) := by
  by_cases hv : lvar l = v
  · by_cases hlen : v < w.data.length
    · right
      refine ⟨hv, ?_⟩
      unfold wFalse at h
      rw [hv, I32.get?_set_self w v x hlen] at h
      exact Option.some.inj h
    · left
      rwa [I32.set_oob hlen] at h
  · left
    unfold wFalse at h ⊢
    rwa [I32.get?_set_other w v (lvar l) x (fun he => hv he.symm)] at h

theorem lvar_eq_zero {l : Int} (h : lvar l = 0) : l = 0 :=
  Int.natAbs_eq_zero.mp h

theorem wFalse_set_lit {w : I32} {p l : Int} (hp : p ≠ 0)
    (hnew : wFalse (w.set (lvar p) (lsign p)) l) (hold : ¬ wFalse w l) :
    l = -p := by
  rcases wFalse_set_rev hnew with h | ⟨hv, hx⟩
  · exact absurd h hold
  · have hlz : l ≠ 0 := by
      intro h0
      subst h0
      have hp0 : lvar p = 0 := by
        have : lvar (0 : Int) = lvar p := hv
        simpa [lvar] using this.symm
      exact hp (lvar_eq_zero hp0)
    have habs : l.natAbs = p.natAbs := by
      have : lvar l = lvar p := hv
      exact this
    rcases Int.natAbs_eq_natAbs_iff.mp habs with he | he
    · exfalso
      subst he
      have := hx
      rcases lsign_cases l with h1 | h1 <;> rw [h1] at this <;> omega
    · exact he

theorem wTrue_set_keep {w : I32} {v : Nat} {x p : Int}
    (hv : w.get? v = some 0) (h : wTrue w p) : wTrue (w.set v x) p := by
  unfold wTrue at h ⊢
  have hne : v ≠ lvar p := by
    intro he
    subst he
    rw [h] at hv
    exact lsign_ne_zero p (Option.some.inj hv)
  rw [I32.get?_set_other w v (lvar p) x hne]
  exact h

theorem wSat_set_keep {w : I32} {v : Nat} {x : Int} {c : List Int}
    (hv : w.get? v = some 0) (h : wSat w c) : wSat (w.set v x) c := by
  obtain ⟨l, hm, ht⟩ := h
  exact ⟨l, hm, wTrue_set_keep hv ht⟩

theorem VExt_unass {w0 : I32} {vs : List Nat} {w : I32} (h : VExt w0 vs w)
    {v : Nat} (hv : w.get? v = some 0) : w0.get? v = some 0 := by
  by_cases hm : v ∈ vs
  · exact h.2.1 v hm
  · rw [← h.2.2 v hm]
    exact hv

theorem not_wFalse_of_unass {w : I32} {l : Int}
    (h : w.get? (lvar l) = some 0) : ¬ wFalse w l := by
  intro hf
  unfold wFalse at hf
  rw [h] at hf
  have h2 := Option.some.inj hf
  have h3 := lsign_ne_zero l
  omega

theorem ne_of_unass_false {w : I32} {a b : Int}
    (ha : w.get? (lvar a) = some 0) (hb : wFalse w b) : a ≠ b := by
  intro he
  subst he
  exact not_wFalse_of_unass ha hb

theorem wBLit_self {l : Int} (h : l ≠ 0) :
    wBLit (decide (0 < l)) (lvar l) = l := by
  unfold wBLit
  by_cases hp : 0 < l
  · rw [decide_eq_true hp, if_pos rfl]
    show ((l.natAbs : Nat) : Int) = l
    omega
  · rw [decide_eq_false hp, if_neg (by decide)]
    show -((l.natAbs : Nat) : Int) = l
    omega

theorem wBLit_inj {p : Bool} {v : Nat} {l : Int} (hl : l ≠ 0)
    (h : wBLit p v = l) : p = decide (0 < l) ∧ v = lvar l := by
  cases p with
  | true =>
    have hv : (v : Int) = l := h
    have hp : 0 < l := by omega
    constructor
    · rw [decide_eq_true hp]
    · show v = l.natAbs
      omega
  | false =>
    have hv : -(v : Int) = l := h
    have hp : ¬ 0 < l := by omega
    constructor
    · rw [decide_eq_false hp]
    · show v = l.natAbs
      omega

theorem wBLit_ne_zero {p : Bool} {v : Nat} (h : v ≠ 0) :
    wBLit p v ≠ 0 := by
  cases p with
  | true =>
    show (v : Int) ≠ 0
    omega
  | false =>
    show -(v : Int) ≠ 0
    omega

theorem wSat_body_eq {w : I32} {c1 c2 : List Int}
    (h : c1.drop 2 = c2.drop 2) : wSat w c1 ↔ wSat w c2 := by
  unfold wSat
  rw [h]

theorem wClause_set_self {s : List (List Int)} {cid : Nat}
    (h : cid < s.length) (x : List Int) : wClause (s.set cid x) cid = x := by
  unfold wClause
  rw [List.get?_set_eq_of_lt x h]
  rfl

theorem wClause_set_other {s : List (List Int)} {cid cid' : Nat}
    (h : cid ≠ cid') (x : List Int) :
    wClause (s.set cid x) cid' = wClause s cid' := by
  unfold wClause
  rw [List.get?_set_ne x s h]

theorem wWatch_set_self {c : List Int} {slot : Nat} (h : slot < c.length)
    (x : Int) : wWatch (c.set slot x) slot = x := by
  unfold wWatch
  rw [List.get?_set_eq_of_lt x h]
  rfl

theorem wWatch_set_other {c : List Int} {slot k : Nat} (h : slot ≠ k)
    (x : Int) : wWatch (c.set slot x) k = wWatch c k := by
  unfold wWatch
  rw [List.get?_set_ne x c h]

theorem wSEvo_refl (w0 : I32) (s : List (List Int)) : wSEvo w0 s s :=
  ⟨rfl, fun _ _ => ⟨rfl, fun _ _ => Or.inl rfl⟩⟩

theorem wSEvo_trans {w0 w1 : I32} {s0 s1 s2 : List (List Int)}
    (h01 : wSEvo w0 s0 s1) (h12 : wSEvo w1 s1 s2)
    (hdown : ∀ v, w1.get? v = some 0 → w0.get? v = some 0) :
    wSEvo w0 s0 s2 := by
  refine ⟨h01.1.trans h12.1, fun cid hlt => ?_⟩
  obtain ⟨hb12, hw12⟩ := h12.2 cid hlt
  have hlt1 : cid < s1.length := by
    have := h12.1
    omega
  obtain ⟨hb01, hw01⟩ := h01.2 cid hlt1
  refine ⟨hb12.trans hb01, fun k hk => ?_⟩
  rcases hw12 k hk with he | hu
  · rw [he]
    exact hw01 k hk
  · exact Or.inr (hdown _ hu)

theorem wInvOn_evo {w0 : I32} {s0 s1 : List (List Int)}
    (hinv : wInvOn w0 s0) (hevo : wSEvo w0 s0 s1) : wInvOn w0 s1 := by
  intro cid hlt hsat
  obtain ⟨hlen, hcl⟩ := hevo
  have hlt0 : cid < s0.length := by omega
  obtain ⟨hbody, hw⟩ := hcl cid hlt
  have hsat0 : ¬ wSat w0 (wClause s0 cid) :=
    fun hs => hsat ((wSat_body_eq hbody).mpr hs)
  have h0 := hinv cid hlt0 hsat0
  constructor
  · rcases hw 0 (by omega) with he | hu
    · rw [he]
      exact h0.1
    · exact not_wFalse_of_unass hu
  · rcases hw 1 (by omega) with he | hu
    · rw [he]
      exact h0.2
    · exact not_wFalse_of_unass hu

/-! ### Watched-literal invariant: body-scan characterizations -/

theorem dpll_wscan_sat (w : I32) :
    ∀ (body : List Int) (cnt : Nat) (ulit : Int),
    DPLL.wscan w body cnt ulit = .satisfied →
    ∃ l, l ∈ body ∧ wTrue w l := by
  intro body
  induction body with
  | nil =>
    intro cnt ulit h
    rw [dpll_wscan_nil] at h
    by_cases hc : cnt = 0
    · rw [if_pos hc] at h
      exact DPLL.ScanRes.noConfusion h
    · rw [if_neg hc] at h
      exact DPLL.ScanRes.noConfusion h
  | cons x rest ih =>
    intro cnt ulit h
    rw [dpll_wscan_cons] at h
    by_cases h1 : w.get? (lvar x) = some 0
    · rw [if_pos h1] at h
      by_cases h2 : cnt > 0
      · rw [if_pos h2] at h
        exact DPLL.ScanRes.noConfusion h
      · rw [if_neg h2] at h
        obtain ⟨l, hm, ht⟩ := ih 1 x h
        exact ⟨l, List.mem_cons_of_mem x hm, ht⟩
    · rw [if_neg h1] at h
      by_cases h2 : w.get? (lvar x) = some (lsign x)
      · exact ⟨x, List.mem_cons_self x rest, h2⟩
      · rw [if_neg h2] at h
        obtain ⟨l, hm, ht⟩ := ih cnt ulit h
        exact ⟨l, List.mem_cons_of_mem x hm, ht⟩

theorem dpll_wscan_move (w : I32) :
    ∀ (body : List Int) (cnt : Nat) (ulit f s : Int),
    (cnt ≠ 0 → w.get? (lvar ulit) = some 0 ∧ ulit ∉ body) →
    body.Nodup →
    DPLL.wscan w body cnt ulit = .move2 f s →
    w.get? (lvar s) = some 0 ∧ s ∈ body ∧ w.get? (lvar f) = some 0 ∧
      (f ∈ body ∨ (cnt ≠ 0 ∧ f = ulit)) ∧ f ≠ s := by
  intro body
  induction body with
  | nil =>
    intro cnt ulit f s _ _ h
    rw [dpll_wscan_nil] at h
    by_cases hc : cnt = 0
    · rw [if_pos hc] at h
      exact DPLL.ScanRes.noConfusion h
    · rw [if_neg hc] at h
      exact DPLL.ScanRes.noConfusion h
  | cons x rest ih =>
    intro cnt ulit f s hu hnd h
    rw [dpll_wscan_cons] at h
    by_cases h1 : w.get? (lvar x) = some 0
    · rw [if_pos h1] at h
      by_cases h2 : cnt > 0
      · rw [if_pos h2] at h
        obtain ⟨hf, hs⟩ := DPLL.ScanRes.move2.inj h
        obtain ⟨huu, hun⟩ := hu (by omega)
        rw [← hf, ← hs]
        refine ⟨h1, List.mem_cons_self x rest, huu,
          Or.inr ⟨by omega, rfl⟩, ?_⟩
        intro he
        refine hun ?_
        rw [he]
        exact List.mem_cons_self x rest
      · rw [if_neg h2] at h
        have hnd' := List.nodup_cons.mp hnd
        obtain ⟨hs0, hsm, hf0, hfm, hfs⟩ :=
          ih 1 x f s (fun _ => ⟨h1, hnd'.1⟩) hnd'.2 h
        refine ⟨hs0, List.mem_cons_of_mem x hsm, hf0, ?_, hfs⟩
        rcases hfm with hm | ⟨_, hfe⟩
        · exact Or.inl (List.mem_cons_of_mem x hm)
        · subst hfe
          exact Or.inl (List.mem_cons_self f rest)
    · rw [if_neg h1] at h
      by_cases h2 : w.get? (lvar x) = some (lsign x)
      · rw [if_pos h2] at h
        exact DPLL.ScanRes.noConfusion h
      · rw [if_neg h2] at h
        have hu' : cnt ≠ 0 → w.get? (lvar ulit) = some 0 ∧ ulit ∉ rest := by
          intro hc
          obtain ⟨ha, hb⟩ := hu hc
          exact ⟨ha, fun hm => hb (List.mem_cons_of_mem x hm)⟩
        obtain ⟨hs0, hsm, hf0, hfm, hfs⟩ :=
          ih cnt ulit f s hu' (List.nodup_cons.mp hnd).2 h
        refine ⟨hs0, List.mem_cons_of_mem x hsm, hf0, ?_, hfs⟩
        rcases hfm with hm | hr
        · exact Or.inl (List.mem_cons_of_mem x hm)
        · exact Or.inr hr

/-! ### Watched-literal invariant: bucket access lemmas -/

theorem dpll_setB_acts (st : DPLL.DState) (isPos : Bool) (v : Nat)
    (b : DPLL.Bucket) : (DPLL.setB st isPos v b).acts = st.acts := by
  unfold DPLL.setB
  cases isPos
  · rw [if_neg (by decide)]
  · rw [if_pos rfl]

theorem wBkts_setB_same (st : DPLL.DState) (isPos : Bool) (v : Nat)
    (b : DPLL.Bucket) :
    wBkts (DPLL.setB st isPos v b) isPos = (wBkts st isPos).set v b := by
  cases isPos
  · show wBkts { st with negb := st.negb.set v b } false = _
    rfl
  · show wBkts { st with posb := st.posb.set v b } true = _
    rfl

theorem wBkts_setB_other (st : DPLL.DState) (isPos : Bool) (v : Nat)
    (b : DPLL.Bucket) :
    wBkts (DPLL.setB st isPos v b) (!isPos) = wBkts st (!isPos) := by
  cases isPos
  · show wBkts { st with negb := st.negb.set v b } true = _
    rfl
  · show wBkts { st with posb := st.posb.set v b } false = _
    rfl

theorem wBkts_len_setB (st : DPLL.DState) (isPos : Bool) (v : Nat)
    (b : DPLL.Bucket) (p : Bool) :
    (wBkts (DPLL.setB st isPos v b) p).length = (wBkts st p).length := by
  cases isPos <;> cases p <;>
    simp [wBkts, DPLL.setB, List.length_set]

theorem dpll_getB_wBkts (st : DPLL.DState) (isPos : Bool) (v : Nat) :
    DPLL.getB st isPos v = ((wBkts st isPos).get? v).getD ⟨0, []⟩ := by
  unfold DPLL.getB wBkts
  cases isPos
  · rfl
  · rfl

theorem dpll_getB_setB_same (st : DPLL.DState) (isPos : Bool) (v : Nat)
    (b : DPLL.Bucket) (h : v < (wBkts st isPos).length) :
    DPLL.getB (DPLL.setB st isPos v b) isPos v = b := by
  rw [dpll_getB_wBkts, wBkts_setB_same]
  rw [List.get?_set_eq_of_lt b h]
  rfl

theorem dpll_getB_setB_ne (st : DPLL.DState) {isPos isPos' : Bool}
    {v v' : Nat} (b : DPLL.Bucket) (h : isPos ≠ isPos' ∨ v ≠ v') :
    DPLL.getB (DPLL.setB st isPos v b) isPos' v' = DPLL.getB st isPos' v' := by
  by_cases hp : isPos = isPos'
  · subst hp
    have hv : v ≠ v' := by
      rcases h with hh | hh
      · exact absurd rfl hh
      · exact hh
    rw [dpll_getB_wBkts, wBkts_setB_same, dpll_getB_wBkts]
    rw [List.get?_set_ne b (wBkts st isPos) hv]
  · have hp' : isPos' = !isPos := by
      cases isPos <;> cases isPos'
      · exact absurd rfl hp
      · rfl
      · rfl
      · exact absurd rfl hp
    subst hp'
    rw [dpll_getB_wBkts, wBkts_setB_other, dpll_getB_wBkts]

theorem pad_set_get?_self {l : List (Option Nat)} {i : Nat}
    (h : i ≤ l.length) (x : Option Nat) :
    (DPLL.pad_set l i x).get? i = some x := by
  unfold DPLL.pad_set
  by_cases hlt : i < l.length
  · rw [if_pos hlt]
    exact List.get?_set_eq_of_lt x hlt
  · rw [if_neg hlt]
    have hi : i = l.length := by omega
    subst hi
    have hrep : List.replicate (l.length - l.length) (none : Option Nat)
        = [] := by
      rw [Nat.sub_self]
      rfl
    rw [hrep, List.append_nil]
    exact List.get?_concat_length l x

theorem pad_set_get?_lt {l : List (Option Nat)} {i j : Nat}
    (h : j < l.length) (hne : j ≠ i) (x : Option Nat) :
    (DPLL.pad_set l i x).get? j = l.get? j := by
  unfold DPLL.pad_set
  by_cases hlt : i < l.length
  · rw [if_pos hlt]
    exact List.get?_set_ne x l (fun he => hne he.symm)
  · rw [if_neg hlt]
    rw [List.get?_append (by rw [List.length_append, List.length_replicate]; omega)]
    rw [List.get?_append h]

theorem pad_set_length_succ {l : List (Option Nat)} {i : Nat}
    (h : i ≤ l.length) (x : Option Nat) :
    i + 1 ≤ (DPLL.pad_set l i x).length := by
  unfold DPLL.pad_set
  by_cases hlt : i < l.length
  · rw [if_pos hlt, List.length_set]
    omega
  · rw [if_neg hlt]
    rw [List.length_append, List.length_append, List.length_replicate]
    simp only [List.length_singleton]
    omega

/-! ### Watched-literal invariant: watch-move analysis -/

theorem decide_nonneg_pos {l : Int} (h : l ≠ 0) :
    (decide (¬ l < 0)) = decide (0 < l) := by
  by_cases hp : l < 0
  · rw [decide_eq_false (by omega), decide_eq_false (by omega)]
  · rw [decide_eq_true (by omega), decide_eq_true (by omega)]

theorem wBkts_len_eq {st : DPLL.DState} (hwf : wWF st) (p : Bool) :
    (wBkts st p).length = st.varvals.data.length := by
  cases p
  · exact hwf.2.1
  · exact hwf.1

theorem dpll_getB_store (st : DPLL.DState) (s' : List (List Int))
    (p : Bool) (v : Nat) :
    DPLL.getB { st with store := s' } p v = DPLL.getB st p v := rfl

theorem wBkts_store (st : DPLL.DState) (s' : List (List Int)) (p : Bool) :
    wBkts { st with store := s' } p = wBkts st p := rfl

theorem dpll_setB_store_keep (st : DPLL.DState) (isPos : Bool) (v : Nat)
    (b : DPLL.Bucket) : (DPLL.setB st isPos v b).store = st.store :=
  dpll_setB_store st isPos v b

theorem wSEvo_single {w : I32} {s : List (List Int)} {cid : Nat}
    (hcid : cid < s.length) {slot : Nat} (hs2 : slot < 2)
    {newlit : Int} (hun : w.get? (lvar newlit) = some 0) :
    wSEvo w s (s.set cid ((wClause s cid).set slot newlit)) := by
  refine ⟨(List.length_set s cid _).symm, fun cid' hlt' => ?_⟩
  rw [List.length_set] at hlt'
  by_cases hc : cid = cid'
  · subst hc
    rw [wClause_set_self hcid]
    refine ⟨drop2_set _ _ _ hs2, fun k hk => ?_⟩
    by_cases hks : slot = k
    · subst hks
      by_cases hlen : slot < (wClause s cid).length
      · rw [wWatch_set_self hlen]
        exact Or.inr hun
      · have hsame : (wClause s cid).set slot newlit = wClause s cid :=
          List.set_eq_of_length_le (by omega)
        rw [hsame]
        exact Or.inl rfl
    · rw [wWatch_set_other hks]
      exact Or.inl rfl
  · rw [wClause_set_other hc]
    exact ⟨rfl, fun _ _ => Or.inl rfl⟩

theorem dpll_move_watch_eq (st : DPLL.DState) (negdlit : Int) (isPos : Bool)
    (bvar i cid : Nat) (f s : Int) :
    DPLL.move_watch st negdlit isPos bvar i cid f s =
      (let c := wClause st.store cid
       let newlit := if wWatch c 0 = negdlit then
           (if s = wWatch c 1 then f else s)
         else (if s = wWatch c 0 then f else s)
       let slot : Nat := if wWatch c 0 = negdlit then 0 else 1
       let st2 : DPLL.DState :=
         { st with store := st.store.set cid (c.set slot newlit) }
       let tp : Bool := decide (¬ newlit < 0)
       let tb := DPLL.getB st2 tp (lvar newlit)
       let st3 := DPLL.setB st2 tp (lvar newlit)
         ⟨tb.used + 1, DPLL.pad_set tb.entries tb.used (some cid)⟩
       let bcur := DPLL.getB st3 isPos bvar
       DPLL.setB st3 isPos bvar
         ⟨bcur.used - 1,
          bcur.entries.set (i - 1)
            ((bcur.entries.get? (bcur.used - 1)).getD none)⟩) := rfl

theorem wWF_storeOk {st : DPLL.DState} (hwf : wWF st) : wStoreOk st :=
  hwf.2.2.1

theorem wWF_distinct {st : DPLL.DState} (hwf : wWF st) : wDistinct st :=
  hwf.2.2.2.1

theorem wWF_bucketOk {st : DPLL.DState} (hwf : wWF st) (p : Bool) :
    wBucketOk st p := by
  cases p
  · exact hwf.2.2.2.2.2.1
  · exact hwf.2.2.2.2.1

theorem wWF_linked {st : DPLL.DState} (hwf : wWF st) : wLinked st :=
  hwf.2.2.2.2.2.2

theorem lit_eq_of_key {a b : Int} (ha : a ≠ 0) (hb : b ≠ 0)
    (hp : decide (0 < a) = decide (0 < b)) (hv : lvar a = lvar b) : a = b := by
  have h1 := wBLit_self ha
  have h2 := wBLit_self hb
  rw [← h1, ← h2, hp, hv]

theorem two_lt_length_of_mem_drop2 {c : List Int} {l : Int}
    (h : l ∈ c.drop 2) : 2 < c.length := by
  by_contra hle
  rw [List.drop_eq_nil_of_le (by omega)] at h
  exact absurd h (List.not_mem_nil l)


theorem swap_entries_get_ne (E : List (Option Nat)) (u i : Nat)
    (j : Nat) (hji : j ≠ i - 1) :
    (E.set (i - 1) ((E.get? (u - 1)).getD none)).get? j = E.get? j :=
  List.get?_set_ne _ _ (fun hx => hji hx.symm)

theorem swap_entries_get_hit (E : List (Option Nat)) (u i : Nat)
    (hu : u ≤ E.length) (h1 : 1 ≤ i) (hiu : i ≤ u) :
    (E.set (i - 1) ((E.get? (u - 1)).getD none)).get? (i - 1)
      = E.get? (u - 1) := by
  rw [List.get?_set_eq_of_lt _ (by omega)]
  cases hEu : E.get? (u - 1) with
  | none =>
    exfalso
    have h2 := List.get?_eq_none.mp hEu
    omega
  | some x => rfl

theorem dpll_mw_core (st st2 st3 st4 : DPLL.DState) (negdlit : Int)
    (pending : List Int) (cid slot i : Nat) (newlit other : Int)
    (hwf : wWF st)
    (hfd : wFalse st.varvals negdlit)
    (hnd0 : negdlit ≠ 0)
    (hcid : cid < st.store.length)
    (hslot : slot < 2)
    (hstale : wWatch (wClause st.store cid) slot = negdlit)
    (hother : other = wWatch (wClause st.store cid) (1 - slot))
    (hnl_un : st.varvals.get? (lvar newlit) = some 0)
    (hnl_mem : newlit ∈ (wClause st.store cid).drop 2)
    (hnl_no : newlit ≠ other)
    (hi1 : 1 ≤ i)
    (hiu : i ≤ (DPLL.getB st (decide (0 < negdlit)) (lvar negdlit)).used)
    (he : (DPLL.getB st (decide (0 < negdlit)) (lvar negdlit)).entries.get? (i - 1) = some (some cid))
    (hst2 : st2 = { st with
                    store := st.store.set cid
                      ((wClause st.store cid).set slot newlit) })
    (hst3 : st3 = DPLL.setB st2 (decide (0 < newlit)) (lvar newlit)
      ⟨(DPLL.getB st (decide (0 < newlit)) (lvar newlit)).used + 1,
       DPLL.pad_set (DPLL.getB st (decide (0 < newlit)) (lvar newlit)).entries (DPLL.getB st (decide (0 < newlit)) (lvar newlit)).used (some cid)⟩)
    (hst4 : st4 = DPLL.setB st3 (decide (0 < negdlit)) (lvar negdlit)
      ⟨(DPLL.getB st (decide (0 < negdlit)) (lvar negdlit)).used - 1,
       (DPLL.getB st (decide (0 < negdlit)) (lvar negdlit)).entries.set (i - 1)
         (((DPLL.getB st (decide (0 < negdlit)) (lvar negdlit)).entries.get? ((DPLL.getB st (decide (0 < negdlit)) (lvar negdlit)).used - 1)).getD none)⟩) :
    wWF st4 ∧ wSEvo st.varvals st.store st4.store ∧
    st4.varvals = st.varvals ∧
    (wBCover st (decide (0 < negdlit)) (lvar negdlit) negdlit i pending →
      wBCover st4 (decide (0 < negdlit)) (lvar negdlit) negdlit i pending)
    := by
  have hbvar_lt : lvar negdlit < st.varvals.data.length :=
    I32.get?_lt_length hfd
  obtain ⟨hnod, hblit⟩ := wWF_storeOk hwf cid hcid
  have hnl_nz : newlit ≠ 0 := (hblit newlit hnl_mem).1
  have hnl_lt : lvar newlit < st.varvals.data.length :=
    (hblit newlit hnl_mem).2
  have hnl_ne_negd : newlit ≠ negdlit := ne_of_unass_false hnl_un hfd
  have hvar_ne : lvar newlit ≠ lvar negdlit := by
    intro heq
    rw [heq] at hnl_un
    have h1 := hnl_un.symm.trans hfd
    have h2 := Option.some.inj h1
    have h3 := lsign_ne_zero negdlit
    omega
  have hclen : 2 < (wClause st.store cid).length := two_lt_length_of_mem_drop2 hnl_mem
  have hother_ne_negd : other ≠ negdlit := by
    intro heq
    have hs01 : slot = 0 ∨ slot = 1 := by omega
    have heq01 : wWatch (wClause st.store cid) 0 = wWatch (wClause st.store cid) 1 := by
      rcases hs01 with h0 | h1
      · rw [h0] at hstale
        have h2 : wWatch (wClause st.store cid) 1 = negdlit := by
          rw [← heq, hother, h0]
        rw [hstale, h2]
      · rw [h1] at hstale
        have h2 : wWatch (wClause st.store cid) 0 = negdlit := by
          rw [← heq, hother, h1]
        rw [hstale, h2]
    have hz := wWF_distinct hwf cid hcid heq01
    rcases hs01 with h0 | h1
    · rw [h0] at hstale
      rw [hstale] at hz
      exact hnd0 hz
    · rw [h1] at hstale
      rw [heq01, hstale] at hz
      exact hnd0 hz
  have hbkB : lvar negdlit < (wBkts st (decide (0 < negdlit))).length := by
    rw [wBkts_len_eq hwf]
    exact hbvar_lt
  have hbkT : lvar newlit < (wBkts st (decide (0 < newlit))).length := by
    rw [wBkts_len_eq hwf]
    exact hnl_lt
  obtain ⟨hBlen, hBval, hBuniq⟩ := wWF_bucketOk hwf (decide (0 < negdlit))
  obtain ⟨hTlen, hTval, hTuniq⟩ := wWF_bucketOk hwf (decide (0 < newlit))
  have hBlen2 := hBlen (lvar negdlit) hbkB
  have hTlen2 := hTlen (lvar newlit) hbkT
  have hblB : wBLit (decide (0 < negdlit)) (lvar negdlit) = negdlit :=
    wBLit_self hnd0
  have hblT : wBLit (decide (0 < newlit)) (lvar newlit) = newlit :=
    wBLit_self hnl_nz
  have hwatch_of : ∀ k, k < 2 → wWatch (wClause st.store cid) k = negdlit ∨
      wWatch (wClause st.store cid) k = other := by
    intro k hk
    by_cases hks : slot = k
    · rw [← hks]
      exact Or.inl hstale
    · right
      rw [hother]
      have h2 : 1 - slot = k := by omega
      rw [h2]
  have hBuniq2 := hBuniq (lvar negdlit) hbkB
  have hTuniq2 := hTuniq (lvar newlit) hbkT
  have hBval2 := hBval (lvar negdlit) hbkB
  have hTval2 := hTval (lvar newlit) hbkT
  have hnotinT : ∀ j, j < (DPLL.getB st (decide (0 < newlit)) (lvar newlit)).used →
      (DPLL.getB st (decide (0 < newlit)) (lvar newlit)).entries.get? j ≠ some (some cid) := by
    intro j hj hentry
    obtain ⟨cid2, hcid2, hget2, hw2⟩ := hTval2 j hj
    rw [hget2] at hentry
    have hcc : cid2 = cid := Option.some.inj (Option.some.inj hentry)
    subst hcc
    rw [hblT] at hw2
    rcases hw2 with hw0 | hw1
    · rcases hwatch_of 0 (by omega) with ha | ha
      · rw [hw0] at ha
        exact hnl_ne_negd ha
      · rw [hw0] at ha
        exact hnl_no ha
    · rcases hwatch_of 1 (by omega) with ha | ha
      · rw [hw1] at ha
        exact hnl_ne_negd ha
      · rw [hw1] at ha
        exact hnl_no ha
  have hnot_cid : ∀ j, j < (DPLL.getB st (decide (0 < negdlit)) (lvar negdlit)).used → j ≠ i - 1 →
      (DPLL.getB st (decide (0 < negdlit)) (lvar negdlit)).entries.get? j ≠ some (some cid) := by
    intro j hj hji hget
    exact hji (hBuniq2 j hj (i - 1) (by omega) (by rw [hget, he]))
  have hs2store : st2.store = st.store.set cid ((wClause st.store cid).set slot newlit) := by
    rw [hst2]
  have hs2var : st2.varvals = st.varvals := by
    rw [hst2]
  have hs4store : st4.store = st.store.set cid ((wClause st.store cid).set slot newlit) := by
    rw [hst4, dpll_setB_store, hst3, dpll_setB_store, hs2store]
  have hs4var : st4.varvals = st.varvals := by
    rw [hst4, dpll_setB_varvals, hst3, dpll_setB_varvals, hs2var]
  have hs4len : st4.store.length = st.store.length := by
    rw [hs4store, List.length_set]
  have hC : wClause st4.store cid = (wClause st.store cid).set slot newlit := by
    rw [hs4store]
    exact wClause_set_self hcid _
  have hCother : ∀ cid2, cid2 ≠ cid →
      wClause st4.store cid2 = wClause st.store cid2 := by
    intro cid2 hne
    rw [hs4store]
    exact wClause_set_other (fun hx => hne hx.symm) _
  have hslot_len : slot < (wClause st.store cid).length := by omega
  have hWslot : wWatch (wClause st4.store cid) slot = newlit := by
    rw [hC]
    exact wWatch_set_self hslot_len newlit
  have hWother : wWatch (wClause st4.store cid) (1 - slot) = other := by
    rw [hC, wWatch_set_other (by omega), hother]
  have hWk : ∀ k, k ≠ slot →
      wWatch (wClause st4.store cid) k = wWatch (wClause st.store cid) k := by
    intro k hks
    rw [hC, wWatch_set_other (fun hx => hks hx.symm)]
  have hbk2 : ∀ p, (wBkts st2 p).length = (wBkts st p).length := by
    intro p
    rw [hst2]
    rfl
  have hbk3 : ∀ p, (wBkts st3 p).length = (wBkts st p).length := by
    intro p
    rw [hst3, wBkts_len_setB, hbk2]
  have hgwalk : DPLL.getB st4 (decide (0 < negdlit)) (lvar negdlit)
      = ⟨(DPLL.getB st (decide (0 < negdlit)) (lvar negdlit)).used - 1,
         (DPLL.getB st (decide (0 < negdlit)) (lvar negdlit)).entries.set (i - 1)
           (((DPLL.getB st (decide (0 < negdlit)) (lvar negdlit)).entries.get? ((DPLL.getB st (decide (0 < negdlit)) (lvar negdlit)).used - 1)).getD none)⟩ := by
    rw [hst4]
    exact dpll_getB_setB_same st3 _ _ _ (by rw [hbk3]; exact hbkB)
  have hgtarg : DPLL.getB st4 (decide (0 < newlit)) (lvar newlit)
      = ⟨(DPLL.getB st (decide (0 < newlit)) (lvar newlit)).used + 1,
         DPLL.pad_set (DPLL.getB st (decide (0 < newlit)) (lvar newlit)).entries (DPLL.getB st (decide (0 < newlit)) (lvar newlit)).used (some cid)⟩ := by
    rw [hst4, dpll_getB_setB_ne st3 _ (Or.inr (fun hx => hvar_ne hx.symm)),
      hst3]
    have h2 := dpll_getB_setB_same st2 (decide (0 < newlit)) (lvar newlit)
      ⟨(DPLL.getB st (decide (0 < newlit)) (lvar newlit)).used + 1,
       DPLL.pad_set (DPLL.getB st (decide (0 < newlit)) (lvar newlit)).entries (DPLL.getB st (decide (0 < newlit)) (lvar newlit)).used (some cid)⟩
      (by rw [hbk2]; exact hbkT)
    rw [h2]
  have hgother : ∀ p v,
      (p ≠ decide (0 < negdlit) ∨ v ≠ lvar negdlit) →
      (p ≠ decide (0 < newlit) ∨ v ≠ lvar newlit) →
      DPLL.getB st4 p v = DPLL.getB st p v := by
    intro p v h1 h2
    rw [hst4, dpll_getB_setB_ne st3 _
      (by
        rcases h1 with hx | hx
        · exact Or.inl (fun hy => hx hy.symm)
        · exact Or.inr (fun hy => hx hy.symm)), hst3,
      dpll_getB_setB_ne st2 _
      (by
        rcases h2 with hx | hx
        · exact Or.inl (fun hy => hx hy.symm)
        · exact Or.inr (fun hy => hx hy.symm)), hst2]
    rfl
  have hbk4 : ∀ p, (wBkts st4 p).length = (wBkts st p).length := by
    intro p
    rw [hst4, wBkts_len_setB, hbk3]
  have hzone : ∀ p v,
      (p = decide (0 < negdlit) ∧ v = lvar negdlit) ∨
      (p = decide (0 < newlit) ∧ v = lvar newlit) ∨
      (¬ (p = decide (0 < negdlit) ∧ v = lvar negdlit) ∧
       ¬ (p = decide (0 < newlit) ∧ v = lvar newlit) ∧
       DPLL.getB st4 p v = DPLL.getB st p v) := by
    intro p v
    by_cases hB : p = decide (0 < negdlit) ∧ v = lvar negdlit
    · exact Or.inl hB
    · by_cases hT : p = decide (0 < newlit) ∧ v = lvar newlit
      · exact Or.inr (Or.inl hT)
      · refine Or.inr (Or.inr ⟨hB, hT, hgother p v ?_ ?_⟩)
        · by_cases h1 : p = decide (0 < negdlit)
          · exact Or.inr (fun hv => hB ⟨h1, hv⟩)
          · exact Or.inl h1
        · by_cases h1 : p = decide (0 < newlit)
          · exact Or.inr (fun hv => hT ⟨h1, hv⟩)
          · exact Or.inl h1
  refine ⟨?_, ?_, hs4var, ?_⟩
  · -- well-formedness of the post-move state
    have hbok4 : ∀ p, wBucketOk st4 p := by
      intro p
      refine ⟨?_, ?_, ?_⟩
      · intro v hv
        rw [hbk4] at hv
        rcases hzone p v with ⟨hp, hvv⟩ | ⟨hp, hvv⟩ | ⟨hzb, hzt, hsame⟩
        · subst hp
          subst hvv
          rw [hgwalk]
          show (DPLL.getB st (decide (0 < negdlit)) (lvar negdlit)).used - 1 ≤ ((DPLL.getB st (decide (0 < negdlit)) (lvar negdlit)).entries.set (i - 1)
            (((DPLL.getB st (decide (0 < negdlit)) (lvar negdlit)).entries.get? ((DPLL.getB st (decide (0 < negdlit)) (lvar negdlit)).used - 1)).getD none)).length
          rw [List.length_set]
          omega
        · subst hp
          subst hvv
          rw [hgtarg]
          exact pad_set_length_succ hTlen2 (some cid)
        · rw [hsame]
          exact (wWF_bucketOk hwf p).1 v hv
      · intro v hv j hj
        rw [hbk4] at hv
        rcases hzone p v with ⟨hp, hvv⟩ | ⟨hp, hvv⟩ | ⟨hzb, hzt, hsame⟩
        · subst hp
          subst hvv
          rw [hgwalk] at hj ⊢
          replace hj : j < (DPLL.getB st (decide (0 < negdlit)) (lvar negdlit)).used - 1 := hj
          show ∃ cid2, cid2 < st4.store.length ∧
            ((DPLL.getB st (decide (0 < negdlit)) (lvar negdlit)).entries.set (i - 1)
              (((DPLL.getB st (decide (0 < negdlit)) (lvar negdlit)).entries.get? ((DPLL.getB st (decide (0 < negdlit)) (lvar negdlit)).used - 1)).getD none)).get? j
              = some (some cid2) ∧
            (wWatch (wClause st4.store cid2) 0
              = wBLit (decide (0 < negdlit)) (lvar negdlit) ∨
             wWatch (wClause st4.store cid2) 1
              = wBLit (decide (0 < negdlit)) (lvar negdlit))
          by_cases hji : j = i - 1
          · subst hji
            rw [swap_entries_get_hit (DPLL.getB st (decide (0 < negdlit)) (lvar negdlit)).entries (DPLL.getB st (decide (0 < negdlit)) (lvar negdlit)).used i hBlen2
              hi1 hiu]
            obtain ⟨cidL, hltL, hgetL, hwL⟩ := hBval2 ((DPLL.getB st (decide (0 < negdlit)) (lvar negdlit)).used - 1)
              (by omega)
            have hLne : cidL ≠ cid := by
              intro hx
              subst hx
              exact hnot_cid ((DPLL.getB st (decide (0 < negdlit)) (lvar negdlit)).used - 1) (by omega) (by omega) hgetL
            refine ⟨cidL, by omega, hgetL, ?_⟩
            rw [hCother cidL hLne]
            exact hwL
          · rw [swap_entries_get_ne (DPLL.getB st (decide (0 < negdlit)) (lvar negdlit)).entries (DPLL.getB st (decide (0 < negdlit)) (lvar negdlit)).used i j hji]
            obtain ⟨cid2, hlt2, hget2, hw2⟩ := hBval2 j (by omega)
            have h2ne : cid2 = cid → False := by
              intro hx
              subst hx
              exact hnot_cid j (by omega) hji hget2
            refine ⟨cid2, by omega, hget2, ?_⟩
            rw [hCother cid2 h2ne]
            exact hw2
        · subst hp
          subst hvv
          rw [hgtarg] at hj ⊢
          replace hj : j < (DPLL.getB st (decide (0 < newlit)) (lvar newlit)).used + 1 := hj
          show ∃ cid2, cid2 < st4.store.length ∧
            (DPLL.pad_set (DPLL.getB st (decide (0 < newlit)) (lvar newlit)).entries (DPLL.getB st (decide (0 < newlit)) (lvar newlit)).used (some cid)).get? j
              = some (some cid2) ∧
            (wWatch (wClause st4.store cid2) 0
              = wBLit (decide (0 < newlit)) (lvar newlit) ∨
             wWatch (wClause st4.store cid2) 1
              = wBLit (decide (0 < newlit)) (lvar newlit))
          by_cases hjt : j = (DPLL.getB st (decide (0 < newlit)) (lvar newlit)).used
          · subst hjt
            rw [pad_set_get?_self hTlen2 (some cid)]
            refine ⟨cid, by omega, rfl, ?_⟩
            rw [hblT]
            have hs01 : slot = 0 ∨ slot = 1 := by omega
            rcases hs01 with h0 | h1
            · left
              rw [← h0]
              exact hWslot
            · right
              rw [← h1]
              exact hWslot
          · rw [pad_set_get?_lt (by omega) hjt (some cid)]
            obtain ⟨cid2, hlt2, hget2, hw2⟩ := hTval2 j (by omega)
            have h2ne : cid2 = cid → False := by
              intro hx
              subst hx
              exact hnotinT j (by omega) hget2
            refine ⟨cid2, by omega, hget2, ?_⟩
            rw [hCother cid2 h2ne]
            exact hw2
        · rw [hsame] at hj ⊢
          obtain ⟨cid2, hlt2, hget2, hw2⟩ := (wWF_bucketOk hwf p).2.1 v hv j hj
          by_cases hcc : cid2 = cid
          · subst hcc
            refine ⟨cid2, by omega, hget2, ?_⟩
            rcases hw2 with hw0 | hw1
            · by_cases h0s : 0 = slot
              · exfalso
                rw [← h0s] at hstale
                rw [hstale] at hw0
                exact hzb ⟨(wBLit_inj hnd0 hw0.symm).1,
                  (wBLit_inj hnd0 hw0.symm).2⟩
              · left
                rw [hWk 0 (fun hx => h0s hx)]
                exact hw0
            · by_cases h1s : 1 = slot
              · exfalso
                rw [← h1s] at hstale
                rw [hstale] at hw1
                exact hzb ⟨(wBLit_inj hnd0 hw1.symm).1,
                  (wBLit_inj hnd0 hw1.symm).2⟩
              · right
                rw [hWk 1 (fun hx => h1s hx)]
                exact hw1
          · refine ⟨cid2, by omega, hget2, ?_⟩
            rw [hCother cid2 hcc]
            exact hw2
      · intro v hv j1 hj1 j2 hj2 heq
        rw [hbk4] at hv
        rcases hzone p v with ⟨hp, hvv⟩ | ⟨hp, hvv⟩ | ⟨hzb, hzt, hsame⟩
        · subst hp
          subst hvv
          rw [hgwalk] at hj1 hj2 heq
          replace hj1 : j1 < (DPLL.getB st (decide (0 < negdlit)) (lvar negdlit)).used - 1 := hj1
          replace hj2 : j2 < (DPLL.getB st (decide (0 < negdlit)) (lvar negdlit)).used - 1 := hj2
          replace heq : ((DPLL.getB st (decide (0 < negdlit)) (lvar negdlit)).entries.set (i - 1)
              (((DPLL.getB st (decide (0 < negdlit)) (lvar negdlit)).entries.get? ((DPLL.getB st (decide (0 < negdlit)) (lvar negdlit)).used - 1)).getD none)).get? j1
            = ((DPLL.getB st (decide (0 < negdlit)) (lvar negdlit)).entries.set (i - 1)
              (((DPLL.getB st (decide (0 < negdlit)) (lvar negdlit)).entries.get? ((DPLL.getB st (decide (0 < negdlit)) (lvar negdlit)).used - 1)).getD none)).get? j2
            := heq
          by_cases hj1i : j1 = i - 1
          · by_cases hj2i : j2 = i - 1
            · omega
            · exfalso
              rw [hj1i, swap_entries_get_hit (DPLL.getB st (decide (0 < negdlit)) (lvar negdlit)).entries (DPLL.getB st (decide (0 < negdlit)) (lvar negdlit)).used i
                hBlen2 hi1 hiu,
                swap_entries_get_ne (DPLL.getB st (decide (0 < negdlit)) (lvar negdlit)).entries (DPLL.getB st (decide (0 < negdlit)) (lvar negdlit)).used i j2 hj2i]
                at heq
              have h3 := hBuniq2 ((DPLL.getB st (decide (0 < negdlit)) (lvar negdlit)).used - 1) (by omega) j2 (by omega)
                heq
              omega
          · by_cases hj2i : j2 = i - 1
            · exfalso
              rw [hj2i, swap_entries_get_hit (DPLL.getB st (decide (0 < negdlit)) (lvar negdlit)).entries (DPLL.getB st (decide (0 < negdlit)) (lvar negdlit)).used i
                hBlen2 hi1 hiu,
                swap_entries_get_ne (DPLL.getB st (decide (0 < negdlit)) (lvar negdlit)).entries (DPLL.getB st (decide (0 < negdlit)) (lvar negdlit)).used i j1 hj1i]
                at heq
              have h3 := hBuniq2 j1 (by omega) ((DPLL.getB st (decide (0 < negdlit)) (lvar negdlit)).used - 1) (by omega)
                heq
              omega
            · rw [swap_entries_get_ne (DPLL.getB st (decide (0 < negdlit)) (lvar negdlit)).entries (DPLL.getB st (decide (0 < negdlit)) (lvar negdlit)).used i j1 hj1i,
                swap_entries_get_ne (DPLL.getB st (decide (0 < negdlit)) (lvar negdlit)).entries (DPLL.getB st (decide (0 < negdlit)) (lvar negdlit)).used i j2 hj2i]
                at heq
              exact hBuniq2 j1 (by omega) j2 (by omega) heq
        · subst hp
          subst hvv
          rw [hgtarg] at hj1 hj2 heq
          replace hj1 : j1 < (DPLL.getB st (decide (0 < newlit)) (lvar newlit)).used + 1 := hj1
          replace hj2 : j2 < (DPLL.getB st (decide (0 < newlit)) (lvar newlit)).used + 1 := hj2
          replace heq : (DPLL.pad_set (DPLL.getB st (decide (0 < newlit)) (lvar newlit)).entries (DPLL.getB st (decide (0 < newlit)) (lvar newlit)).used
              (some cid)).get? j1
            = (DPLL.pad_set (DPLL.getB st (decide (0 < newlit)) (lvar newlit)).entries (DPLL.getB st (decide (0 < newlit)) (lvar newlit)).used (some cid)).get? j2
            := heq
          by_cases hj1t : j1 = (DPLL.getB st (decide (0 < newlit)) (lvar newlit)).used
          · by_cases hj2t : j2 = (DPLL.getB st (decide (0 < newlit)) (lvar newlit)).used
            · omega
            · exfalso
              rw [hj1t, pad_set_get?_self hTlen2 (some cid),
                pad_set_get?_lt (by omega) hj2t (some cid)] at heq
              exact hnotinT j2 (by omega) heq.symm
          · by_cases hj2t : j2 = (DPLL.getB st (decide (0 < newlit)) (lvar newlit)).used
            · exfalso
              rw [hj2t, pad_set_get?_self hTlen2 (some cid),
                pad_set_get?_lt (by omega) hj1t (some cid)] at heq
              exact hnotinT j1 (by omega) heq
            · rw [pad_set_get?_lt (by omega) hj1t (some cid),
                pad_set_get?_lt (by omega) hj2t (some cid)] at heq
              exact hTuniq2 j1 (by omega) j2 (by omega) heq
        · rw [hsame] at hj1 hj2 heq
          exact (wWF_bucketOk hwf p).2.2 v hv j1 hj1 j2 hj2 heq
    refine ⟨?_, ?_, ?_, ?_, hbok4 true, hbok4 false, ?_⟩
    · show st4.posb.length = st4.varvals.data.length
      have h1 : st4.posb.length = (wBkts st4 true).length := rfl
      rw [h1, hbk4, hs4var]
      exact wBkts_len_eq hwf true
    · show st4.negb.length = st4.varvals.data.length
      have h1 : st4.negb.length = (wBkts st4 false).length := rfl
      rw [h1, hbk4, hs4var]
      exact wBkts_len_eq hwf false
    · intro cid2 hlt2
      rw [hs4len] at hlt2
      by_cases hcc : cid2 = cid
      · subst hcc
        have hbeq : (wClause st4.store cid2).drop 2
            = (wClause st.store cid2).drop 2 := by
          rw [hC]
          exact drop2_set _ _ _ hslot
        rw [hbeq, hs4var]
        exact wWF_storeOk hwf cid2 hlt2
      · rw [hCother cid2 hcc, hs4var]
        exact wWF_storeOk hwf cid2 hlt2
    · intro cid2 hlt2 heqw
      rw [hs4len] at hlt2
      by_cases hcc : cid2 = cid
      · subst hcc
        exfalso
        have hs01 : slot = 0 ∨ slot = 1 := by omega
        rcases hs01 with h0 | h1
        · rw [h0] at hWslot
          have h1s : wWatch (wClause st4.store cid2) 1 = other := by
            have h2 : (1 : Nat) - slot = 1 := by omega
            rw [← h2]
            exact hWother
          rw [hWslot, h1s] at heqw
          exact hnl_no heqw
        · rw [h1] at hWslot
          have h1s : wWatch (wClause st4.store cid2) 0 = other := by
            have h2 : (1 : Nat) - slot = 0 := by omega
            rw [← h2]
            exact hWother
          rw [hWslot, h1s] at heqw
          exact hnl_no heqw.symm
      · rw [hCother cid2 hcc] at heqw ⊢
        exact wWF_distinct hwf cid2 hlt2 heqw
    · -- forward linkage
      intro cid2 hlt2 k hk hwnz
      rw [hs4len] at hlt2
      by_cases hcc : cid2 = cid
      · subst hcc
        by_cases hks : k = slot
        · subst hks
          rw [hWslot] at hwnz ⊢
          show ∃ j, j < (DPLL.getB st4 (decide (0 < newlit))
              (lvar newlit)).used ∧
            (DPLL.getB st4 (decide (0 < newlit))
              (lvar newlit)).entries.get? j = some (some cid2)
          rw [hgtarg]
          exact ⟨(DPLL.getB st (decide (0 < newlit)) (lvar newlit)).used, Nat.lt_succ_self _,
            pad_set_get?_self hTlen2 (some cid2)⟩
        · have hk1s : k = 1 - slot := by omega
          rw [hk1s] at hwnz ⊢
          rw [hWother] at hwnz ⊢
          have hor : other ≠ 0 := hwnz
          have holdl := wWF_linked hwf cid2 hlt2 (1 - slot) (by omega)
          rw [← hother] at holdl
          obtain ⟨j, hj, hget⟩ := holdl hor
          have hgoth : DPLL.getB st4 (decide (0 < other)) (lvar other)
              = DPLL.getB st (decide (0 < other)) (lvar other) := by
            refine hgother _ _ ?_ ?_
            · by_cases hp1 : decide (0 < other) = decide (0 < negdlit)
              · refine Or.inr (fun hv1 => ?_)
                exact hother_ne_negd (lit_eq_of_key hor hnd0 hp1 hv1)
              · exact Or.inl hp1
            · by_cases hp1 : decide (0 < other) = decide (0 < newlit)
              · refine Or.inr (fun hv1 => ?_)
                exact hnl_no (lit_eq_of_key hor hnl_nz hp1 hv1).symm
              · exact Or.inl hp1
          show ∃ j2, j2 < (DPLL.getB st4 (decide (0 < other))
              (lvar other)).used ∧
            (DPLL.getB st4 (decide (0 < other))
              (lvar other)).entries.get? j2 = some (some cid2)
          rw [hgoth]
          exact ⟨j, hj, hget⟩
      · have hweq : wWatch (wClause st4.store cid2) k
            = wWatch (wClause st.store cid2) k := by
          rw [hCother cid2 hcc]
        rw [hweq] at hwnz ⊢
        obtain ⟨j, hj, hget⟩ := wWF_linked hwf cid2 hlt2 k hk hwnz
        rcases hzone (decide (0 < wWatch (wClause st.store cid2) k))
            (lvar (wWatch (wClause st.store cid2) k)) with
          ⟨hp, hvv⟩ | ⟨hp, hvv⟩ | ⟨hzb, hzt, hsame⟩
        · have hwn : wWatch (wClause st.store cid2) k = negdlit :=
            lit_eq_of_key hwnz hnd0 hp hvv
          show ∃ j2, j2 < (wBucket st4
              (wWatch (wClause st.store cid2) k)).used ∧
            (wBucket st4
              (wWatch (wClause st.store cid2) k)).entries.get? j2
              = some (some cid2)
          rw [hwn] at hj hget ⊢
          show ∃ j2, j2 < (DPLL.getB st4 (decide (0 < negdlit))
              (lvar negdlit)).used ∧
            (DPLL.getB st4 (decide (0 < negdlit))
              (lvar negdlit)).entries.get? j2 = some (some cid2)
          rw [hgwalk]
          replace hj : j < (DPLL.getB st (decide (0 < negdlit)) (lvar negdlit)).used := hj
          replace hget : (DPLL.getB st (decide (0 < negdlit)) (lvar negdlit)).entries.get? j = some (some cid2) := hget
          have hjne : j ≠ i - 1 := by
            intro hx
            rw [hx, he] at hget
            exact hcc (Option.some.inj (Option.some.inj hget)).symm
          by_cases hju : j = (DPLL.getB st (decide (0 < negdlit)) (lvar negdlit)).used - 1
          · refine ⟨i - 1, ?_, ?_⟩
            · show i - 1 < (DPLL.getB st (decide (0 < negdlit)) (lvar negdlit)).used - 1
              omega
            · show ((DPLL.getB st (decide (0 < negdlit)) (lvar negdlit)).entries.set (i - 1)
                (((DPLL.getB st (decide (0 < negdlit)) (lvar negdlit)).entries.get? ((DPLL.getB st (decide (0 < negdlit)) (lvar negdlit)).used - 1)).getD none)).get?
                  (i - 1) = some (some cid2)
              rw [swap_entries_get_hit (DPLL.getB st (decide (0 < negdlit)) (lvar negdlit)).entries (DPLL.getB st (decide (0 < negdlit)) (lvar negdlit)).used i hBlen2
                hi1 hiu, ← hju]
              exact hget
          · refine ⟨j, ?_, ?_⟩
            · show j < (DPLL.getB st (decide (0 < negdlit)) (lvar negdlit)).used - 1
              omega
            · show ((DPLL.getB st (decide (0 < negdlit)) (lvar negdlit)).entries.set (i - 1)
                (((DPLL.getB st (decide (0 < negdlit)) (lvar negdlit)).entries.get? ((DPLL.getB st (decide (0 < negdlit)) (lvar negdlit)).used - 1)).getD none)).get? j
                  = some (some cid2)
              rw [swap_entries_get_ne (DPLL.getB st (decide (0 < negdlit)) (lvar negdlit)).entries (DPLL.getB st (decide (0 < negdlit)) (lvar negdlit)).used i j hjne]
              exact hget
        · have hwn : wWatch (wClause st.store cid2) k = newlit :=
            lit_eq_of_key hwnz hnl_nz hp hvv
          show ∃ j2, j2 < (wBucket st4
              (wWatch (wClause st.store cid2) k)).used ∧
            (wBucket st4
              (wWatch (wClause st.store cid2) k)).entries.get? j2
              = some (some cid2)
          rw [hwn] at hj hget ⊢
          show ∃ j2, j2 < (DPLL.getB st4 (decide (0 < newlit))
              (lvar newlit)).used ∧
            (DPLL.getB st4 (decide (0 < newlit))
              (lvar newlit)).entries.get? j2 = some (some cid2)
          rw [hgtarg]
          replace hj : j < (DPLL.getB st (decide (0 < newlit)) (lvar newlit)).used := hj
          replace hget : (DPLL.getB st (decide (0 < newlit)) (lvar newlit)).entries.get? j = some (some cid2) := hget
          refine ⟨j, ?_, ?_⟩
          · show j < (DPLL.getB st (decide (0 < newlit)) (lvar newlit)).used + 1
            omega
          · show (DPLL.pad_set (DPLL.getB st (decide (0 < newlit)) (lvar newlit)).entries (DPLL.getB st (decide (0 < newlit)) (lvar newlit)).used
                (some cid)).get? j = some (some cid2)
            rw [pad_set_get?_lt (by omega) (by omega) (some cid)]
            exact hget
        · show ∃ j2, j2 < (wBucket st4
              (wWatch (wClause st.store cid2) k)).used ∧
            (wBucket st4
              (wWatch (wClause st.store cid2) k)).entries.get? j2
              = some (some cid2)
          show ∃ j2, j2 < (DPLL.getB st4
              (decide (0 < wWatch (wClause st.store cid2) k))
              (lvar (wWatch (wClause st.store cid2) k))).used ∧
            (DPLL.getB st4
              (decide (0 < wWatch (wClause st.store cid2) k))
              (lvar (wWatch (wClause st.store cid2) k))).entries.get? j2
              = some (some cid2)
          rw [hsame]
          exact ⟨j, hj, hget⟩
  · rw [hs4store]
    exact wSEvo_single hcid hslot hnl_un
  · intro hcov cid2 hlt2 hsat2 k hk hf2
    rw [hs4len] at hlt2
    rw [hs4var] at hsat2 hf2
    by_cases hcc : cid2 = cid
    · subst hcc
      have hbeq : (wClause st4.store cid2).drop 2
          = (wClause st.store cid2).drop 2 := by
        rw [hC]
        exact drop2_set _ _ _ hslot
      have hsat0 : ¬ wSat st.varvals (wClause st.store cid2) :=
        fun hs => hsat2 ((wSat_body_eq hbeq).mpr hs)
      by_cases hks : k = slot
      · exfalso
        rw [hks, hWslot] at hf2
        exact not_wFalse_of_unass hnl_un hf2
      · have hweq := hWk k hks
        rw [hweq] at hf2 ⊢
        rcases hcov cid2 hcid hsat0 k hk hf2 with hpend | ⟨hwneg, _⟩
        · exact Or.inl hpend
        · exfalso
          have hk1s : k = 1 - slot := by omega
          rw [hk1s, ← hother] at hwneg
          exact hother_ne_negd hwneg
    · have hweq : wWatch (wClause st4.store cid2) k
          = wWatch (wClause st.store cid2) k := by
        rw [hCother cid2 hcc]
      have hsat0 : ¬ wSat st.varvals (wClause st.store cid2) := by
        rw [← hCother cid2 hcc]
        exact hsat2
      rw [hweq] at hf2 ⊢
      rcases hcov cid2 hlt2 hsat0 k hk hf2 with hpend | ⟨hwneg, j, hj1, hj2, hget⟩
      · exact Or.inl hpend
      · refine Or.inr ⟨hwneg, ?_⟩
        have hjne : j ≠ i - 1 := by
          intro hx
          rw [hx, he] at hget
          exact hcc (Option.some.inj (Option.some.inj hget)).symm
        rw [hgwalk]
        by_cases hju : j = (DPLL.getB st (decide (0 < negdlit)) (lvar negdlit)).used - 1
        · refine ⟨i - 1, le_refl _, ?_, ?_⟩
          · show i - 1 < (DPLL.getB st (decide (0 < negdlit)) (lvar negdlit)).used - 1
            omega
          · show ((DPLL.getB st (decide (0 < negdlit)) (lvar negdlit)).entries.set (i - 1)
              (((DPLL.getB st (decide (0 < negdlit)) (lvar negdlit)).entries.get? ((DPLL.getB st (decide (0 < negdlit)) (lvar negdlit)).used - 1)).getD none)).get?
                (i - 1) = some (some cid2)
            rw [swap_entries_get_hit (DPLL.getB st (decide (0 < negdlit)) (lvar negdlit)).entries (DPLL.getB st (decide (0 < negdlit)) (lvar negdlit)).used i hBlen2
              hi1 hiu, ← hju]
            exact hget
        · refine ⟨j, hj1, ?_, ?_⟩
          · show j < (DPLL.getB st (decide (0 < negdlit)) (lvar negdlit)).used - 1
            omega
          · show ((DPLL.getB st (decide (0 < negdlit)) (lvar negdlit)).entries.set (i - 1)
              (((DPLL.getB st (decide (0 < negdlit)) (lvar negdlit)).entries.get? ((DPLL.getB st (decide (0 < negdlit)) (lvar negdlit)).used - 1)).getD none)).get? j
                = some (some cid2)
            rw [swap_entries_get_ne (DPLL.getB st (decide (0 < negdlit)) (lvar negdlit)).entries (DPLL.getB st (decide (0 < negdlit)) (lvar negdlit)).used i j hjne]
            exact hget

theorem dpll_move_watch_main (st : DPLL.DState) (negdlit : Int)
    (pending : List Int) (cid i : Nat) (f s : Int)
    (hwf : wWF st)
    (hfd : wFalse st.varvals negdlit)
    (hnd0 : negdlit ≠ 0)
    (hi1 : 1 ≤ i)
    (hiu : i ≤ (DPLL.getB st (decide (0 < negdlit)) (lvar negdlit)).used)
    (he : (DPLL.getB st (decide (0 < negdlit)) (lvar negdlit)).entries.get? (i - 1) = some (some cid))
    (hscan : DPLL.wscan st.varvals ((wClause st.store cid).drop 2) 0 0 = .move2 f s) :
    wWF (DPLL.move_watch st negdlit (decide (0 < negdlit)) (lvar negdlit) i cid f s) ∧ wSEvo st.varvals st.store (DPLL.move_watch st negdlit (decide (0 < negdlit)) (lvar negdlit) i cid f s).store ∧
    (DPLL.move_watch st negdlit (decide (0 < negdlit)) (lvar negdlit) i cid f s).varvals = st.varvals ∧
    (wBCover st (decide (0 < negdlit)) (lvar negdlit) negdlit i pending →
      wBCover (DPLL.move_watch st negdlit (decide (0 < negdlit)) (lvar negdlit) i cid f s) (decide (0 < negdlit)) (lvar negdlit) negdlit i
        pending) := by
  have hbvar_lt : lvar negdlit < st.varvals.data.length :=
    I32.get?_lt_length hfd
  have hbkB : lvar negdlit < (wBkts st (decide (0 < negdlit))).length := by
    rw [wBkts_len_eq hwf]
    exact hbvar_lt
  obtain ⟨cid0, hcid0, hget0, hw00⟩ :=
    (wWF_bucketOk hwf (decide (0 < negdlit))).2.1 (lvar negdlit) hbkB
      (i - 1) (by omega)
  have hcc : cid0 = cid :=
    Option.some.inj (Option.some.inj (hget0.symm.trans he))
  subst hcc
  have hcid : cid0 < st.store.length := hcid0
  have hw0 : wWatch (wClause st.store cid0) 0 = negdlit ∨
      wWatch (wClause st.store cid0) 1 = negdlit := by
    rw [wBLit_self hnd0] at hw00
    exact hw00
  obtain ⟨hnod, hblit⟩ := wWF_storeOk hwf cid0 hcid
  obtain ⟨hs0, hsm, hff0, hfm, hfs⟩ := dpll_wscan_move st.varvals
    ((wClause st.store cid0).drop 2) 0 0 f s (fun h => absurd rfl h)
    hnod hscan
  have hfm2 : f ∈ (wClause st.store cid0).drop 2 := by
    rcases hfm with h | ⟨h, _⟩
    · exact h
    · exact absurd rfl h
  by_cases hw0case : wWatch (wClause st.store cid0) 0 = negdlit

  · -- the stale watch sits in meta slot 0
    have hother : wWatch (wClause st.store cid0) 1 = wWatch (wClause st.store cid0) (1 - 0) := rfl
    have hnl_un : st.varvals.get? (lvar (if s = wWatch (wClause st.store cid0) 1 then f else s)) = some 0 := by
      by_cases hss : s = wWatch (wClause st.store cid0) 1
      · rw [if_pos hss]
        exact hff0
      · rw [if_neg hss]
        exact hs0
    have hnl_mem : (if s = wWatch (wClause st.store cid0) 1 then f else s) ∈ (wClause st.store cid0).drop 2 := by
      by_cases hss : s = wWatch (wClause st.store cid0) 1
      · rw [if_pos hss]
        exact hfm2
      · rw [if_neg hss]
        exact hsm
    have hnl_no : (if s = wWatch (wClause st.store cid0) 1 then f else s) ≠ wWatch (wClause st.store cid0) 1 := by
      by_cases hss : s = wWatch (wClause st.store cid0) 1
      · rw [if_pos hss, ← hss]
        exact hfs
      · rw [if_neg hss]
        exact hss
    have hnl_nz : (if s = wWatch (wClause st.store cid0) 1 then f else s) ≠ 0 := (hblit _ hnl_mem).1
    have hvar_ne : lvar (if s = wWatch (wClause st.store cid0) 1 then f else s) ≠ lvar negdlit := by
      intro heq2
      rw [heq2] at hnl_un
      have h1 := hnl_un.symm.trans hfd
      have h2 := Option.some.inj h1
      have h3 := lsign_ne_zero negdlit
      omega
    have heq : (DPLL.move_watch st negdlit (decide (0 < negdlit)) (lvar negdlit) i cid0 f s) = (DPLL.setB (DPLL.setB { st with store := st.store.set cid0 ((wClause st.store cid0).set 0 (if s = wWatch (wClause st.store cid0) 1 then f else s)) } (decide (0 < (if s = wWatch (wClause st.store cid0) 1 then f else s))) (lvar (if s = wWatch (wClause st.store cid0) 1 then f else s)) ⟨(DPLL.getB st (decide (0 < (if s = wWatch (wClause st.store cid0) 1 then f else s))) (lvar (if s = wWatch (wClause st.store cid0) 1 then f else s))).used + 1, DPLL.pad_set (DPLL.getB st (decide (0 < (if s = wWatch (wClause st.store cid0) 1 then f else s))) (lvar (if s = wWatch (wClause st.store cid0) 1 then f else s))).entries (DPLL.getB st (decide (0 < (if s = wWatch (wClause st.store cid0) 1 then f else s))) (lvar (if s = wWatch (wClause st.store cid0) 1 then f else s))).used (some cid0)⟩) (decide (0 < negdlit)) (lvar negdlit) ⟨(DPLL.getB st (decide (0 < negdlit)) (lvar negdlit)).used - 1, (DPLL.getB st (decide (0 < negdlit)) (lvar negdlit)).entries.set (i - 1) (((DPLL.getB st (decide (0 < negdlit)) (lvar negdlit)).entries.get? ((DPLL.getB st (decide (0 < negdlit)) (lvar negdlit)).used - 1)).getD none)⟩) := by
      rw [dpll_move_watch_eq]
      dsimp only
      rw [if_pos hw0case, if_pos hw0case]
      rw [decide_nonneg_pos hnl_nz]
      rw [dpll_getB_setB_ne _ _ (Or.inr hvar_ne)]
      rfl
    have hcore := dpll_mw_core st { st with store := st.store.set cid0 ((wClause st.store cid0).set 0 (if s = wWatch (wClause st.store cid0) 1 then f else s)) } (DPLL.setB { st with store := st.store.set cid0 ((wClause st.store cid0).set 0 (if s = wWatch (wClause st.store cid0) 1 then f else s)) } (decide (0 < (if s = wWatch (wClause st.store cid0) 1 then f else s))) (lvar (if s = wWatch (wClause st.store cid0) 1 then f else s)) ⟨(DPLL.getB st (decide (0 < (if s = wWatch (wClause st.store cid0) 1 then f else s))) (lvar (if s = wWatch (wClause st.store cid0) 1 then f else s))).used + 1, DPLL.pad_set (DPLL.getB st (decide (0 < (if s = wWatch (wClause st.store cid0) 1 then f else s))) (lvar (if s = wWatch (wClause st.store cid0) 1 then f else s))).entries (DPLL.getB st (decide (0 < (if s = wWatch (wClause st.store cid0) 1 then f else s))) (lvar (if s = wWatch (wClause st.store cid0) 1 then f else s))).used (some cid0)⟩) (DPLL.move_watch st negdlit (decide (0 < negdlit)) (lvar negdlit) i cid0 f s) negdlit pending
      cid0 0 i (if s = wWatch (wClause st.store cid0) 1 then f else s) (wWatch (wClause st.store cid0) 1) hwf hfd hnd0 hcid (by omega)
      hw0case hother hnl_un hnl_mem hnl_no hi1 hiu he rfl rfl heq
    exact hcore


  · -- the stale watch sits in meta slot 1
    have hw1case : wWatch (wClause st.store cid0) 1 = negdlit := by
      rcases hw0 with ha | ha
      · exact absurd ha hw0case
      · exact ha
    have hother : wWatch (wClause st.store cid0) 0 = wWatch (wClause st.store cid0) (1 - 1) := rfl
    have hnl_un : st.varvals.get? (lvar (if s = wWatch (wClause st.store cid0) 0 then f else s)) = some 0 := by
      by_cases hss : s = wWatch (wClause st.store cid0) 0
      · rw [if_pos hss]
        exact hff0
      · rw [if_neg hss]
        exact hs0
    have hnl_mem : (if s = wWatch (wClause st.store cid0) 0 then f else s) ∈ (wClause st.store cid0).drop 2 := by
      by_cases hss : s = wWatch (wClause st.store cid0) 0
      · rw [if_pos hss]
        exact hfm2
      · rw [if_neg hss]
        exact hsm
    have hnl_no : (if s = wWatch (wClause st.store cid0) 0 then f else s) ≠ wWatch (wClause st.store cid0) 0 := by
      by_cases hss : s = wWatch (wClause st.store cid0) 0
      · rw [if_pos hss, ← hss]
        exact hfs
      · rw [if_neg hss]
        exact hss
    have hnl_nz : (if s = wWatch (wClause st.store cid0) 0 then f else s) ≠ 0 := (hblit _ hnl_mem).1
    have hvar_ne : lvar (if s = wWatch (wClause st.store cid0) 0 then f else s) ≠ lvar negdlit := by
      intro heq2
      rw [heq2] at hnl_un
      have h1 := hnl_un.symm.trans hfd
      have h2 := Option.some.inj h1
      have h3 := lsign_ne_zero negdlit
      omega
    have heq : (DPLL.move_watch st negdlit (decide (0 < negdlit)) (lvar negdlit) i cid0 f s) = (DPLL.setB (DPLL.setB { st with store := st.store.set cid0 ((wClause st.store cid0).set 1 (if s = wWatch (wClause st.store cid0) 0 then f else s)) } (decide (0 < (if s = wWatch (wClause st.store cid0) 0 then f else s))) (lvar (if s = wWatch (wClause st.store cid0) 0 then f else s)) ⟨(DPLL.getB st (decide (0 < (if s = wWatch (wClause st.store cid0) 0 then f else s))) (lvar (if s = wWatch (wClause st.store cid0) 0 then f else s))).used + 1, DPLL.pad_set (DPLL.getB st (decide (0 < (if s = wWatch (wClause st.store cid0) 0 then f else s))) (lvar (if s = wWatch (wClause st.store cid0) 0 then f else s))).entries (DPLL.getB st (decide (0 < (if s = wWatch (wClause st.store cid0) 0 then f else s))) (lvar (if s = wWatch (wClause st.store cid0) 0 then f else s))).used (some cid0)⟩) (decide (0 < negdlit)) (lvar negdlit) ⟨(DPLL.getB st (decide (0 < negdlit)) (lvar negdlit)).used - 1, (DPLL.getB st (decide (0 < negdlit)) (lvar negdlit)).entries.set (i - 1) (((DPLL.getB st (decide (0 < negdlit)) (lvar negdlit)).entries.get? ((DPLL.getB st (decide (0 < negdlit)) (lvar negdlit)).used - 1)).getD none)⟩) := by
      rw [dpll_move_watch_eq]
      dsimp only
      rw [if_neg hw0case, if_neg hw0case]
      rw [decide_nonneg_pos hnl_nz]
      rw [dpll_getB_setB_ne _ _ (Or.inr hvar_ne)]
      rfl
    have hcore := dpll_mw_core st { st with store := st.store.set cid0 ((wClause st.store cid0).set 1 (if s = wWatch (wClause st.store cid0) 0 then f else s)) } (DPLL.setB { st with store := st.store.set cid0 ((wClause st.store cid0).set 1 (if s = wWatch (wClause st.store cid0) 0 then f else s)) } (decide (0 < (if s = wWatch (wClause st.store cid0) 0 then f else s))) (lvar (if s = wWatch (wClause st.store cid0) 0 then f else s)) ⟨(DPLL.getB st (decide (0 < (if s = wWatch (wClause st.store cid0) 0 then f else s))) (lvar (if s = wWatch (wClause st.store cid0) 0 then f else s))).used + 1, DPLL.pad_set (DPLL.getB st (decide (0 < (if s = wWatch (wClause st.store cid0) 0 then f else s))) (lvar (if s = wWatch (wClause st.store cid0) 0 then f else s))).entries (DPLL.getB st (decide (0 < (if s = wWatch (wClause st.store cid0) 0 then f else s))) (lvar (if s = wWatch (wClause st.store cid0) 0 then f else s))).used (some cid0)⟩) (DPLL.move_watch st negdlit (decide (0 < negdlit)) (lvar negdlit) i cid0 f s) negdlit pending
      cid0 1 i (if s = wWatch (wClause st.store cid0) 0 then f else s) (wWatch (wClause st.store cid0) 0) hwf hfd hnd0 hcid (by omega)
      hw1case hother hnl_un hnl_mem hnl_no hi1 hiu he rfl rfl heq
    exact hcore


theorem wWF_set_varvals_acts (st : DPLL.DState) (w' : I32) (a' : List Int)
    (hlen : w'.data.length = st.varvals.data.length) (hwf : wWF st) :
    wWF { st with varvals := w', acts := a' } := by
  obtain ⟨h1, h2, h3, h4, h5, h6, h7⟩ := hwf
  refine ⟨?_, ?_, ?_, h4, h5, h6, h7⟩
  · show st.posb.length = w'.data.length
    rw [hlen]
    exact h1
  · show st.negb.length = w'.data.length
    rw [hlen]
    exact h2
  · intro cid hlt
    obtain ⟨hnd, hb⟩ := h3 cid hlt
    refine ⟨hnd, fun l hl => ⟨(hb l hl).1, ?_⟩⟩
    show lvar l < w'.data.length
    rw [hlen]
    exact (hb l hl).2

theorem dpll_ub_iter_winv (bump : Nat → Int) (negdlit : Int)
    {w0 : I32} {store0 : List (List Int)} :
    ∀ (fuel i : Nat) (st : DPLL.DState) (pending allD : List Int)
      (ok : Bool) (st' : DPLL.DState) (pending' allD' : List Int),
    negdlit ≠ 0 →
    1 ≤ i →
    wFalse st.varvals negdlit →
    wWF st →
    wPend st.varvals pending →
    LExt w0 allD st.varvals →
    wSEvo w0 store0 st.store →
    wBCover st (decide (0 < negdlit)) (lvar negdlit) negdlit i pending →
    DPLL.ub_iter bump negdlit (decide (0 < negdlit)) (lvar negdlit) fuel i
      st pending allD = some (ok, st', pending', allD') →
    wWF st' ∧ wSEvo w0 store0 st'.store ∧
    (ok = false → st'.varvals = w0) ∧
    (ok = true → wPend st'.varvals pending' ∧ LExt w0 allD' st'.varvals ∧
      wQCover st' pending') := by
  intro fuel
  induction fuel with
  | zero =>
    intro i st pending allD ok st' pending' allD' _ _ _ _ _ _ _ _ h
    rw [dpll_ub_zero] at h
    exact Option.noConfusion h
  | succ fuel ih =>
    intro i st pending allD ok st' pending' allD' hnd0 hi1 hfd hwf hpend
      hext hsevo hcov h
    rw [dpll_ub_succ] at h
    by_cases hi : i > (DPLL.getB st (decide (0 < negdlit))
        (lvar negdlit)).used
    · rw [if_pos hi] at h
      replace h : some (true, st, pending, allD)
          = some (ok, st', pending', allD') := h
      have hp := Option.some.inj h
      have hok : true = ok := congrArg Prod.fst hp
      have hst : st = st' := congrArg (fun p => p.2.1) hp
      have hpd : pending = pending' := congrArg (fun p => p.2.2.1) hp
      have hallD : allD = allD' := congrArg (fun p => p.2.2.2) hp
      subst hok
      subst hst
      subst hpd
      subst hallD
      refine ⟨hwf, hsevo, fun hf => Bool.noConfusion hf,
        fun _ => ⟨hpend, hext, ?_⟩⟩
      intro cid hlt hsat k hk hf
      rcases hcov cid hlt hsat k hk hf with hp2 | ⟨_, j, hj1, hj2, _⟩
      · exact hp2
      · omega
    · rw [if_neg hi] at h
      have hbvar_lt : lvar negdlit < st.varvals.data.length :=
        I32.get?_lt_length hfd
      have hbkB : lvar negdlit
          < (wBkts st (decide (0 < negdlit))).length := by
        rw [wBkts_len_eq hwf]
        exact hbvar_lt
      obtain ⟨cid, hcidlt, hget, hwB⟩ :=
        (wWF_bucketOk hwf (decide (0 < negdlit))).2.1 (lvar negdlit) hbkB
          (i - 1) (by omega)
      have hec : DPLL.entry_clause st
          ((DPLL.getB st (decide (0 < negdlit))
            (lvar negdlit)).entries.get? (i - 1)) = wClause st.store cid := by
        rw [hget]
        rfl
      cases hws : DPLL.wscan st.varvals
          ((DPLL.entry_clause st
            ((DPLL.getB st (decide (0 < negdlit))
              (lvar negdlit)).entries.get? (i - 1))).drop 2) 0 0 with
      | satisfied =>
        rw [hws] at h
        have hscan2 : DPLL.wscan st.varvals
            ((wClause st.store cid).drop 2) 0 0 = .satisfied := by
          rw [← hec]
          exact hws
        have hsatc : wSat st.varvals (wClause st.store cid) := by
          obtain ⟨l, hm, ht⟩ := dpll_wscan_sat st.varvals _ 0 0 hscan2
          exact ⟨l, hm, ht⟩
        have hcov2 : wBCover st (decide (0 < negdlit)) (lvar negdlit)
            negdlit (i + 1) pending := by
          intro cid2 hlt2 hsat2 k hk hf2
          rcases hcov cid2 hlt2 hsat2 k hk hf2 with hp2 | ⟨hwn, j, hj1, hj2, hget2⟩
          · exact Or.inl hp2
          · by_cases hji : j = i - 1
            · exfalso
              rw [hji, hget] at hget2
              have hcc : cid = cid2 :=
                Option.some.inj (Option.some.inj hget2)
              subst hcc
              exact hsat2 hsatc
            · exact Or.inr ⟨hwn, j, by omega, hj2, hget2⟩
        exact ih (i + 1) st pending allD ok st' pending' allD' hnd0
          (by omega) hfd hwf hpend hext hsevo hcov2 h
      | conflictc =>
        rw [hws] at h
        replace h : some (false,
            { st with
              varvals := I32.zeroVars (allD.map lvar) st.varvals,
              acts := DPLL.bump_acts st.acts
                ((DPLL.entry_clause st
                  ((DPLL.getB st (decide (0 < negdlit))
                    (lvar negdlit)).entries.get? (i - 1))).drop 2)
                (bump st.upcount) }, pending, allD)
            = some (ok, st', pending', allD') := h
        have hp := Option.some.inj h
        have hok : false = ok := congrArg Prod.fst hp
        have hst : ({ st with
              varvals := I32.zeroVars (allD.map lvar) st.varvals,
              acts := DPLL.bump_acts st.acts
                ((DPLL.entry_clause st
                  ((DPLL.getB st (decide (0 < negdlit))
                    (lvar negdlit)).entries.get? (i - 1))).drop 2)
                (bump st.upcount) } : DPLL.DState) = st' :=
          congrArg (fun p => p.2.1) hp
        subst hok
        have hzero : I32.zeroVars (allD.map lvar) st.varvals = w0 :=
          VExt_zeroVars hext.2
        refine ⟨?_, ?_, fun _ => ?_, fun ht => Bool.noConfusion ht⟩
        · rw [← hst]
          refine wWF_set_varvals_acts st _ _ ?_ hwf
          rw [hzero]
          exact hext.2.1.symm
        · rw [← hst]
          exact hsevo
        · rw [← hst]
          exact hzero
      | unitc l =>
        rw [hws] at h
        rcases dpll_wscan_unit st.varvals _ 0 0 l hws with ⟨hc0, _⟩ | ⟨hm, hu⟩
        · exact absurd rfl hc0
        · rw [hec] at hm
          have hlnz : l ≠ 0 := ((wWF_storeOk hwf cid hcidlt).2 l hm).1
          have hllt : lvar l < st.varvals.data.length :=
            ((wWF_storeOk hwf cid hcidlt).2 l hm).2
          have hvne : lvar l ≠ lvar negdlit := by
            intro heq
            rw [heq] at hu
            have h1 := hu.symm.trans hfd
            have h2 := Option.some.inj h1
            have h3 := lsign_ne_zero negdlit
            omega
          have hfd2 : wFalse (st.varvals.set (lvar l) (lsign l)) negdlit := by
            unfold wFalse
            rw [I32.get?_set_other _ _ _ _ hvne]
            exact hfd
          have hwf2 : wWF { st with
              varvals := st.varvals.set (lvar l) (lsign l) } := by
            have h2 := wWF_set_varvals_acts st
              (st.varvals.set (lvar l) (lsign l)) st.acts
              (I32.length_set _ _ _) hwf
            exact h2
          have hpend2 : wPend (st.varvals.set (lvar l) (lsign l))
              (pending ++ [l]) := by
            intro p hp2
            rcases List.mem_append.mp hp2 with hp3 | hp3
            · exact ⟨(hpend p hp3).1, wTrue_set_keep hu (hpend p hp3).2⟩
            · have hpl : p = l := List.mem_singleton.mp hp3
              subst hpl
              refine ⟨hlnz, ?_⟩
              unfold wTrue
              exact I32.get?_set_self _ _ _ hllt
          have hext2 := LExt_extend hext l (lsign l) hlnz (Or.inr hu)
          have htl : wTrue (st.varvals.set (lvar l) (lsign l)) l := by
            unfold wTrue
            exact I32.get?_set_self _ _ _ hllt
          have hsatc2 : wSat (st.varvals.set (lvar l) (lsign l))
              (wClause st.store cid) := ⟨l, hm, htl⟩
          have hcov2 : wBCover { st with
              varvals := st.varvals.set (lvar l) (lsign l) }
              (decide (0 < negdlit)) (lvar negdlit) negdlit (i + 1)
              (pending ++ [l]) := by
            intro cid2 hlt2 hsat2 k hk hf2
            have hsat0 : ¬ wSat st.varvals (wClause st.store cid2) :=
              fun hs => hsat2 (wSat_set_keep hu hs)
            by_cases hfold : wFalse st.varvals
                (wWatch (wClause st.store cid2) k)
            · rcases hcov cid2 hlt2 hsat0 k hk hfold with
                hp2 | ⟨hwn, j, hj1, hj2, hget2⟩
              · obtain ⟨p, hp3, hw3⟩ := hp2
                exact Or.inl ⟨p, List.mem_append_left _ hp3, hw3⟩
              · by_cases hji : j = i - 1
                · exfalso
                  rw [hji, hget] at hget2
                  have hcc : cid = cid2 :=
                    Option.some.inj (Option.some.inj hget2)
                  subst hcc
                  exact hsat2 hsatc2
                · exact Or.inr ⟨hwn, j, by omega, hj2, hget2⟩
            · have hwl := wFalse_set_lit hlnz hf2 hfold
              exact Or.inl ⟨l,
                List.mem_append_right _ (List.mem_singleton.mpr rfl), hwl⟩
          exact ih (i + 1)
            { st with varvals := st.varvals.set (lvar l) (lsign l) }
            (pending ++ [l]) (allD ++ [l]) ok st' pending' allD' hnd0
            (by omega) hfd2 hwf2 hpend2 hext2 hsevo hcov2 h
      | move2 f s =>
        rw [hws] at h
        cases he2 : (DPLL.getB st (decide (0 < negdlit))
            (lvar negdlit)).entries.get? (i - 1) with
        | none =>
          exfalso
          rw [he2] at hget
          exact Option.noConfusion hget
        | some oe =>
          cases oe with
          | none =>
            exfalso
            rw [he2] at hget
            exact Option.noConfusion (Option.some.inj hget)
          | some cid2 =>
            rw [he2] at h
            have hcc : cid2 = cid := by
              rw [he2] at hget
              exact Option.some.inj (Option.some.inj hget)
            subst hcc
            have hscan2 : DPLL.wscan st.varvals
                ((wClause st.store cid2).drop 2) 0 0 = .move2 f s := by
              rw [← hec]
              exact hws
            obtain ⟨hwf4, hsevo4, hvar4, hcov4⟩ := dpll_move_watch_main st
              negdlit pending cid2 i f s hwf hfd hnd0 hi1 (by omega) hget
              hscan2
            have hfd4 : wFalse (DPLL.move_watch st negdlit
                (decide (0 < negdlit)) (lvar negdlit) i cid2 f s).varvals
                negdlit := by
              rw [hvar4]
              exact hfd
            have hpend4 : wPend (DPLL.move_watch st negdlit
                (decide (0 < negdlit)) (lvar negdlit) i cid2 f s).varvals
                pending := by
              rw [hvar4]
              exact hpend
            have hext4 : LExt w0 allD (DPLL.move_watch st negdlit
                (decide (0 < negdlit)) (lvar negdlit) i cid2 f s).varvals
                := by
              rw [hvar4]
              exact hext
            have hsevo4f : wSEvo w0 store0 (DPLL.move_watch st negdlit
                (decide (0 < negdlit)) (lvar negdlit) i cid2 f s).store :=
              wSEvo_trans hsevo hsevo4 (fun v hv => VExt_unass hext.2 hv)
            exact ih i _ pending allD ok st' pending' allD' hnd0 hi1 hfd4
              hwf4 hpend4 hext4 hsevo4f (hcov4 hcov) h

theorem wWF_storeNZ {st : DPLL.DState} (hwf : wWF st) : storeNZ st.store := by
  intro c hc l hl
  obtain ⟨cid, hcid⟩ := List.mem_iff_get?.mp hc
  have hlt : cid < st.store.length := by
    by_contra hge
    rw [List.get?_eq_none.mpr (by omega)] at hcid
    exact Option.noConfusion hcid
  have hcl : wClause st.store cid = c := by
    unfold wClause
    rw [hcid]
    rfl
  exact ((wWF_storeOk hwf cid hlt).2 l (by rw [hcl]; exact hl)).1

theorem wQCover_nil_inv {st : DPLL.DState} (hQ : wQCover st []) :
    wInv st := by
  intro cid hlt hsat
  constructor
  · intro hf
    obtain ⟨p, hp, _⟩ := hQ cid hlt hsat 0 (by omega) hf
    exact absurd hp (List.not_mem_nil p)
  · intro hf
    obtain ⟨p, hp, _⟩ := hQ cid hlt hsat 1 (by omega) hf
    exact absurd hp (List.not_mem_nil p)

theorem dpll_up_go_winv (bump : Nat → Int) {w0 : I32}
    {store0 : List (List Int)} (hinv0 : wInvOn w0 store0) :
    ∀ (fuel : Nat) (pending allD : List Int) (st : DPLL.DState)
      (r : ODPLL.OPropRes) (st' : DPLL.DState),
    wWF st →
    wPend st.varvals pending →
    LExt w0 allD st.varvals →
    wSEvo w0 store0 st.store →
    wQCover st pending →
    DPLL.up_go bump fuel pending allD st = some (r, st') →
    wWF st' ∧ wSEvo w0 store0 st'.store ∧
    (r = .conflict → st'.varvals = w0 ∧ wInv st') ∧
    (∀ l, r = .one l → wInv st' ∧ LExt w0 [l] st'.varvals) ∧
    (∀ ls, r = .many ls → wInv st' ∧ LExt w0 ls st'.varvals) := by
  intro fuel
  induction fuel with
  | zero =>
    intro pending allD st r st' _ _ _ _ _ h
    rw [dpll_up_go_zero] at h
    exact Option.noConfusion h
  | succ fuel ih =>
    intro pending allD st r st' hwf hpend hext hsevo hQ h
    rw [dpll_up_go_succ] at h
    cases pending with
    | nil =>
      have hinv : wInv st := wQCover_nil_inv hQ
      cases allD with
      | nil =>
        replace h : some (ODPLL.OPropRes.many [], st) = some (r, st') := h
        have hp := Option.some.inj h
        have hr : ODPLL.OPropRes.many [] = r := congrArg Prod.fst hp
        have hst : st = st' := congrArg Prod.snd hp
        subst hr
        subst hst
        refine ⟨hwf, hsevo, fun hc => ODPLL.OPropRes.noConfusion hc,
          fun l h1 => ODPLL.OPropRes.noConfusion h1, fun ls hm => ?_⟩
        have h2 : ([] : List Int) = ls := by injection hm
        subst h2
        exact ⟨hinv, hext⟩
      | cons a tl =>
        cases tl with
        | nil =>
          replace h : some (ODPLL.OPropRes.one a, st) = some (r, st') := h
          have hp := Option.some.inj h
          have hr : ODPLL.OPropRes.one a = r := congrArg Prod.fst hp
          have hst : st = st' := congrArg Prod.snd hp
          subst hr
          subst hst
          refine ⟨hwf, hsevo, fun hc => ODPLL.OPropRes.noConfusion hc,
            fun l h1 => ?_, fun ls hm => ODPLL.OPropRes.noConfusion hm⟩
          have h2 : a = l := by injection h1
          subst h2
          exact ⟨hinv, hext⟩
        | cons b tl2 =>
          replace h : some (ODPLL.OPropRes.many (a :: b :: tl2), st)
              = some (r, st') := h
          have hp := Option.some.inj h
          have hr : ODPLL.OPropRes.many (a :: b :: tl2) = r :=
            congrArg Prod.fst hp
          have hst : st = st' := congrArg Prod.snd hp
          subst hr
          subst hst
          refine ⟨hwf, hsevo, fun hc => ODPLL.OPropRes.noConfusion hc,
            fun l h1 => ODPLL.OPropRes.noConfusion h1, fun ls hm => ?_⟩
          have h2 : a :: b :: tl2 = ls := by injection hm
          subst h2
          exact ⟨hinv, hext⟩
    | cons dlit restPending =>
      replace h : (match DPLL.ub_iter bump (0 - dlit) (dlit < 0) (lvar dlit)
          (fuel + 1) 1 st restPending allD with
        | none => none
        | some (true, st2, pending2, allD2) =>
          DPLL.up_go bump fuel pending2 allD2 st2
        | some (false, st2, _, _) => some (.conflict, st2))
          = some (r, st') := h
      obtain ⟨hdnz, hdt⟩ := hpend dlit (List.mem_cons_self dlit restPending)
      have ha : (decide (dlit < 0)) = decide (0 < 0 - dlit) := by
        apply decide_eq_decide.mpr
        omega
      have hb : lvar dlit = lvar (0 - dlit) := by
        show dlit.natAbs = (0 - dlit).natAbs
        omega
      have hnd0 : (0 - dlit) ≠ 0 := by omega
      have hfd : wFalse st.varvals (0 - dlit) := by
        rw [zero_sub]
        exact wTrue_neg hdnz hdt
      have hpendR : wPend st.varvals restPending := fun p hp =>
        hpend p (List.mem_cons_of_mem dlit hp)
      have hcov1 : wBCover st (decide (0 < 0 - dlit)) (lvar (0 - dlit))
          (0 - dlit) 1 restPending := by
        intro cid hlt hsat k hk hf
        rcases hQ cid hlt hsat k hk hf with ⟨p, hp, hw⟩
        rcases List.mem_cons.mp hp with hpd | hpr
        · right
          have hwn : wWatch (wClause st.store cid) k = 0 - dlit := by
            rw [hw, hpd, zero_sub]
          refine ⟨hwn, ?_⟩
          have hwnz : wWatch (wClause st.store cid) k ≠ 0 := by
            rw [hwn]
            omega
          obtain ⟨j, hj, hget⟩ := wWF_linked hwf cid hlt k hk hwnz
          rw [hwn] at hj hget
          exact ⟨j, by omega, hj, hget⟩
        · exact Or.inl ⟨p, hpr, hw⟩
      rw [ha, hb] at h
      cases hub : DPLL.ub_iter bump (0 - dlit) (decide (0 < 0 - dlit))
          (lvar (0 - dlit)) (fuel + 1) 1 st restPending allD with
      | none =>
        rw [hub] at h
        exact Option.noConfusion h
      | some quad =>
        obtain ⟨ok, st2, p2, a2⟩ := quad
        rw [hub] at h
        have hu := dpll_ub_iter_winv bump (0 - dlit) (fuel + 1) 1 st
          restPending allD ok st2 p2 a2 hnd0 (le_refl 1) hfd hwf hpendR
          hext hsevo hcov1 hub
        cases ok with
        | true =>
          replace h : DPLL.up_go bump fuel p2 a2 st2 = some (r, st') := h
          obtain ⟨hpend2, hext2, hQ2⟩ := hu.2.2.2 rfl
          exact ih p2 a2 st2 r st' hu.1 hpend2 hext2 hu.2.1 hQ2 h
        | false =>
          replace h : some (ODPLL.OPropRes.conflict, st2) = some (r, st')
            := h
          have hp := Option.some.inj h
          have hr : ODPLL.OPropRes.conflict = r := congrArg Prod.fst hp
          have hst : st2 = st' := congrArg Prod.snd hp
          subst hr
          subst hst
          refine ⟨hu.1, hu.2.1, fun _ => ⟨hu.2.2.1 rfl, ?_⟩,
            fun l h1 => ODPLL.OPropRes.noConfusion h1,
            fun ls hm => ODPLL.OPropRes.noConfusion hm⟩
          show wInvOn st2.varvals st2.store
          rw [hu.2.2.1 rfl]
          exact wInvOn_evo hinv0 hu.2.1

theorem wWF_update3 (st : DPLL.DState) (w' : I32) (a' : List Int) (u' : Nat)
    (hlen : w'.data.length = st.varvals.data.length) (hwf : wWF st) :
    wWF { st with varvals := w', acts := a', upcount := u' } := by
  obtain ⟨h1, h2, h3, h4, h5, h6, h7⟩ := hwf
  refine ⟨?_, ?_, ?_, h4, h5, h6, h7⟩
  · show st.posb.length = w'.data.length
    rw [hlen]
    exact h1
  · show st.negb.length = w'.data.length
    rw [hlen]
    exact h2
  · intro cid hlt
    obtain ⟨hnd, hb⟩ := h3 cid hlt
    refine ⟨hnd, fun l hl => ⟨(hb l hl).1, ?_⟩⟩
    show lvar l < w'.data.length
    rw [hlen]
    exact (hb l hl).2

theorem assign_fold_get_not_mem (v : Nat) :
    ∀ (ini : List Int) (w : I32), v ∉ ini.map lvar →
    (ini.foldl (fun w l => w.set (lvar l) (lsign l)) w).get? v = w.get? v
    := by
  intro ini
  induction ini with
  | nil =>
    intro w _
    rfl
  | cons x rest ih =>
    intro w hv
    rw [List.foldl_cons]
    rw [ih _ (fun hm => hv (List.mem_cons_of_mem _ hm))]
    exact I32.get?_set_other _ _ _ _
      (fun he => hv (by rw [← he]; exact List.mem_cons_self _ _))

theorem assign_fold_true :
    ∀ (ini : List Int) (w : I32), (ini.map lvar).Nodup →
    (∀ l ∈ ini, lvar l < w.data.length) →
    ∀ l ∈ ini, (ini.foldl (fun w l => w.set (lvar l) (lsign l)) w).get?
      (lvar l) = some (lsign l) := by
  intro ini
  induction ini with
  | nil =>
    intro w _ _ l hl
    exact absurd hl (List.not_mem_nil l)
  | cons x rest ih =>
    intro w hnd hrange l hl
    rw [List.foldl_cons]
    have hnd2 := List.nodup_cons.mp (by
      rw [List.map_cons] at hnd
      exact hnd)
    rcases List.mem_cons.mp hl with hlx | hlr
    · subst hlx
      rw [assign_fold_get_not_mem _ _ _ hnd2.1]
      exact I32.get?_set_self _ _ _
        (hrange l (List.mem_cons_self l rest))
    · exact ih (w.set (lvar x) (lsign x)) hnd2.2
        (fun l2 hl2 => by
          rw [I32.length_set]
          exact hrange l2 (List.mem_cons_of_mem x hl2)) l hlr

theorem assign_fold_wTrue_keep :
    ∀ (ini : List Int) (w : I32), (ini.map lvar).Nodup →
    (∀ l ∈ ini, w.get? (lvar l) = some 0) →
    ∀ p, wTrue w p →
    wTrue (ini.foldl (fun w l => w.set (lvar l) (lsign l)) w) p := by
  intro ini
  induction ini with
  | nil =>
    intro w _ _ p hp
    exact hp
  | cons x rest ih =>
    intro w hnd hun p hp
    rw [List.foldl_cons]
    have hnd2 := List.nodup_cons.mp (by
      rw [List.map_cons] at hnd
      exact hnd)
    refine ih _ hnd2.2 ?_ p
      (wTrue_set_keep (hun x (List.mem_cons_self x rest)) hp)
    intro l hl
    have hu := hun l (List.mem_cons_of_mem x hl)
    have hv : lvar x ≠ lvar l := by
      intro he
      exact hnd2.1 (by rw [he]; exact List.mem_map_of_mem lvar hl)
    rw [I32.get?_set_other _ _ _ _ hv]
    exact hu

theorem assign_fold_wSat_keep (ini : List Int) (w : I32)
    (hnd : (ini.map lvar).Nodup)
    (hun : ∀ l ∈ ini, w.get? (lvar l) = some 0) {c : List Int}
    (hs : wSat w c) :
    wSat (ini.foldl (fun w l => w.set (lvar l) (lsign l)) w) c := by
  obtain ⟨l, hm, ht⟩ := hs
  exact ⟨l, hm, assign_fold_wTrue_keep ini w hnd hun l ht⟩

theorem assign_fold_new_false :
    ∀ (ini : List Int) (w : I32) (l : Int),
    (∀ p ∈ ini, p ≠ 0) →
    wFalse (ini.foldl (fun w q => w.set (lvar q) (lsign q)) w) l →
    ¬ wFalse w l →
    ∃ p, p ∈ ini ∧ l = -p := by
  intro ini
  induction ini with
  | nil =>
    intro w l _ hf hold
    exact absurd hf hold
  | cons x rest ih =>
    intro w l hz hf hold
    rw [List.foldl_cons] at hf
    by_cases hfx : wFalse (w.set (lvar x) (lsign x)) l
    · refine ⟨x, List.mem_cons_self x rest, ?_⟩
      exact wFalse_set_lit (hz x (List.mem_cons_self x rest)) hfx hold
    · obtain ⟨p, hp, he⟩ := ih (w.set (lvar x) (lsign x)) l
        (fun p hp => hz p (List.mem_cons_of_mem x hp)) hf hfx
      exact ⟨p, List.mem_cons_of_mem x hp, he⟩

theorem dpll_up_winv (bump : Nat → Int) (ini : List Int) (fuel : Nat)
    (st : DPLL.DState) (r : ODPLL.OPropRes) (st' : DPLL.DState)
    (hwf : wWF st) (hinv : wInv st) (hini : wIniOK ini st)
    (h : DPLL.unit_propagate bump ini fuel st = some (r, st')) :
    wWF st' ∧ wSEvo st.varvals st.store st'.store ∧
    (r = .conflict → st'.varvals = st.varvals ∧ wInv st') ∧
    (∀ l, r = .one l → wInv st' ∧ LExt st.varvals [l] st'.varvals) ∧
    (∀ ls, r = .many ls → wInv st' ∧ LExt st.varvals ls st'.varvals) := by
  obtain ⟨hnd, hprops⟩ := hini
  have hz : ∀ p ∈ ini, p ≠ 0 := fun p hp => (hprops p hp).1
  have hrange : ∀ l ∈ ini, lvar l < st.varvals.data.length :=
    fun l hl => (hprops l hl).2.1
  have hun : ∀ l ∈ ini, st.varvals.get? (lvar l) = some 0 :=
    fun l hl => (hprops l hl).2.2
  have hext1 : LExt st.varvals ini
      (ini.foldl (fun w l => w.set (lvar l) (lsign l)) st.varvals) := by
    have h2 := assign_fold_ext ini [] st.varvals (LExt_refl _)
      (fun l hl => ⟨hz l hl, Or.inr (hun l hl)⟩)
    simpa using h2
  have hwf1 : wWF { st with
      upcount := st.upcount + 1,
      varvals := ini.foldl (fun w l => w.set (lvar l) (lsign l))
        st.varvals } := by
    have h2 := wWF_update3 st
      (ini.foldl (fun w l => w.set (lvar l) (lsign l)) st.varvals)
      st.acts (st.upcount + 1) hext1.2.1 hwf
    exact h2
  have hpend1 : wPend
      (ini.foldl (fun w l => w.set (lvar l) (lsign l)) st.varvals) ini :=
    fun p hp => ⟨hz p hp, assign_fold_true ini st.varvals hnd hrange p hp⟩
  have hQ1 : wQCover { st with
      upcount := st.upcount + 1,
      varvals := ini.foldl (fun w l => w.set (lvar l) (lsign l))
        st.varvals } ini := by
    intro cid hlt hsat k hk hf
    have hsat0 : ¬ wSat st.varvals (wClause st.store cid) :=
      fun hs => hsat (assign_fold_wSat_keep ini st.varvals hnd hun hs)
    have hinvc := hinv cid hlt hsat0
    have hnf0 : ¬ wFalse st.varvals (wWatch (wClause st.store cid) k) := by
      rcases (by omega : k = 0 ∨ k = 1) with h0 | h1
      · rw [h0]
        exact hinvc.1
      · rw [h1]
        exact hinvc.2
    obtain ⟨p, hp, he⟩ := assign_fold_new_false ini st.varvals _ hz hf hnf0
    exact ⟨p, hp, he⟩
  have hup := dpll_up_go_winv bump hinv fuel ini ini
    { st with
      upcount := st.upcount + 1,
      varvals := ini.foldl (fun w l => w.set (lvar l) (lsign l))
        st.varvals } r st' hwf1 hpend1 hext1 (wSEvo_refl st.varvals st.store)
    hQ1 h
  exact hup

theorem dpll_sat_winv_cont (bump : Nat → Int) (fuel : Nat)
    (ih : ∀ (initLits : List Int) (st : DPLL.DState)
      (b : Bool) (m : Option (List Int)) (st2 : DPLL.DState),
      wWF st → wInv st → wIniOK initLits st →
      DPLL.satisfiable_at bump fuel initLits st = some (b, m, st2) →
      wWF st2 ∧ wInv st2 ∧ wSEvo st.varvals st.store st2.store ∧
      st2.varvals.data.length = st.varvals.data.length ∧
      (b = false → st2.varvals = st.varvals))
    (pr : ODPLL.OPropRes) (w0 : I32) (s0 : List (List Int))
    (st2' : DPLL.DState) (b : Bool) (m : Option (List Int))
    (st2 : DPLL.DState)
    (hwf2 : wWF st2') (hinv2 : wInv st2') (hinv0 : wInvOn w0 s0)
    (hsev : wSEvo w0 s0 st2'.store)
    (hdown : ∀ v, st2'.varvals.get? v = some 0 → w0.get? v = some 0)
    (hlen2 : st2'.varvals.data.length = w0.data.length)
    (hres : ODPLL.old_restore pr st2'.varvals = w0)
    (h : (if DPLL.next_var st2'.varvals st2'.acts = 0 then
        some (true, some (ST.store_model st2'.varvals), st2')
      else
        match DPLL.satisfiable_at bump fuel
            [(DPLL.next_var st2'.varvals st2'.acts : Int)] st2' with
        | none => none
        | some (true, m, st3) => some (true, m, st3)
        | some (false, _, st3) =>
          match DPLL.satisfiable_at bump fuel
              [-(DPLL.next_var st2'.varvals st2'.acts : Int)] st3 with
          | none => none
          | some (true, m, st4) => some (true, m, st4)
          | some (false, _, st4) =>
            some (false, none,
              { st4 with varvals := ODPLL.old_restore pr st4.varvals }))
      = some (b, m, st2)) :
    wWF st2 ∧ wInv st2 ∧ wSEvo w0 s0 st2.store ∧
    st2.varvals.data.length = w0.data.length ∧
    (b = false → st2.varvals = w0) := by
  by_cases hnv : DPLL.next_var st2'.varvals st2'.acts = 0
  · rw [if_pos hnv] at h
    simp only [Option.some.injEq, Prod.mk.injEq] at h
    obtain ⟨hb, -, hst⟩ := h
    subst hst
    exact ⟨hwf2, hinv2, hsev, hlen2,
      fun hf => Bool.noConfusion (hb.trans hf)⟩
  · rw [if_neg hnv] at h
    have hget : st2'.varvals.get? (DPLL.next_var st2'.varvals st2'.acts)
        = some 0 := by
      rcases dpll_next_var_unassigned st2'.varvals st2'.acts with h0 | hu
      · exact absurd h0 hnv
      · exact hu
    have hlt : DPLL.next_var st2'.varvals st2'.acts
        < st2'.varvals.data.length := I32.get?_lt_length hget
    have hini1 : wIniOK [(DPLL.next_var st2'.varvals st2'.acts : Int)]
        st2' := by
      refine ⟨List.nodup_singleton _, ?_⟩
      intro l hl
      have hle := List.mem_singleton.mp hl
      subst hle
      refine ⟨Int.natCast_ne_zero.mpr hnv, ?_, ?_⟩
      · show ((DPLL.next_var st2'.varvals st2'.acts : Int)).natAbs
          < st2'.varvals.data.length
        rw [Int.natAbs_ofNat]
        exact hlt
      · show st2'.varvals.get?
          ((DPLL.next_var st2'.varvals st2'.acts : Int)).natAbs = some 0
        rw [Int.natAbs_ofNat]
        exact hget
    cases hc1 : DPLL.satisfiable_at bump fuel
        [(DPLL.next_var st2'.varvals st2'.acts : Int)] st2' with
    | none => rw [hc1] at h; exact Option.noConfusion h
    | some t1 =>
      obtain ⟨b1, m1, st3⟩ := t1
      rw [hc1] at h
      obtain ⟨hwf3, hinv3, hsev3', hlen3, hbk3⟩ :=
        ih _ st2' b1 m1 st3 hwf2 hinv2 hini1 hc1
      have hsev3 : wSEvo w0 s0 st3.store :=
        wSEvo_trans hsev hsev3' hdown
      cases b1 with
      | true =>
        replace h : some (true, m1, st3) = some (b, m, st2) := h
        simp only [Option.some.injEq, Prod.mk.injEq] at h
        obtain ⟨hb, -, hst⟩ := h
        subst hst
        exact ⟨hwf3, hinv3, hsev3, hlen3.trans hlen2,
          fun hf => Bool.noConfusion (hb.trans hf)⟩
      | false =>
        have hv3 : st3.varvals = st2'.varvals := hbk3 rfl
        have hdown3 : ∀ v, st3.varvals.get? v = some 0 →
            w0.get? v = some 0 := by
          intro v hv
          rw [hv3] at hv
          exact hdown v hv
        have hini2 : wIniOK
            [-(DPLL.next_var st2'.varvals st2'.acts : Int)] st3 := by
          refine ⟨List.nodup_singleton _, ?_⟩
          intro l hl
          have hle := List.mem_singleton.mp hl
          subst hle
          refine ⟨neg_ne_zero.mpr (Int.natCast_ne_zero.mpr hnv), ?_, ?_⟩
          · show ((-(DPLL.next_var st2'.varvals st2'.acts : Int)).natAbs)
              < st3.varvals.data.length
            rw [Int.natAbs_neg, Int.natAbs_ofNat, hv3]
            exact hlt
          · show st3.varvals.get?
              ((-(DPLL.next_var st2'.varvals st2'.acts : Int)).natAbs)
              = some 0
            rw [Int.natAbs_neg, Int.natAbs_ofNat, hv3]
            exact hget
        replace h : (match DPLL.satisfiable_at bump fuel
            [-(DPLL.next_var st2'.varvals st2'.acts : Int)] st3 with
          | none => none
          | some (true, m, st4) => some (true, m, st4)
          | some (false, _, st4) =>
            some (false, none,
              { st4 with varvals := ODPLL.old_restore pr st4.varvals }))
            = some (b, m, st2) := h
        cases hc2 : DPLL.satisfiable_at bump fuel
            [-(DPLL.next_var st2'.varvals st2'.acts : Int)] st3 with
        | none => rw [hc2] at h; exact Option.noConfusion h
        | some t2 =>
          obtain ⟨b2, m2, st4⟩ := t2
          rw [hc2] at h
          obtain ⟨hwf4, hinv4, hsev4', hlen4, hbk4⟩ :=
            ih _ st3 b2 m2 st4 hwf3 hinv3 hini2 hc2
          have hsev4 : wSEvo w0 s0 st4.store :=
            wSEvo_trans hsev3 hsev4' hdown3
          cases b2 with
          | true =>
            replace h : some (true, m2, st4) = some (b, m, st2) := h
            simp only [Option.some.injEq, Prod.mk.injEq] at h
            obtain ⟨hb, -, hst⟩ := h
            subst hst
            refine ⟨hwf4, hinv4, hsev4, ?_,
              fun hf => Bool.noConfusion (hb.trans hf)⟩
            rw [hlen4, hv3]
            exact hlen2
          | false =>
            have hv4 : st4.varvals = st3.varvals := hbk4 rfl
            replace h : some (false, (none : Option (List Int)),
                ({ st4 with
                  varvals := ODPLL.old_restore pr st4.varvals }))
                = some (b, m, st2) := h
            simp only [Option.some.injEq, Prod.mk.injEq] at h
            obtain ⟨hb, -, hst⟩ := h
            have hvals : ODPLL.old_restore pr st4.varvals = w0 := by
              rw [hv4, hv3, hres]
            have hlenr : (ODPLL.old_restore pr st4.varvals).data.length
                = st4.varvals.data.length := by
              rw [hvals, hlen4, hv3, hlen2]
            have hwf5 : wWF { st4 with
                varvals := ODPLL.old_restore pr st4.varvals } :=
              wWF_update3 st4 (ODPLL.old_restore pr st4.varvals)
                st4.acts st4.upcount hlenr hwf4
            have hinv5 : wInv { st4 with
                varvals := ODPLL.old_restore pr st4.varvals } := by
              show wInvOn (ODPLL.old_restore pr st4.varvals) st4.store
              rw [hvals]
              exact wInvOn_evo hinv0 hsev4
            subst hst
            refine ⟨hwf5, hinv5, hsev4, ?_, fun _ => hvals⟩
            show (ODPLL.old_restore pr st4.varvals).data.length
              = w0.data.length
            rw [hvals]

theorem dpll_sat_winv (bump : Nat → Int) :
    ∀ (fuel : Nat) (initLits : List Int) (st : DPLL.DState)
      (b : Bool) (m : Option (List Int)) (st2 : DPLL.DState),
    wWF st → wInv st → wIniOK initLits st →
    DPLL.satisfiable_at bump fuel initLits st = some (b, m, st2) →
    wWF st2 ∧ wInv st2 ∧ wSEvo st.varvals st.store st2.store ∧
    st2.varvals.data.length = st.varvals.data.length ∧
    (b = false → st2.varvals = st.varvals) := by
  intro fuel
  induction fuel with
  | zero =>
    intro initLits st b m st2 _ _ _ h
    rw [dpll_sat_zero] at h
    exact Option.noConfusion h
  | succ fuel ih =>
    intro initLits st b m st2 hwf hinv hini h
    rw [dpll_sat_succ] at h
    by_cases hinit : initLits ≠ []
    · rw [if_pos hinit] at h
      cases hup : DPLL.unit_propagate bump initLits (fuel + 1) st with
      | none => rw [hup] at h; exact Option.noConfusion h
      | some prst =>
        obtain ⟨pr, st2'⟩ := prst
        rw [hup] at h
        obtain ⟨hwf2, hsev2, hconf, hone, hmany⟩ :=
          dpll_up_winv bump initLits (fuel + 1) st pr st2' hwf hinv hini hup
        cases pr with
        | conflict =>
          replace h : some (false, (none : Option (List Int)), st2')
              = some (b, m, st2) := h
          simp only [Option.some.injEq, Prod.mk.injEq] at h
          obtain ⟨hb, -, hst⟩ := h
          obtain ⟨hv2', hinv2'⟩ := hconf rfl
          subst hst
          exact ⟨hwf2, hinv2', hsev2, by rw [hv2'], fun _ => hv2'⟩
        | one l =>
          obtain ⟨hinv2', hlext⟩ := hone l rfl
          exact dpll_sat_winv_cont bump fuel ih (.one l) st.varvals
            st.store st2' b m st2 hwf2 hinv2' hinv hsev2
            (fun v hv => VExt_unass hlext.2 hv) hlext.2.1
            (odpll_restore_one hlext) h
        | many ls =>
          obtain ⟨hinv2', hlext⟩ := hmany ls rfl
          exact dpll_sat_winv_cont bump fuel ih (.many ls) st.varvals
            st.store st2' b m st2 hwf2 hinv2' hinv hsev2
            (fun v hv => VExt_unass hlext.2 hv) hlext.2.1
            (odpll_restore_many hlext) h
    · rw [if_neg hinit] at h
      have hres : ODPLL.old_restore (.one 0) st.varvals = st.varvals := by
        show (if (0 : Int) < 0 then st.varvals.set (lvar 0) 0
          else if (0 : Int) ≠ 0 then st.varvals.set (lvar 0) 0
          else st.varvals) = st.varvals
        rw [if_neg (by omega : ¬ (0 : Int) < 0),
          if_neg (by simp : ¬ (0 : Int) ≠ 0)]
      exact dpll_sat_winv_cont bump fuel ih (.one 0) st.varvals st.store
        st b m st2 hwf hinv hinv (wSEvo_refl st.varvals st.store)
        (fun _ hv => hv) rfl hres h

/-- C7: in the watched-literal DPLL engine, every steady state between
    propagation bursts satisfies the watched-literal invariant: every
    clause not satisfied by the current assignment has both of its watched
    literals (meta slots 0 and 1) non-False under the current assignment.
    Starting from a structurally well-formed state (`wWF`: nonzero distinct
    clause bodies, consistent watch/bucket linkage) that satisfies the
    invariant, with distinct nonzero unassigned decision literals, the
    state returned by a whole propagation burst (`unit_propagate`) and the
    state left behind by a whole decision frame (`satisfiable_at`) are
    again well-formed and satisfy the invariant — so the invariant is
    preserved across watch moves and across chronological backtracking even
    though clause and bucket mutations are not undone. -/
theorem C7_watched_invariant (bump : Nat → Int) (fuel : Nat)
    (initLits : List Int) (st : DPLL.DState)
    (hwf : wWF st) (hinv : wInv st) (hini : wIniOK initLits st) :
    (∀ pr st2,
      DPLL.unit_propagate bump initLits fuel st = some (pr, st2) →
      wWF st2 ∧ wInv st2) ∧
    (∀ b m st2,
      DPLL.satisfiable_at bump fuel initLits st = some (b, m, st2) →
      wWF st2 ∧ wInv st2) := by
  constructor
  · intro pr st2 h
    obtain ⟨hwf2, -, hconf, hone, hmany⟩ :=
      dpll_up_winv bump initLits fuel st pr st2 hwf hinv hini h
    refine ⟨hwf2, ?_⟩
    cases pr with
    | conflict => exact (hconf rfl).2
    | one l => exact (hone l rfl).1
    | many ls => exact (hmany ls rfl).1
  · intro b m st2 h
    obtain ⟨hwf2, hinv2, -, -, -⟩ :=
      dpll_sat_winv bump fuel initLits st b m st2 hwf hinv hini h
    exact ⟨hwf2, hinv2⟩

/-- C7 witness: a concrete well-formed two-clause watched store (clauses
    `[1]` and `[-1]`) on which a full decision frame runs to completion;
    the final state is again well-formed and satisfies the watched-literal
    invariant. -/
theorem C7_watched_invariant_witness :
    wWF ({ store := [[1, 0, 1], [-1, 0, -1]],
           posb := [⟨0, []⟩, ⟨1, [some 0]⟩],
           negb := [⟨0, []⟩, ⟨1, [some 1]⟩],
           varvals := ⟨[0, 0]⟩, acts := [1, 3], upcount := 1 } :
          DPLL.DState) ∧
    wInv ({ store := [[1, 0, 1], [-1, 0, -1]],
            posb := [⟨0, []⟩, ⟨1, [some 0]⟩],
            negb := [⟨0, []⟩, ⟨1, [some 1]⟩],
            varvals := ⟨[0, 0]⟩, acts := [1, 3], upcount := 1 } :
          DPLL.DState) :=
  (C7_watched_invariant (fun n => 2 * (n : Int)) 3 [1]
      { store := [[1, 0, 1], [-1, 0, -1]],
        posb := [⟨0, []⟩, ⟨1, [some 0]⟩],
        negb := [⟨0, []⟩, ⟨1, [some 1]⟩],
        varvals := ⟨[0, 0]⟩, acts := [1, 1], upcount := 0 }
      (by decide) (by decide) (by decide)).2 false none
    { store := [[1, 0, 1], [-1, 0, -1]],
      posb := [⟨0, []⟩, ⟨1, [some 0]⟩],
      negb := [⟨0, []⟩, ⟨1, [some 1]⟩],
      varvals := ⟨[0, 0]⟩, acts := [1, 3], upcount := 1 }
    (by decide)
